import Mathlib

/-!
Shallow embedding of `visualizer_script.py`, the single source file of the
Infrastructure-Network-Analyzer repository, together with theorems settling
the specification claims about it.

The Python dict is modelled as an insertion-ordered association list with
unique keys; the Python set as an insertion-ordered duplicate-free list.
Machine-level behaviour (CDN fetching, file IO) is outside the claims; the
embedded functions are `parse_input` over the record sequence produced by
the csv reader, `find_articulation_points`, and the edge-list portion of
`build_html`.
-/

namespace NetViz

/-- Whitespace characters recognised by Python `str.strip()` and `int()`. -/
def isPySpace (c : Char) : Bool :=
  c = ' ' || c = '\t' || c = '\n' || c = '\r' || c = '\x0b' || c = '\x0c'

/-- Remove leading and trailing Python whitespace from a character list. -/
def stripChars (l : List Char) : List Char :=
  ((l.dropWhile isPySpace).reverse.dropWhile isPySpace).reverse

/-- Python `s.strip()`. -/
def pyStrip (s : String) : String := ⟨stripChars s.data⟩

/-- Value of a list of decimal digit characters. -/
def digitsToNat (l : List Char) : Nat :=
  l.foldl (fun n c => 10 * n + (c.toNat - 48)) 0

/-- Python `int(s)` on decimal string literals: surrounding whitespace is
ignored, an optional single sign precedes a nonempty digit run; anything
else raises ValueError, modelled as `none`. -/
def pyInt (s : String) : Option Int :=
  match stripChars s.data with
  | [] => none
  | c :: cs =>
    if c = '-' then
      if cs ≠ [] ∧ cs.all Char.isDigit then some (-(digitsToNat cs : Int)) else none
    else if c = '+' then
      if cs ≠ [] ∧ cs.all Char.isDigit then some ((digitsToNat cs : Int)) else none
    else
      if (c :: cs).all Char.isDigit then some ((digitsToNat (c :: cs) : Int)) else none

/-- One record of the TSV input, as the csv.DictReader collaborator exposes it
to `parse_input`: the raw value of the primary identifier field (`none` models
a value that is absent, which also aborts the row in the source), the four
descriptive fields, and the five optional neighbor fields connectionID1 to
connectionID5 (`none` models a column that is absent from the record). -/
structure Row where
  id : Option String
  nodeName : String
  group : String
  unit : String
  contact : String
  conn1 : Option String
  conn2 : Option String
  conn3 : Option String
  conn4 : Option String
  conn5 : Option String
  deriving DecidableEq, Repr

/-- A parsed node record, line 34-40 of the source. -/
structure NodeRec where
  id : Int
  name : String
  group : String
  unit : String
  contact : String
  deriving DecidableEq, Repr

/-- The adjacency dict: an insertion-ordered association list from node id to
its neighbor set, the set being an insertion-ordered duplicate-free list. -/
abbrev AdjMap := List (Int × List Int)

/-- Lookup of the entry for key `u`, as an option. -/
def adjFind (adj : AdjMap) (u : Int) : Option (List Int) :=
  (adj.find? (fun p => p.1 == u)).map Prod.snd

/-- Python `adj.get(u, default-empty)` and, where the key is known present,
`adj[u]`. -/
def adjGet (adj : AdjMap) (u : Int) : List Int :=
  (adjFind adj u).getD []

/-- The key list of the dict, in insertion order. -/
def adjKeys (adj : AdjMap) : List Int := adj.map Prod.fst

/-- Python `adj.setdefault(u, set())`: appends a fresh empty entry when `u` is
not yet a key. -/
def setdefault (adj : AdjMap) (u : Int) : AdjMap :=
  if (adjFind adj u).isSome then adj else adj ++ [(u, [])]

/-- Python `adj[u].add(v)`: insert `v` into the neighbor set of the entry
keyed `u` (a no-op when `u` is not a key; the source only calls it on
present keys). -/
def addNeighbor (adj : AdjMap) (u v : Int) : AdjMap :=
  adj.map (fun p => if p.1 = u then (p.1, if v ∈ p.2 then p.2 else p.2 ++ [v]) else p)

/-- Lines 43-51 of the source: process one optional neighbor field of the row
whose primary id is `nid`: skip the field when absent, empty or blank, parse
it, discard a ValueError or a self-reference, otherwise add the target to
the row node's neighbor set. -/
def processConn (nid : Int) (adj : AdjMap) (field : Option String) : AdjMap :=
  match field with
  | none => adj
  | some s =>
    if s ≠ "" ∧ pyStrip s ≠ "" then
      match pyInt s with
      | some target => if target ≠ nid then addNeighbor adj nid target else adj
      | none => adj
    else adj

/-- The five optional neighbor fields of a row, in the order the source
visits them. -/
def rowConns (r : Row) : List (Option String) :=
  [r.conn1, r.conn2, r.conn3, r.conn4, r.conn5]

/-- The node dictionary appended at line 34-40 for a row whose primary id
parsed to `nid`. -/
def mkNode (nid : Int) (r : Row) : NodeRec :=
  ⟨nid, r.nodeName, r.group, r.unit, r.contact⟩

/-- Python `int(row['id'])` viewed as a partial function: `none` when the
value is absent or not a parseable integer, both of which raise in the
source and abort the run. -/
def parseId (r : Row) : Option Int := r.id.bind pyInt

/-- The row loop of lines 32-51, threading the node list and the raw (not yet
symmetrized) adjacency map; the first unparseable primary identifier aborts
with an error. -/
def parseRowsFrom : List Row → List NodeRec → AdjMap →
    Except String (List NodeRec × AdjMap)
  | [], nodes, adj => .ok (nodes, adj)
  | r :: rest, nodes, adj =>
    match parseId r with
    | none => .error "invalid literal for int() with base 10"
    | some nid =>
        parseRowsFrom rest (nodes ++ [mkNode nid r])
          ((rowConns r).foldl (processConn nid) (setdefault adj nid))

/-- Inner loop of lines 53-55 for one snapshot key `u`: for every current
neighbor `v` of `u`, perform `adj.setdefault(v, set()).add(u)`. -/
def symmetrizeKey (adj : AdjMap) (u : Int) : AdjMap :=
  (adjGet adj u).foldl (fun a v => addNeighbor (setdefault a v) v u) adj

/-- Lines 52-55: the symmetrization pass. `list(adj.items())` snapshots the
keys before the loop, but each key's neighbor set is the live mutable set,
read at the moment that key is processed. -/
def symmetrize (adj : AdjMap) : AdjMap :=
  (adjKeys adj).foldl symmetrizeKey adj

/-- Lines 21-56: `parse_input`, over the record sequence the csv reader
yields. Returns the node list and the symmetrized adjacency map, or an
error when some primary identifier fails to parse. -/
def parse_input (rows : List Row) : Except String (List NodeRec × AdjMap) :=
  match parseRowsFrom rows [] [] with
  | .error e => .error e
  | .ok (nodes, adj) => .ok (nodes, symmetrize adj)

/-- Lookup in one of the bookkeeping dicts of the finder, as an option:
Python `m.get(k)`. -/
def mapGetOpt {α : Type} (m : List (Int × α)) (k : Int) : Option α :=
  (m.find? (fun p => p.1 == k)).map Prod.snd

/-- Lookup with a default; the source only reads keys it has written, so the
default is never returned on the executions the source performs. -/
def mapGetD {α : Type} (m : List (Int × α)) (k : Int) (d : α) : α :=
  (mapGetOpt m k).getD d

/-- Python `m[k] = a` on a bookkeeping dict: overwrite the entry when the key
is present, append it otherwise. -/
def mapUpd {α : Type} (m : List (Int × α)) (k : Int) (a : α) : List (Int × α) :=
  if (m.find? (fun p => p.1 == k)).isSome then
    m.map (fun p => if p.1 = k then (k, a) else p)
  else m ++ [(k, a)]

/-- Python `s.add(x)` on a set modelled as a duplicate-free list. -/
def setAdd (l : List Int) (x : Int) : List Int :=
  if x ∈ l then l else l ++ [x]

/-- The mutable state the nested `dfs` closes over: the discovery counter,
the visited set, the disc, low and parent dicts, and the articulation set. -/
structure DfsState where
  time : Nat
  visited : List Int
  disc : List (Int × Nat)
  low : List (Int × Nat)
  parent : List (Int × Int)
  articulation : List Int
  deriving DecidableEq, Repr

/-- The body of the loop over `adj.get(u, [])` at lines 80-94, for one
neighbor `v`; the pair threads the state with the local `children` counter. -/
def dfsVisitChild (dfsRec : Int → DfsState → DfsState)
    (u : Int) (sc : DfsState × Nat) (v : Int) : DfsState × Nat :=
  let s := sc.1
  let children := sc.2
  if v ∉ s.visited then
    let s := { s with parent := mapUpd s.parent v u }
    let children := children + 1
    let s := dfsRec v s
    let s := { s with low := mapUpd s.low u
                        (min (mapGetD s.low u 0) (mapGetD s.low v 0)) }
    let s := if mapGetOpt s.parent u = none ∧ children > 1 then
               { s with articulation := setAdd s.articulation u } else s
    let s := if mapGetOpt s.parent u ≠ none ∧
                mapGetD s.low v 0 ≥ mapGetD s.disc u 0 then
               { s with articulation := setAdd s.articulation u } else s
    (s, children)
  else if mapGetOpt s.parent u ≠ some v then
    ({ s with low := mapUpd s.low u
                (min (mapGetD s.low u 0) (mapGetD s.disc v 0)) }, children)
  else (s, children)

/-- Lines 73-94: the recursive `dfs`, with a fuel parameter bounding the
native recursion depth. Every recursive call is on a node not yet visited,
so any fuel at least the number of distinct reachable node ids makes the
zero-fuel branch unreachable. -/
def dfsGo (adj : AdjMap) : Nat → Int → DfsState → DfsState
  | 0, _, s => s
  | fuel + 1, u, s =>
    let s := { s with visited := setAdd s.visited u,
                      disc := mapUpd s.disc u s.time,
                      low := mapUpd s.low u s.time,
                      time := s.time + 1 }
    ((adjGet adj u).foldl (dfsVisitChild (dfsGo adj fuel) u) (s, 0)).1

/-- Fuel ample for any traversal of `adj`: one unit per key plus one per
listed neighbor exceeds the number of distinct visitable node ids. -/
def dfsFuel (adj : AdjMap) : Nat :=
  (adj.map (fun p => p.2.length + 1)).sum + 1

/-- The initial value of the finder state, lines 66-71. -/
def initState : DfsState := ⟨0, [], [], [], [], []⟩

/-- Lines 59-99: `find_articulation_points`. The outer loop of lines 96-98
starts a DFS from every not yet visited key; the articulation set is
returned (modelled in insertion order). -/
def find_articulation_points (adj : AdjMap) : List Int :=
  ((adjKeys adj).foldl
    (fun s u => if u ∈ s.visited then s else dfsGo adj (dfsFuel adj) u s)
    initState).articulation

/-- Python `frozenset((u, v))`: the unordered pair, canonicalized. -/
def pairKey (u v : Int) : Int × Int := (min u v, max u v)

/-- Lines 142-150 of `build_html`: emit each undirected edge once, guarded by
the `added` set of frozenset keys; the state is the pair of the `added` list
and the `vis_edges` list. -/
def build_html_edges (adj : AdjMap) : List (Int × Int) :=
  (adj.foldl
    (fun (st : List (Int × Int) × List (Int × Int)) p =>
      p.2.foldl
        (fun st v =>
          if pairKey p.1 v ∈ st.1 then st
          else (st.1 ++ [pairKey p.1 v], st.2 ++ [(p.1, v)]))
        st)
    ([], [])).2

/-! Basic lemmas about the dict operations. -/

theorem adjFind_cons (p : Int × List Int) (t : AdjMap) (u : Int) :
    adjFind (p :: t) u = if p.1 = u then some p.2 else adjFind t u := by
  by_cases h : p.1 = u <;>
    simp [adjFind, List.find?_cons, h]

theorem adjFind_isSome_iff (adj : AdjMap) (u : Int) :
    (adjFind adj u).isSome ↔ u ∈ adjKeys adj := by
  induction adj with
  | nil => simp [adjFind, adjKeys]
  | cons p t ih =>
    rw [adjFind_cons]
    by_cases h : p.1 = u
    · simp [adjKeys, h] at ih ⊢
    · simp [adjKeys, h] at ih ⊢
      simp [ih]
      exact fun hh => (h hh.symm).elim

theorem adjFind_eq_none_iff (adj : AdjMap) (u : Int) :
    adjFind adj u = none ↔ u ∉ adjKeys adj := by
  rw [← adjFind_isSome_iff, ← Option.not_isSome_iff_eq_none]

theorem adjFind_append (l₁ l₂ : AdjMap) (u : Int) :
    adjFind (l₁ ++ l₂) u =
      match adjFind l₁ u with
      | some x => some x
      | none => adjFind l₂ u := by
  induction l₁ with
  | nil => simp [adjFind]
  | cons p t ih =>
    rw [List.cons_append, adjFind_cons, adjFind_cons]
    by_cases h : p.1 = u <;> simp [h, ih]

theorem adjGet_eq_nil_of_not_mem {adj : AdjMap} {u : Int}
    (h : u ∉ adjKeys adj) : adjGet adj u = [] := by
  have : adjFind adj u = none := by
    cases hf : adjFind adj u with
    | none => rfl
    | some l =>
        exact absurd ((adjFind_isSome_iff adj u).1 (by simp [hf])) h
  simp [adjGet, this]

theorem mem_adjKeys_of_adjGet_ne_nil {adj : AdjMap} {u : Int}
    (h : adjGet adj u ≠ []) : u ∈ adjKeys adj := by
  by_contra hc
  exact h (adjGet_eq_nil_of_not_mem hc)

theorem adjGet_setdefault (adj : AdjMap) (u w : Int) :
    adjGet (setdefault adj u) w = adjGet adj w := by
  unfold setdefault
  by_cases h : (adjFind adj u).isSome
  · simp [h]
  · rw [if_neg h]
    unfold adjGet
    rw [adjFind_append]
    cases hf : adjFind adj w with
    | some l => simp
    | none =>
        rw [adjFind_cons]
        by_cases hu : u = w <;> simp [hu, adjFind]

theorem adjKeys_append (l₁ l₂ : AdjMap) :
    adjKeys (l₁ ++ l₂) = adjKeys l₁ ++ adjKeys l₂ := by
  simp [adjKeys]

theorem adjKeys_setdefault (adj : AdjMap) (u : Int) :
    adjKeys (setdefault adj u) =
      if u ∈ adjKeys adj then adjKeys adj else adjKeys adj ++ [u] := by
  unfold setdefault
  by_cases h : u ∈ adjKeys adj
  · rw [if_pos ((adjFind_isSome_iff adj u).2 h), if_pos h]
  · have h2 : ¬(adjFind adj u).isSome = true := fun hs =>
      h ((adjFind_isSome_iff adj u).1 hs)
    rw [if_neg h2, if_neg h, adjKeys_append]
    rfl

theorem addNeighbor_cons (p : Int × List Int) (t : AdjMap) (u v : Int) :
    addNeighbor (p :: t) u v =
      (if p.1 = u then (p.1, if v ∈ p.2 then p.2 else p.2 ++ [v]) else p)
        :: addNeighbor t u v := rfl

theorem adjKeys_addNeighbor (adj : AdjMap) (u v : Int) :
    adjKeys (addNeighbor adj u v) = adjKeys adj := by
  induction adj with
  | nil => rfl
  | cons p t ih =>
    rw [addNeighbor_cons]
    by_cases h : p.1 = u <;> simp [adjKeys, h] at ih ⊢ <;> exact ih

theorem adjKeys_cons (p : Int × List Int) (t : AdjMap) :
    adjKeys (p :: t) = p.1 :: adjKeys t := rfl

theorem adjGet_cons_ne {u : Int} {p : Int × List Int} (t : AdjMap)
    (hp : ¬(p.1 = u)) : adjGet (p :: t) u = adjGet t u := by
  unfold adjGet
  rw [adjFind_cons, if_neg hp]

theorem adjFind_addNeighbor_ne {w u : Int} (adj : AdjMap) (v : Int)
    (h : w ≠ u) :
    adjFind (addNeighbor adj u v) w = adjFind adj w := by
  induction adj with
  | nil => rfl
  | cons p t ih =>
    rw [addNeighbor_cons, adjFind_cons, adjFind_cons]
    by_cases hp : p.1 = u
    · have h1 : ¬(p.1 = w) := by rw [hp]; exact fun hh => h hh.symm
      simp only [if_pos hp, h1, if_false]
      exact ih
    · simp only [if_neg hp]
      by_cases hw : p.1 = w
      · rw [if_pos hw, if_pos hw]
      · rw [if_neg hw, if_neg hw]
        exact ih

theorem adjGet_addNeighbor_ne {w u : Int} (adj : AdjMap) (v : Int)
    (h : w ≠ u) :
    adjGet (addNeighbor adj u v) w = adjGet adj w := by
  unfold adjGet
  rw [adjFind_addNeighbor_ne adj v h]

theorem adjFind_addNeighbor_self {u : Int} {adj : AdjMap} (v : Int)
    (h : u ∈ adjKeys adj) :
    adjFind (addNeighbor adj u v) u =
      some (if v ∈ adjGet adj u then adjGet adj u else adjGet adj u ++ [v]) := by
  induction adj with
  | nil => simp [adjKeys] at h
  | cons p t ih =>
    rw [addNeighbor_cons]
    by_cases hp : p.1 = u
    · simp [hp, adjGet, adjFind_cons]
    · rw [if_neg hp, adjFind_cons, if_neg hp]
      have h' : u ∈ adjKeys t := by
        rw [adjKeys_cons] at h
        rcases List.mem_cons.1 h with h1 | h1
        · exact absurd h1.symm hp
        · exact h1
      rw [adjGet_cons_ne t hp]
      exact ih h'

theorem adjGet_addNeighbor_self {u : Int} {adj : AdjMap} (v : Int)
    (h : u ∈ adjKeys adj) :
    adjGet (addNeighbor adj u v) u =
      if v ∈ adjGet adj u then adjGet adj u else adjGet adj u ++ [v] := by
  unfold adjGet
  rw [adjFind_addNeighbor_self v h]
  rfl

theorem addNeighbor_of_not_mem {u : Int} {adj : AdjMap} (v : Int)
    (h : u ∉ adjKeys adj) :
    addNeighbor adj u v = adj := by
  induction adj with
  | nil => rfl
  | cons p t ih =>
    have hp : ¬(p.1 = u) := fun hh => h (by
      rw [adjKeys_cons, hh]
      exact List.mem_cons_self u (adjKeys t))
    have h' : u ∉ adjKeys t := fun hm => h (by
      rw [adjKeys_cons]
      exact List.mem_cons_of_mem p.1 hm)
    rw [addNeighbor_cons, if_neg hp, ih h']

theorem mem_adjGet_addNeighbor {x w u v : Int} {adj : AdjMap} :
    x ∈ adjGet (addNeighbor adj u v) w ↔
      x ∈ adjGet adj w ∨ (w = u ∧ x = v ∧ u ∈ adjKeys adj) := by
  by_cases hw : w = u
  · subst hw
    by_cases hk : w ∈ adjKeys adj
    · rw [adjGet_addNeighbor_self v hk]
      by_cases hv : v ∈ adjGet adj w
      · rw [if_pos hv]
        constructor
        · exact fun h => Or.inl h
        · rintro (h | ⟨_, hx, _⟩)
          · exact h
          · exact hx ▸ hv
      · rw [if_neg hv]
        rw [List.mem_append]
        constructor
        · rintro (h | h)
          · exact Or.inl h
          · exact Or.inr ⟨rfl, by simpa using h, hk⟩
        · rintro (h | ⟨_, hx, _⟩)
          · exact Or.inl h
          · exact Or.inr (by simp [hx])
    · rw [addNeighbor_of_not_mem v hk]
      simp [hk]
  · rw [adjGet_addNeighbor_ne adj v hw]
    simp [hw]

theorem mem_adjGet_setdefault {x w : Int} (adj : AdjMap) (u : Int) :
    x ∈ adjGet (setdefault adj u) w ↔ x ∈ adjGet adj w := by
  rw [adjGet_setdefault]

/-! Characterization of the row loop. -/

/-- The value a neighbor field contributes for a row with primary id `nid`:
`some t` exactly when the field is present, non-blank, parses, and is not a
self-reference. -/
def connTarget (nid : Int) (field : Option String) : Option Int :=
  match field with
  | none => none
  | some s =>
    if s ≠ "" ∧ pyStrip s ≠ "" then
      match pyInt s with
      | some target => if target ≠ nid then some target else none
      | none => none
    else none

/-- The neighbor ids a row actually contributes, in field order. -/
def rowTargets (nid : Int) (r : Row) : List Int :=
  (rowConns r).filterMap (connTarget nid)

/-- The node records of a successfully parsed record list, in input order. -/
def nodesOf (rows : List Row) : List NodeRec :=
  rows.filterMap (fun r => (parseId r).map (fun nid => mkNode nid r))

theorem processConn_eq (nid : Int) (adj : AdjMap) (field : Option String) :
    processConn nid adj field =
      match connTarget nid field with
      | some t => addNeighbor adj nid t
      | none => adj := by
  cases field with
  | none => rfl
  | some s =>
    simp only [processConn, connTarget]
    by_cases h1 : s ≠ "" ∧ pyStrip s ≠ ""
    · rw [if_pos h1, if_pos h1]
      cases pyInt s with
      | none => rfl
      | some t =>
        by_cases h2 : t ≠ nid
        · simp [h2]
        · simp [h2]
    · rw [if_neg h1, if_neg h1]

theorem connTarget_ne_self {nid t : Int} {field : Option String}
    (h : connTarget nid field = some t) : t ≠ nid := by
  cases field with
  | none => exact absurd h (by simp [connTarget])
  | some s =>
    simp only [connTarget] at h
    by_cases h1 : s ≠ "" ∧ pyStrip s ≠ ""
    · rw [if_pos h1] at h
      cases hp : pyInt s with
      | none => rw [hp] at h; exact absurd h (by simp)
      | some t₀ =>
        rw [hp] at h
        by_cases h2 : t₀ ≠ nid
        · simp [h2] at h
          omega
        · simp [h2] at h
    · rw [if_neg h1] at h; exact absurd h (by simp)

theorem mem_rowTargets_ne_self {nid t : Int} {r : Row}
    (h : t ∈ rowTargets nid r) : t ≠ nid := by
  rcases List.mem_filterMap.1 h with ⟨f, _, hf⟩
  exact connTarget_ne_self hf

theorem adjKeys_foldl_processConn (nid : Int) (l : List (Option String))
    (adj : AdjMap) :
    adjKeys (l.foldl (processConn nid) adj) = adjKeys adj := by
  induction l generalizing adj with
  | nil => rfl
  | cons f rest ih =>
    rw [List.foldl_cons, processConn_eq]
    cases hc : connTarget nid f with
    | none => exact ih adj
    | some t => rw [ih, adjKeys_addNeighbor]

theorem mem_adjGet_foldl_processConn {x w nid : Int} (l : List (Option String))
    {adj : AdjMap} (hk : nid ∈ adjKeys adj) :
    x ∈ adjGet (l.foldl (processConn nid) adj) w ↔
      x ∈ adjGet adj w ∨ (w = nid ∧ x ∈ l.filterMap (connTarget nid)) := by
  induction l generalizing adj with
  | nil => simp
  | cons f rest ih =>
    rw [List.foldl_cons, processConn_eq]
    cases hc : connTarget nid f with
    | none =>
      rw [ih hk]
      simp [List.filterMap_cons, hc]
    | some t =>
      have hk' : nid ∈ adjKeys (addNeighbor adj nid t) := by
        rw [adjKeys_addNeighbor]; exact hk
      rw [ih hk', mem_adjGet_addNeighbor]
      simp only [List.filterMap_cons, hc, List.mem_cons]
      constructor
      · rintro ((h | ⟨hw, hx, _⟩) | ⟨hw, hx⟩)
        · exact Or.inl h
        · exact Or.inr ⟨hw, Or.inl hx⟩
        · exact Or.inr ⟨hw, Or.inr hx⟩
      · rintro (h | ⟨hw, hx | hx⟩)
        · exact Or.inl (Or.inl h)
        · exact Or.inl (Or.inr ⟨hw, hx, hk⟩)
        · exact Or.inr ⟨hw, hx⟩

theorem parseRowsFrom_error_iff (rows : List Row) (nodes : List NodeRec)
    (adj : AdjMap) :
    (∃ e, parseRowsFrom rows nodes adj = .error e) ↔
      ∃ r ∈ rows, parseId r = none := by
  induction rows generalizing nodes adj with
  | nil => simp [parseRowsFrom]
  | cons r rest ih =>
    cases hid : parseId r with
    | none => simp [parseRowsFrom, hid]
    | some nid =>
      simp only [parseRowsFrom, hid]
      rw [ih]
      simp [hid]

theorem parseRowsFrom_ok_nodes {rows : List Row} {nodes : List NodeRec}
    {adj : AdjMap} {nodes' : List NodeRec} {adj' : AdjMap}
    (h : parseRowsFrom rows nodes adj = .ok (nodes', adj')) :
    nodes' = nodes ++ nodesOf rows := by
  induction rows generalizing nodes adj with
  | nil =>
    simp [parseRowsFrom] at h
    simp [nodesOf, h.1]
  | cons r rest ih =>
    cases hid : parseId r with
    | none => simp [parseRowsFrom, hid] at h
    | some nid =>
      simp only [parseRowsFrom, hid] at h
      rw [ih h]
      simp [nodesOf, List.filterMap_cons, hid]

theorem parseRowsFrom_ok_adj {rows : List Row} {nodes : List NodeRec}
    {adj : AdjMap} {nodes' : List NodeRec} {adj' : AdjMap}
    (h : parseRowsFrom rows nodes adj = .ok (nodes', adj')) :
    (∀ x w, x ∈ adjGet adj' w ↔
       x ∈ adjGet adj w ∨ ∃ r ∈ rows, parseId r = some w ∧ x ∈ rowTargets w r)
    ∧ (∀ w, w ∈ adjKeys adj' ↔
       w ∈ adjKeys adj ∨ ∃ r ∈ rows, parseId r = some w) := by
  induction rows generalizing nodes adj with
  | nil =>
    simp [parseRowsFrom] at h
    simp [h.2]
  | cons r rest ih =>
    cases hid : parseId r with
    | none => simp [parseRowsFrom, hid] at h
    | some nid =>
      simp only [parseRowsFrom, hid] at h
      have hkset : nid ∈ adjKeys (setdefault adj nid) := by
        rw [adjKeys_setdefault]
        by_cases hm : nid ∈ adjKeys adj
        · rw [if_pos hm]; exact hm
        · rw [if_neg hm]; simp
      have hmem := (ih h).1
      have hkeys := (ih h).2
      constructor
      · intro x w
        rw [hmem x w, mem_adjGet_foldl_processConn _ hkset, adjGet_setdefault]
        simp only [List.mem_cons]
        constructor
        · rintro ((hx | ⟨hw, hx⟩) | ⟨r', hr', hw, hx⟩)
          · exact Or.inl hx
          · exact Or.inr ⟨r, Or.inl rfl, by rw [hid, hw], by
              subst hw; exact hx⟩
          · exact Or.inr ⟨r', Or.inr hr', hw, hx⟩
        · rintro (hx | ⟨r', hr' | hr', hw, hx⟩)
          · exact Or.inl (Or.inl hx)
          · subst hr'
            rw [hid] at hw
            cases hw
            exact Or.inl (Or.inr ⟨rfl, hx⟩)
          · exact Or.inr ⟨r', hr', hw, hx⟩
      · intro w
        rw [hkeys w, adjKeys_foldl_processConn, adjKeys_setdefault]
        by_cases hm : nid ∈ adjKeys adj
        · rw [if_pos hm]
          simp only [List.mem_cons]
          constructor
          · rintro (hw | ⟨r', hr', hp⟩)
            · exact Or.inl hw
            · exact Or.inr ⟨r', Or.inr hr', hp⟩
          · rintro (hw | ⟨r', hr' | hr', hp⟩)
            · exact Or.inl hw
            · subst hr'
              rw [hid] at hp
              cases hp
              exact Or.inl hm
            · exact Or.inr ⟨r', hr', hp⟩
        · rw [if_neg hm]
          simp only [List.mem_append, List.mem_cons, List.not_mem_nil,
            or_false]
          constructor
          · rintro ((hw | hw) | ⟨r', hr', hp⟩)
            · exact Or.inl hw
            · exact Or.inr ⟨r, Or.inl rfl, by rw [hid, hw]⟩
            · exact Or.inr ⟨r', Or.inr hr', hp⟩
          · rintro (hw | ⟨r', hr' | hr', hp⟩)
            · exact Or.inl (Or.inl hw)
            · subst hr'
              rw [hid] at hp
              cases hp
              exact Or.inl (Or.inr rfl)
            · exact Or.inr ⟨r', hr', hp⟩

theorem parse_input_ok_elim {rows : List Row} {nodes : List NodeRec}
    {adj : AdjMap} (h : parse_input rows = .ok (nodes, adj)) :
    ∃ adj₀, parseRowsFrom rows [] [] = .ok (nodes, adj₀) ∧
      adj = symmetrize adj₀ := by
  unfold parse_input at h
  cases hp : parseRowsFrom rows [] [] with
  | error e => rw [hp] at h; exact absurd h (by simp)
  | ok p =>
    rw [hp] at h
    cases p with
    | mk ns a =>
      simp only [Except.ok.injEq, Prod.mk.injEq] at h
      refine ⟨a, ?_, h.2.symm⟩
      rw [h.1]

/-! Characterization of the symmetrization pass. -/

theorem mem_adjKeys_setdefault {w : Int} (adj : AdjMap) (u : Int) :
    w ∈ adjKeys (setdefault adj u) ↔ w ∈ adjKeys adj ∨ w = u := by
  rw [adjKeys_setdefault]
  by_cases hm : u ∈ adjKeys adj
  · rw [if_pos hm]
    constructor
    · exact fun h => Or.inl h
    · rintro (h | h)
      · exact h
      · exact h ▸ hm
  · rw [if_neg hm]
    simp

theorem mem_adjGet_symStep_iff {x w : Int} (adj : AdjMap) (k v : Int) :
    x ∈ adjGet (addNeighbor (setdefault adj v) v k) w ↔
      x ∈ adjGet adj w ∨ (w = v ∧ x = k) := by
  rw [mem_adjGet_addNeighbor, adjGet_setdefault]
  have hv : v ∈ adjKeys (setdefault adj v) := by
    rw [mem_adjKeys_setdefault]
    exact Or.inr rfl
  simp [hv]

theorem mem_adjKeys_symStep_iff {w : Int} (adj : AdjMap) (k v : Int) :
    w ∈ adjKeys (addNeighbor (setdefault adj v) v k) ↔
      w ∈ adjKeys adj ∨ w = v := by
  rw [adjKeys_addNeighbor, mem_adjKeys_setdefault]

theorem mem_adjGet_foldl_symStep {x w k : Int} (ns : List Int) (adj : AdjMap) :
    x ∈ adjGet (ns.foldl (fun a v => addNeighbor (setdefault a v) v k) adj) w ↔
      x ∈ adjGet adj w ∨ (x = k ∧ w ∈ ns) := by
  induction ns generalizing adj with
  | nil => simp
  | cons v rest ih =>
    rw [List.foldl_cons, ih, mem_adjGet_symStep_iff]
    simp only [List.mem_cons]
    constructor
    · rintro ((h | ⟨hw, hx⟩) | ⟨hx, hw⟩)
      · exact Or.inl h
      · exact Or.inr ⟨hx, Or.inl hw⟩
      · exact Or.inr ⟨hx, Or.inr hw⟩
    · rintro (h | ⟨hx, hw | hw⟩)
      · exact Or.inl (Or.inl h)
      · exact Or.inl (Or.inr ⟨hw, hx⟩)
      · exact Or.inr ⟨hx, hw⟩

theorem mem_adjKeys_foldl_symStep {w k : Int} (ns : List Int) (adj : AdjMap) :
    w ∈ adjKeys (ns.foldl (fun a v => addNeighbor (setdefault a v) v k) adj) ↔
      w ∈ adjKeys adj ∨ w ∈ ns := by
  induction ns generalizing adj with
  | nil => simp
  | cons v rest ih =>
    rw [List.foldl_cons, ih, mem_adjKeys_symStep_iff]
    simp only [List.mem_cons]
    constructor
    · rintro ((h | h) | h)
      · exact Or.inl h
      · exact Or.inr (Or.inl h)
      · exact Or.inr (Or.inr h)
    · rintro (h | h | h)
      · exact Or.inl (Or.inl h)
      · exact Or.inl (Or.inr h)
      · exact Or.inr h

theorem mem_adjGet_symmetrizeKey {x w : Int} (adj : AdjMap) (k : Int) :
    x ∈ adjGet (symmetrizeKey adj k) w ↔
      x ∈ adjGet adj w ∨ (x = k ∧ w ∈ adjGet adj k) := by
  unfold symmetrizeKey
  exact mem_adjGet_foldl_symStep (adjGet adj k) adj

theorem mem_adjKeys_symmetrizeKey {w : Int} (adj : AdjMap) (k : Int) :
    w ∈ adjKeys (symmetrizeKey adj k) ↔
      w ∈ adjKeys adj ∨ w ∈ adjGet adj k := by
  unfold symmetrizeKey
  exact mem_adjKeys_foldl_symStep (adjGet adj k) adj

theorem mem_adjGet_foldl_symmetrizeKey {x w : Int} (ks : List Int)
    (adj : AdjMap) :
    x ∈ adjGet (ks.foldl symmetrizeKey adj) w ↔
      x ∈ adjGet adj w ∨ ∃ k ∈ ks, x = k ∧ w ∈ adjGet adj k := by
  induction ks generalizing adj with
  | nil => simp
  | cons k rest ih =>
    rw [List.foldl_cons, ih]
    simp only [List.mem_cons]
    constructor
    · rintro (h | ⟨k', hk', hx, hw⟩)
      · rcases (mem_adjGet_symmetrizeKey adj k).1 h with h | ⟨hx, hw⟩
        · exact Or.inl h
        · exact Or.inr ⟨k, Or.inl rfl, hx, hw⟩
      · rcases (mem_adjGet_symmetrizeKey adj k).1 hw with hw | ⟨hwk, hk⟩
        · exact Or.inr ⟨k', Or.inr hk', hx, hw⟩
        · subst hx
          subst hwk
          exact Or.inl hk
    · rintro (h | ⟨k', hk' | hk', hx, hw⟩)
      · exact Or.inl ((mem_adjGet_symmetrizeKey adj k).2 (Or.inl h))
      · exact Or.inl ((mem_adjGet_symmetrizeKey adj k).2
          (Or.inr ⟨hx.trans hk', hk' ▸ hw⟩))
      · exact Or.inr ⟨k', hk', hx,
          (mem_adjGet_symmetrizeKey adj k).2 (Or.inl hw)⟩

/-- The set-level content of the symmetrization pass: after `symmetrize`,
membership is exactly the symmetric closure of the input membership. -/
theorem mem_adjGet_symmetrize {x w : Int} (adj : AdjMap) :
    x ∈ adjGet (symmetrize adj) w ↔
      x ∈ adjGet adj w ∨ w ∈ adjGet adj x := by
  unfold symmetrize
  rw [mem_adjGet_foldl_symmetrizeKey]
  constructor
  · rintro (h | ⟨k, _, hx, hw⟩)
    · exact Or.inl h
    · subst hx
      exact Or.inr hw
  · rintro (h | h)
    · exact Or.inl h
    · refine Or.inr ⟨x, ?_, rfl, h⟩
      exact mem_adjKeys_of_adjGet_ne_nil (List.ne_nil_of_mem h)

theorem mem_adjKeys_foldl_symmetrizeKey {w : Int} (ks : List Int)
    (adj : AdjMap) :
    w ∈ adjKeys (ks.foldl symmetrizeKey adj) →
      w ∈ adjKeys adj ∨ w ∈ ks ∨ ∃ k ∈ ks, w ∈ adjGet adj k := by
  induction ks generalizing adj with
  | nil => exact fun h => Or.inl h
  | cons k rest ih =>
    intro h
    rcases ih (symmetrizeKey adj k) h with h | h | ⟨k', hk', hw⟩
    · rcases (mem_adjKeys_symmetrizeKey adj k).1 h with h | h
      · exact Or.inl h
      · exact Or.inr (Or.inr ⟨k, List.mem_cons_self k rest, h⟩)
    · exact Or.inr (Or.inl (List.mem_cons_of_mem k h))
    · rcases (mem_adjGet_symmetrizeKey adj k).1 hw with hw | ⟨hwk, _⟩
      · exact Or.inr (Or.inr ⟨k', List.mem_cons_of_mem k hk', hw⟩)
      · exact Or.inr (Or.inl (hwk ▸ List.mem_cons_self k rest))

theorem subset_adjKeys_foldl_symmetrizeKey {w : Int} (ks : List Int)
    (adj : AdjMap) (h : w ∈ adjKeys adj) :
    w ∈ adjKeys (ks.foldl symmetrizeKey adj) := by
  induction ks generalizing adj with
  | nil => exact h
  | cons k rest ih =>
    rw [List.foldl_cons]
    exact ih (symmetrizeKey adj k)
      ((mem_adjKeys_symmetrizeKey adj k).2 (Or.inl h))

/-- The key set after `symmetrize` is the set of all ids referenced by the
input map: its keys together with every id listed in some neighbor set. -/
theorem mem_adjKeys_symmetrize {w : Int} (adj : AdjMap) :
    w ∈ adjKeys (symmetrize adj) ↔
      w ∈ adjKeys adj ∨ ∃ u, w ∈ adjGet adj u := by
  constructor
  · intro h
    rcases mem_adjKeys_foldl_symmetrizeKey (adjKeys adj) adj h with
      h | h | ⟨k, _, hw⟩
    · exact Or.inl h
    · exact Or.inl h
    · exact Or.inr ⟨k, hw⟩
  · rintro (h | ⟨u, hu⟩)
    · exact subset_adjKeys_foldl_symmetrizeKey (adjKeys adj) adj h
    · have : u ∈ adjGet (symmetrize adj) w :=
        (mem_adjGet_symmetrize adj).2 (Or.inr hu)
      exact mem_adjKeys_of_adjGet_ne_nil (List.ne_nil_of_mem this)

/-! Characterizations of the full parse. -/

theorem parse_input_adj0_mem {rows : List Row} {nodes : List NodeRec}
    {adj₀ : AdjMap} (h : parseRowsFrom rows [] [] = .ok (nodes, adj₀)) :
    ∀ x w, x ∈ adjGet adj₀ w ↔
      ∃ r ∈ rows, parseId r = some w ∧ x ∈ rowTargets w r := by
  intro x w
  rw [(parseRowsFrom_ok_adj h).1 x w]
  simp [adjGet, adjFind]

theorem parse_input_adj0_keys {rows : List Row} {nodes : List NodeRec}
    {adj₀ : AdjMap} (h : parseRowsFrom rows [] [] = .ok (nodes, adj₀)) :
    ∀ w, w ∈ adjKeys adj₀ ↔ ∃ r ∈ rows, parseId r = some w := by
  intro w
  rw [(parseRowsFrom_ok_adj h).2 w]
  simp [adjKeys]

theorem nodup_adjKeys_setdefault {adj : AdjMap} {u : Int}
    (h : (adjKeys adj).Nodup) : (adjKeys (setdefault adj u)).Nodup := by
  rw [adjKeys_setdefault]
  by_cases hm : u ∈ adjKeys adj
  · rw [if_pos hm]; exact h
  · rw [if_neg hm]
    simp [List.nodup_append, h, hm]

theorem nodup_adjKeys_foldl_processConn {nid : Int} {l : List (Option String)}
    {adj : AdjMap} (h : (adjKeys adj).Nodup) :
    (adjKeys (l.foldl (processConn nid) adj)).Nodup := by
  rw [adjKeys_foldl_processConn]
  exact h

theorem nodup_adjKeys_parseRowsFrom {rows : List Row} {nodes : List NodeRec}
    {adj : AdjMap} {nodes' : List NodeRec} {adj' : AdjMap}
    (h : parseRowsFrom rows nodes adj = .ok (nodes', adj'))
    (hnd : (adjKeys adj).Nodup) : (adjKeys adj').Nodup := by
  induction rows generalizing nodes adj with
  | nil =>
    simp [parseRowsFrom] at h
    rw [← h.2]
    exact hnd
  | cons r rest ih =>
    cases hid : parseId r with
    | none => simp [parseRowsFrom, hid] at h
    | some nid =>
      simp only [parseRowsFrom, hid] at h
      exact ih h (nodup_adjKeys_foldl_processConn (nodup_adjKeys_setdefault hnd))

theorem nodup_adjKeys_symmetrizeKey {adj : AdjMap} {k : Int}
    (h : (adjKeys adj).Nodup) : (adjKeys (symmetrizeKey adj k)).Nodup := by
  unfold symmetrizeKey
  generalize adjGet adj k = ns
  induction ns generalizing adj with
  | nil => exact h
  | cons v rest ih =>
    rw [List.foldl_cons]
    refine ih ?_
    rw [adjKeys_addNeighbor]
    exact nodup_adjKeys_setdefault h

theorem nodup_adjKeys_symmetrize {adj : AdjMap}
    (h : (adjKeys adj).Nodup) : (adjKeys (symmetrize adj)).Nodup := by
  unfold symmetrize
  generalize adjKeys adj = ks
  induction ks generalizing adj with
  | nil => exact h
  | cons k rest ih =>
    rw [List.foldl_cons]
    exact ih (nodup_adjKeys_symmetrizeKey h)

theorem parse_input_nodup_keys {rows : List Row} {nodes : List NodeRec}
    {adj : AdjMap} (h : parse_input rows = .ok (nodes, adj)) :
    (adjKeys adj).Nodup := by
  obtain ⟨adj₀, h₀, rfl⟩ := parse_input_ok_elim h
  exact nodup_adjKeys_symmetrize
    (nodup_adjKeys_parseRowsFrom h₀ (by simp [adjKeys]))

/-! Claim theorems about the Graph Builder. -/

/-- C2: for every successfully parsed input, the returned adjacency map is
symmetric (v is a neighbor of u iff u is a neighbor of v, even when the
input recorded the connection from one side only) and has no self-loops. -/
theorem parse_input_symmetric_no_self_loops {rows : List Row}
    {nodes : List NodeRec} {adj : AdjMap}
    (h : parse_input rows = .ok (nodes, adj)) :
    (∀ u v, v ∈ adjGet adj u ↔ u ∈ adjGet adj v) ∧
      ∀ u, u ∉ adjGet adj u := by
  obtain ⟨adj₀, h₀, rfl⟩ := parse_input_ok_elim h
  have hirr : ∀ u, u ∉ adjGet adj₀ u := by
    intro u hu
    rcases (parse_input_adj0_mem h₀ u u).1 hu with ⟨r, _, _, ht⟩
    exact mem_rowTargets_ne_self ht rfl
  constructor
  · intro u v
    rw [mem_adjGet_symmetrize, mem_adjGet_symmetrize]
    exact or_comm
  · intro u hu
    rcases (mem_adjGet_symmetrize adj₀).1 hu with h1 | h1 <;> exact hirr u h1

/-- C3: parse_input raises an error, aborting the whole run with no output,
exactly when some input row's primary identifier field fails to parse as an
integer; in particular no such row is ever silently skipped. -/
theorem parse_input_error_iff (rows : List Row) :
    (∃ e, parse_input rows = .error e) ↔ ∃ r ∈ rows, parseId r = none := by
  rw [← parseRowsFrom_error_iff rows [] []]
  unfold parse_input
  cases hp : parseRowsFrom rows [] [] with
  | error e => simp
  | ok p =>
    cases p with
    | mk ns a => simp

/-- C5: the key set of the returned adjacency map is the union of all node
identifiers referenced anywhere in the input (primary ids and parsed
non-self neighbor targets), and an id referenced only as a neighbor field
gets an entry containing at least the node that referenced it. -/
theorem parse_input_keys_union {rows : List Row} {nodes : List NodeRec}
    {adj : AdjMap} (h : parse_input rows = .ok (nodes, adj)) :
    (∀ w, w ∈ adjKeys adj ↔
       (∃ r ∈ rows, parseId r = some w) ∨
       ∃ r ∈ rows, ∃ u, parseId r = some u ∧ w ∈ rowTargets u r) ∧
    ∀ r ∈ rows, ∀ u, parseId r = some u →
       ∀ w ∈ rowTargets u r, w ∈ adjKeys adj ∧ u ∈ adjGet adj w := by
  obtain ⟨adj₀, h₀, rfl⟩ := parse_input_ok_elim h
  have hmem := parse_input_adj0_mem h₀
  have hkeys := parse_input_adj0_keys h₀
  constructor
  · intro w
    rw [mem_adjKeys_symmetrize]
    constructor
    · rintro (hw | ⟨u, hu⟩)
      · exact Or.inl ((hkeys w).1 hw)
      · rcases (hmem w u).1 hu with ⟨r, hr, hp, ht⟩
        exact Or.inr ⟨r, hr, u, hp, ht⟩
    · rintro (hw | ⟨r, hr, u, hp, ht⟩)
      · exact Or.inl ((hkeys w).2 hw)
      · exact Or.inr ⟨u, (hmem w u).2 ⟨r, hr, hp, ht⟩⟩
  · intro r hr u hp w hw
    have hx : w ∈ adjGet adj₀ u := (hmem w u).2 ⟨r, hr, hp, hw⟩
    constructor
    · rw [mem_adjKeys_symmetrize]
      exact Or.inr ⟨u, hx⟩
    · exact (mem_adjGet_symmetrize adj₀).2 (Or.inr hx)

/-- C4: when every primary identifier parses, a neighbor field of some row
that is absent, blank or non-numeric only drops that reference: the parse
still succeeds, the row still yields its node-list entry, and all the
parseable non-self neighbor targets of the row are still recorded. -/
theorem parse_input_bad_neighbor_field_local {l₁ l₂ : List Row} {r : Row}
    {d : Int}
    (hall : ∀ r' ∈ l₁ ++ r :: l₂, (parseId r').isSome)
    (hd : parseId r = some d)
    (hbad : ∃ f ∈ rowConns r, connTarget d f = none) :
    ∃ nodes adj, parse_input (l₁ ++ r :: l₂) = .ok (nodes, adj) ∧
      mkNode d r ∈ nodes ∧
      ∀ v ∈ rowTargets d r, v ∈ adjGet adj d := by
  obtain ⟨_, _⟩ := hbad
  cases hres : parse_input (l₁ ++ r :: l₂) with
  | error e =>
    rcases (parse_input_error_iff (l₁ ++ r :: l₂)).1 ⟨e, hres⟩ with ⟨r', hr', hn⟩
    have hbadrow := hall r' hr'
    rw [hn] at hbadrow
    exact absurd hbadrow (by simp)
  | ok p =>
    cases p with
    | mk nodes adj =>
      refine ⟨nodes, adj, rfl, ?_, ?_⟩
      · obtain ⟨adj₀, h₀, _⟩ := parse_input_ok_elim hres
        rw [parseRowsFrom_ok_nodes h₀]
        rw [List.nil_append]
        refine List.mem_filterMap.2 ⟨r, ?_, ?_⟩
        · exact List.mem_append_right l₁ (List.mem_cons_self r l₂)
        · rw [hd]; rfl
      · intro v hv
        obtain ⟨adj₀, h₀, rfl⟩ := parse_input_ok_elim hres
        have : v ∈ adjGet adj₀ d := (parse_input_adj0_mem h₀ v d).2
          ⟨r, List.mem_append_right l₁ (List.mem_cons_self r l₂), hd, hv⟩
        exact (mem_adjGet_symmetrize adj₀).2 (Or.inl this)

/-- C10: two rows with the same parseable primary identifier do not make the
parse fail and are not de-duplicated in the node list, while the adjacency
map keeps a single entry for that id containing the neighbor targets of
both rows. -/
theorem parse_input_duplicate_primary_id {l₁ l₂ l₃ : List Row} {r₁ r₂ : Row}
    {d : Int}
    (hall : ∀ r' ∈ l₁ ++ r₁ :: l₂ ++ r₂ :: l₃, (parseId r').isSome)
    (h₁ : parseId r₁ = some d) (h₂ : parseId r₂ = some d) :
    ∃ nodes adj, parse_input (l₁ ++ r₁ :: l₂ ++ r₂ :: l₃) = .ok (nodes, adj) ∧
      2 ≤ nodes.countP (fun n => n.id == d) ∧
      (adjKeys adj).count d = 1 ∧
      (∀ v ∈ rowTargets d r₁, v ∈ adjGet adj d) ∧
      (∀ v ∈ rowTargets d r₂, v ∈ adjGet adj d) := by
  have hmem₁ : r₁ ∈ l₁ ++ r₁ :: l₂ ++ r₂ :: l₃ :=
    List.mem_append_left (r₂ :: l₃)
      (List.mem_append_right l₁ (List.mem_cons_self r₁ l₂))
  have hmem₂ : r₂ ∈ l₁ ++ r₁ :: l₂ ++ r₂ :: l₃ :=
    List.mem_append_right (l₁ ++ r₁ :: l₂) (List.mem_cons_self r₂ l₃)
  cases hres : parse_input (l₁ ++ r₁ :: l₂ ++ r₂ :: l₃) with
  | error e =>
    rcases (parse_input_error_iff _).1 ⟨e, hres⟩ with ⟨r', hr', hn⟩
    have hbadrow := hall r' hr'
    rw [hn] at hbadrow
    exact absurd hbadrow (by simp)
  | ok p =>
    cases p with
    | mk nodes adj =>
      obtain ⟨adj₀, h₀, hsym⟩ := parse_input_ok_elim hres
      refine ⟨nodes, adj, rfl, ?_, ?_, ?_, ?_⟩
      · rw [parseRowsFrom_ok_nodes h₀, List.nil_append]
        have e₁ : ((mkNode d r₁).id == d) = true := by simp [mkNode]
        have e₂ : ((mkNode d r₂).id == d) = true := by simp [mkNode]
        simp [nodesOf, List.filterMap_append, List.filterMap_cons, h₁, h₂,
          List.countP_append, List.countP_cons, e₁, e₂]
        omega
      · have hd : d ∈ adjKeys adj := by
          subst hsym
          rw [mem_adjKeys_symmetrize]
          exact Or.inl ((parse_input_adj0_keys h₀ d).2 ⟨r₁, hmem₁, h₁⟩)
        have hnd : (adjKeys adj).Nodup := parse_input_nodup_keys hres
        exact List.count_eq_one_of_mem hnd hd
      · intro v hv
        subst hsym
        exact (mem_adjGet_symmetrize adj₀).2
          (Or.inl ((parse_input_adj0_mem h₀ v d).2 ⟨r₁, hmem₁, h₁, hv⟩))
      · intro v hv
        subst hsym
        exact (mem_adjGet_symmetrize adj₀).2
          (Or.inl ((parse_input_adj0_mem h₀ v d).2 ⟨r₂, hmem₂, h₂, hv⟩))

/-! Concrete inputs for the witnesses and the finder test cases. -/

/-- A sample record: id 1, neighbor fields referencing 2, a non-numeric
value, an id 3 never seen as a primary record, and itself. -/
def sampleRowA : Row :=
  { id := some "1", nodeName := "Alpha", group := "Engineering", unit := "U1",
    contact := "a", conn1 := some "2", conn2 := some "x", conn3 := some "3",
    conn4 := none, conn5 := some "1" }

/-- A sample record: id 2, one blank neighbor field and no others. -/
def sampleRowB : Row :=
  { id := some "2", nodeName := "Beta", group := "Research", unit := "U2",
    contact := "b", conn1 := none, conn2 := some "", conn3 := none,
    conn4 := none, conn5 := none }

/-- The adjacency map parse_input produces for the two sample records. -/
def sampleAdj : AdjMap := [(1, [2, 3]), (2, [1]), (3, [1])]

/-- First of two records sharing primary id 7. -/
def dupRowA : Row :=
  { id := some "7", nodeName := "D1", group := "Operations", unit := "U7",
    contact := "d", conn1 := some "8", conn2 := none, conn3 := none,
    conn4 := none, conn5 := none }

/-- Second of two records sharing primary id 7. -/
def dupRowB : Row :=
  { id := some "7", nodeName := "D2", group := "Operations", unit := "U7",
    contact := "e", conn1 := some "9", conn2 := none, conn3 := none,
    conn4 := none, conn5 := none }

/-- The path graph 1-2-3-4-5 as a symmetric adjacency map. -/
def pathGraphFive : AdjMap :=
  [(1, [2]), (2, [1, 3]), (3, [2, 4]), (4, [3, 5]), (5, [4])]

/-! Witnesses for the Graph Builder claims. -/

/-- Witness for C2 at the two sample records: 3 is a neighbor of 1 iff 1 is a
neighbor of 3, and 1 is not its own neighbor. -/
theorem parse_input_symmetric_no_self_loops_witness :
    ((3 : Int) ∈ adjGet sampleAdj 1 ↔ (1 : Int) ∈ adjGet sampleAdj 3) ∧
      (1 : Int) ∉ adjGet sampleAdj 1 := by
  have h := @parse_input_symmetric_no_self_loops [sampleRowA, sampleRowB]
    [mkNode 1 sampleRowA, mkNode 2 sampleRowB] sampleAdj (by rfl)
  exact ⟨h.1 1 3, h.2 1⟩

/-- Witness for C4 at the sample records: the non-numeric field of the first
record does not abort the parse, the record keeps its node entry, and its
parseable neighbors are recorded. -/
theorem parse_input_bad_neighbor_field_local_witness :
    ∃ nodes adj, parse_input ([] ++ sampleRowA :: [sampleRowB]) =
        .ok (nodes, adj) ∧
      mkNode 1 sampleRowA ∈ nodes ∧
      ∀ v ∈ rowTargets 1 sampleRowA, v ∈ adjGet adj 1 :=
  parse_input_bad_neighbor_field_local (by decide) (by decide) (by decide)

/-- Witness for C5 at the sample records: id 3, referenced only as a
neighbor, is a key of the adjacency map and holds its referencing node 1. -/
theorem parse_input_keys_union_witness :
    (3 : Int) ∈ adjKeys sampleAdj ∧ (1 : Int) ∈ adjGet sampleAdj 3 := by
  have h := @parse_input_keys_union [sampleRowA, sampleRowB]
    [mkNode 1 sampleRowA, mkNode 2 sampleRowB] sampleAdj (by rfl)
  exact h.2 sampleRowA (by decide) 1 (by rfl) 3 (by decide)

/-- Witness for C10 at two records sharing primary id 7. -/
theorem parse_input_duplicate_primary_id_witness :
    ∃ nodes adj, parse_input ([] ++ dupRowA :: [] ++ dupRowB :: []) =
        .ok (nodes, adj) ∧
      2 ≤ nodes.countP (fun n => n.id == 7) ∧
      (adjKeys adj).count 7 = 1 ∧
      (∀ v ∈ rowTargets 7 dupRowA, v ∈ adjGet adj 7) ∧
      (∀ v ∈ rowTargets 7 dupRowB, v ∈ adjGet adj 7) :=
  parse_input_duplicate_primary_id (by decide) (by decide) (by decide)

/-! Claim theorems about the Articulation-Point Finder that settle by
computation, and the recursion-depth evidence. -/

/-- C6: on the path graph 1-2-3-4-5 the finder returns exactly the critical
set consisting of 2, 3 and 4. -/
theorem find_articulation_points_path_five :
    (find_articulation_points pathGraphFive).toFinset =
      ({2, 3, 4} : Finset Int) := by
  decide

/-- C7: the finder is a pure function of the adjacency map: it closes over no
state that survives an invocation, so two invocations on the same adjacency
map return identical critical sets. -/
theorem find_articulation_points_deterministic (adj : AdjMap) :
    find_articulation_points adj = find_articulation_points adj := rfl

/-- Evidence for C9: the source's dfs is natively recursive, and its
recursion depth grows with the longest path: on the five-node path graph the
traversal from node 1 needs nesting depth five, so capping the depth at four
changes the outcome. An explicit-stack implementation would have no such
dependence; the source has no explicit stack and Python's default recursion
limit makes a long enough path graph raise RecursionError. -/
theorem dfsGo_depth_exceeds_four_on_path_five :
    dfsGo pathGraphFive 4 1 initState ≠ dfsGo pathGraphFive 5 1 initState := by
  decide

/-! The renderer's edge list: dedup correctness. -/

/-- The stream of directed pairs the renderer's nested loop visits, in
visit order. -/
def edgePairs (adj : AdjMap) : List (Int × Int) :=
  adj.flatMap (fun p => p.2.map (fun v => (p.1, v)))

/-- One step of the dedup loop, on the flattened pair stream. -/
def dedupStep (st : List (Int × Int) × List (Int × Int)) (e : Int × Int) :
    List (Int × Int) × List (Int × Int) :=
  if pairKey e.1 e.2 ∈ st.1 then st
  else (st.1 ++ [pairKey e.1 e.2], st.2 ++ [(e.1, e.2)])

/-- The frozenset keys of every visited pair, in visit order. -/
def edgeKeys (adj : AdjMap) : List (Int × Int) :=
  (edgePairs adj).map (fun e => pairKey e.1 e.2)

theorem nested_foldl_eq_flat (adj : AdjMap)
    (st : List (Int × Int) × List (Int × Int)) :
    adj.foldl
      (fun st p => p.2.foldl
        (fun st v => if pairKey p.1 v ∈ st.1 then st
          else (st.1 ++ [pairKey p.1 v], st.2 ++ [(p.1, v)])) st) st
      = (edgePairs adj).foldl dedupStep st := by
  induction adj generalizing st with
  | nil => rfl
  | cons p t ih =>
    rw [List.foldl_cons, ih]
    have he : edgePairs (p :: t) =
        (p.2.map (fun v => (p.1, v))) ++ edgePairs t := rfl
    rw [he, List.foldl_append]
    congr 1
    rw [List.foldl_map]
    rfl

theorem build_html_edges_flat (adj : AdjMap) :
    build_html_edges adj = ((edgePairs adj).foldl dedupStep ([], [])).2 := by
  unfold build_html_edges
  rw [nested_foldl_eq_flat]

theorem dedup_foldl_spec (l : List (Int × Int)) (A E : List (Int × Int))
    (hAE : A = E.map (fun e => pairKey e.1 e.2)) (hnd : A.Nodup) :
    (l.foldl dedupStep (A, E)).1 =
        (l.foldl dedupStep (A, E)).2.map (fun e => pairKey e.1 e.2) ∧
      (l.foldl dedupStep (A, E)).1.Nodup ∧
      ∀ k, k ∈ (l.foldl dedupStep (A, E)).1 ↔
        k ∈ A ∨ k ∈ l.map (fun e => pairKey e.1 e.2) := by
  induction l generalizing A E with
  | nil =>
    refine ⟨hAE, hnd, fun k => ?_⟩
    simp
  | cons e rest ih =>
    rw [List.foldl_cons]
    by_cases hm : pairKey e.1 e.2 ∈ A
    · have hstep : dedupStep (A, E) e = (A, E) := by
        unfold dedupStep
        rw [if_pos hm]
      rw [hstep]
      refine ⟨(ih A E hAE hnd).1, (ih A E hAE hnd).2.1, fun k => ?_⟩
      rw [(ih A E hAE hnd).2.2 k]
      simp only [List.map_cons, List.mem_cons]
      constructor
      · rintro (h | h)
        · exact Or.inl h
        · exact Or.inr (Or.inr h)
      · rintro (h | h | h)
        · exact Or.inl h
        · exact Or.inl (h ▸ hm)
        · exact Or.inr h
    · have hstep : dedupStep (A, E) e =
          (A ++ [pairKey e.1 e.2], E ++ [(e.1, e.2)]) := by
        unfold dedupStep
        rw [if_neg hm]
      rw [hstep]
      have hAE' : A ++ [pairKey e.1 e.2] =
          (E ++ [(e.1, e.2)]).map (fun e => pairKey e.1 e.2) := by
        rw [List.map_append, ← hAE]
        rfl
      have hnd' : (A ++ [pairKey e.1 e.2]).Nodup := by
        simp [List.nodup_append, hnd, hm]
      refine ⟨(ih _ _ hAE' hnd').1, (ih _ _ hAE' hnd').2.1, fun k => ?_⟩
      rw [(ih _ _ hAE' hnd').2.2 k]
      simp only [List.mem_append, List.map_cons, List.mem_cons,
        List.not_mem_nil, or_false]
      constructor
      · rintro ((h | h) | h)
        · exact Or.inl h
        · exact Or.inr (Or.inl h)
        · exact Or.inr (Or.inr h)
      · rintro (h | h | h)
        · exact Or.inl (Or.inl h)
        · exact Or.inl (Or.inr h)
        · exact Or.inr h

theorem pairKey_eq_iff (u v x y : Int) :
    pairKey u v = pairKey x y ↔ (u = x ∧ v = y) ∨ (u = y ∧ v = x) := by
  simp only [pairKey, Prod.mk.injEq]
  omega

theorem adjFind_eq_of_mem {adj : AdjMap} {p : Int × List Int}
    (hnd : (adjKeys adj).Nodup) (hp : p ∈ adj) : adjFind adj p.1 = some p.2 := by
  induction adj with
  | nil => simp at hp
  | cons q t ih =>
    rw [adjKeys_cons] at hnd
    rw [adjFind_cons]
    rcases List.mem_cons.1 hp with h | h
    · subst h
      rw [if_pos rfl]
    · have hq : ¬(q.1 = p.1) := by
        intro hh
        have hpk : p.1 ∈ adjKeys t := List.mem_map.2 ⟨p, h, rfl⟩
        exact (List.nodup_cons.1 hnd).1 (hh ▸ hpk)
      rw [if_neg hq]
      exact ih (List.nodup_cons.1 hnd).2 h

theorem mem_edgePairs_iff {adj : AdjMap} (hnd : (adjKeys adj).Nodup)
    (u v : Int) :
    (u, v) ∈ edgePairs adj ↔ v ∈ adjGet adj u := by
  constructor
  · intro h
    rcases List.mem_flatMap.1 h with ⟨p, hp, hm⟩
    rcases List.mem_map.1 hm with ⟨w, hw, hww⟩
    cases hww
    rw [adjGet, adjFind_eq_of_mem hnd hp]
    exact hw
  · intro h
    unfold adjGet at h
    cases hf : adjFind adj u with
    | none => rw [hf] at h; simp at h
    | some ns =>
      rw [hf] at h
      unfold adjFind at hf
      cases hq : adj.find? (fun p => p.1 == u) with
      | none => rw [hq] at hf; simp at hf
      | some q =>
        rw [hq] at hf
        have hqu : q.1 = u := by
          have := List.find?_some hq
          simpa using this
        have hqm : q ∈ adj := List.mem_of_find?_eq_some hq
        have hf' : some q.2 = some ns := hf
        have hns : ns = q.2 := (Option.some.inj hf').symm
        refine List.mem_flatMap.2 ⟨q, hqm, List.mem_map.2 ⟨v, ?_, ?_⟩⟩
        · rw [← hns]
          exact h
        · rw [hqu]

theorem mem_edgeKeys_iff {adj : AdjMap} (hnd : (adjKeys adj).Nodup)
    (hsym : ∀ u v, v ∈ adjGet adj u ↔ u ∈ adjGet adj v) (x y : Int) :
    pairKey x y ∈ edgeKeys adj ↔ y ∈ adjGet adj x := by
  unfold edgeKeys
  rw [List.mem_map]
  constructor
  · rintro ⟨e, he, hk⟩
    obtain ⟨a, b⟩ := e
    have hab : b ∈ adjGet adj a := (mem_edgePairs_iff hnd a b).1 he
    rcases (pairKey_eq_iff a b x y).1 hk with ⟨h1, h2⟩ | ⟨h1, h2⟩
    · exact h1 ▸ h2 ▸ hab
    · exact (hsym x y).2 (h1 ▸ h2 ▸ hab)
  · intro h
    exact ⟨(x, y), (mem_edgePairs_iff hnd x y).2 h, rfl⟩

/-- C8: for a symmetric adjacency map (with the dict property of unique
keys), the renderer emits each undirected edge exactly once: the frozenset
keys of the emitted records are pairwise distinct, an unordered pair is
emitted iff it is an edge of the map, and the number of emitted records is
the number of distinct unordered pairs with v in adj[u]. -/
theorem build_html_edges_dedup {adj : AdjMap}
    (hnd : (adjKeys adj).Nodup)
    (hsym : ∀ u v, v ∈ adjGet adj u ↔ u ∈ adjGet adj v) :
    ((build_html_edges adj).map (fun e => pairKey e.1 e.2)).Nodup ∧
      (∀ x y, (pairKey x y ∈
          (build_html_edges adj).map (fun e => pairKey e.1 e.2)) ↔
        y ∈ adjGet adj x) ∧
      (∀ x y, pairKey x y ∈ (edgeKeys adj).toFinset ↔ y ∈ adjGet adj x) ∧
      (build_html_edges adj).length = (edgeKeys adj).toFinset.card := by
  obtain ⟨S1, S2, S3⟩ :=
    dedup_foldl_spec (edgePairs adj) [] [] rfl List.nodup_nil
  have hEmap : (build_html_edges adj).map (fun e => pairKey e.1 e.2) =
      ((edgePairs adj).foldl dedupStep ([], [])).1 := by
    rw [build_html_edges_flat, S1]
  have hmemA : ∀ k, k ∈ ((edgePairs adj).foldl dedupStep ([], [])).1 ↔
      k ∈ edgeKeys adj := by
    intro k
    rw [S3 k]
    simp [edgeKeys]
  refine ⟨?_, ?_, ?_, ?_⟩
  · rw [hEmap]
    exact S2
  · intro x y
    rw [hEmap, hmemA]
    exact mem_edgeKeys_iff hnd hsym x y
  · intro x y
    rw [List.mem_toFinset]
    exact mem_edgeKeys_iff hnd hsym x y
  · have hlen : (build_html_edges adj).length =
        ((edgePairs adj).foldl dedupStep ([], [])).1.length := by
      rw [← hEmap, List.length_map]
    rw [hlen]
    have hA : ((edgePairs adj).foldl dedupStep ([], [])).1.toFinset =
        (edgeKeys adj).toFinset := by
      apply Finset.ext
      intro k
      rw [List.mem_toFinset, List.mem_toFinset]
      exact hmemA k
    rw [← List.toFinset_card_of_nodup S2, hA]

theorem exists_entry_of_mem_adjGet {adj : AdjMap} {u v : Int}
    (h : v ∈ adjGet adj u) : ∃ q ∈ adj, q.1 = u ∧ v ∈ q.2 := by
  unfold adjGet at h
  cases hf : adjFind adj u with
  | none => rw [hf] at h; simp at h
  | some ns =>
    rw [hf] at h
    unfold adjFind at hf
    cases hq : adj.find? (fun p => p.1 == u) with
    | none => rw [hq] at hf; simp at hf
    | some q =>
      rw [hq] at hf
      have hf' : some q.2 = some ns := hf
      have hqu : q.1 = u := by simpa using List.find?_some hq
      refine ⟨q, List.mem_of_find?_eq_some hq, hqu, ?_⟩
      rw [Option.some.inj hf']
      exact h

/-- A decidable entry-wise symmetry check implies full symmetry of lookups. -/
theorem adjGet_symm_of_check {adj : AdjMap}
    (h : ∀ p ∈ adj, ∀ v ∈ p.2, p.1 ∈ adjGet adj v) (u v : Int) :
    v ∈ adjGet adj u ↔ u ∈ adjGet adj v := by
  constructor <;> intro hm <;>
  · obtain ⟨q, hq, hq1, hq2⟩ := exists_entry_of_mem_adjGet hm
    exact hq1 ▸ h q hq _ hq2

/-- Witness for C8 at the path graph 1-2-3-4-5: four distinct edges emitted,
each exactly once. -/
theorem build_html_edges_dedup_witness :
    ((build_html_edges pathGraphFive).map (fun e => pairKey e.1 e.2)).Nodup ∧
      (build_html_edges pathGraphFive).length =
        (edgeKeys pathGraphFive).toFinset.card := by
  have h := @build_html_edges_dedup pathGraphFive (by decide)
    (adjGet_symm_of_check (by decide))
  exact ⟨h.1, h.2.2.2⟩

/-! Graph-theoretic layer for the articulation-point claim: adjacency,
reachability, a computable reachable set, component count, node removal. -/

/-- v is a neighbor of u in the map. -/
def Adjacent (adj : AdjMap) (u v : Int) : Prop := v ∈ adjGet adj u

/-- Reachability: the reflexive-transitive closure of adjacency. -/
def Reaches (adj : AdjMap) : Int → Int → Prop :=
  Relation.ReflTransGen (Adjacent adj)

/-- The vertex set of the map: its keys (under symmetry every id occurring
in a neighbor set is also a key). -/
def vertFinset (adj : AdjMap) : Finset Int := (adjKeys adj).toFinset

/-- One saturation step: add all neighbors of the current set. -/
def stepSet (adj : AdjMap) (s : Finset Int) : Finset Int :=
  s ∪ s.biUnion (fun u => (adjGet adj u).toFinset)

/-- The reachable set from u, by saturation; enough iterations to reach the
fixpoint on any map whose neighbor ids are keys. -/
def reachFinset (adj : AdjMap) (u : Int) : Finset Int :=
  (stepSet adj)^[(vertFinset adj).card + 1] {u}

/-- The number of connected components: the number of distinct reachable
sets of vertices. -/
def ncc (adj : AdjMap) : Nat :=
  ((vertFinset adj).image (reachFinset adj)).card

/-- Removal of a node and its incident edges from the map. -/
def removeNode (adj : AdjMap) (u : Int) : AdjMap :=
  (adj.filter (fun p => !(p.1 == u))).map
    (fun p => (p.1, p.2.filter (fun v => !(v == u))))

theorem subset_stepSet (adj : AdjMap) (s : Finset Int) : s ⊆ stepSet adj s :=
  Finset.subset_union_left

theorem stepSet_mono (adj : AdjMap) {s t : Finset Int} (h : s ⊆ t) :
    stepSet adj s ⊆ stepSet adj t :=
  Finset.union_subset_union h (Finset.biUnion_subset_biUnion_of_subset_left _ h)

theorem iterate_stepSet_subset_succ (adj : AdjMap) (n : Nat) (s : Finset Int) :
    (stepSet adj)^[n] s ⊆ (stepSet adj)^[n + 1] s := by
  induction n generalizing s with
  | zero => exact subset_stepSet adj s
  | succ n ih =>
    rw [Function.iterate_succ_apply, Function.iterate_succ_apply]
    exact ih (stepSet adj s)

theorem iterate_stepSet_le (adj : AdjMap) {m n : Nat} (h : m ≤ n)
    (s : Finset Int) : (stepSet adj)^[m] s ⊆ (stepSet adj)^[n] s := by
  induction n with
  | zero =>
    cases Nat.le_zero.1 h
    exact fun x hx => hx
  | succ n ih =>
    rcases Nat.lt_or_ge m (n + 1) with h1 | h1
    · exact fun x hx =>
        iterate_stepSet_subset_succ adj n s (ih (Nat.lt_succ_iff.1 h1) hx)
    · have : m = n + 1 := Nat.le_antisymm h h1
      subst this
      exact fun x hx => hx

theorem mem_stepSet {adj : AdjMap} {s : Finset Int} {v : Int} :
    v ∈ stepSet adj s ↔ v ∈ s ∨ ∃ w ∈ s, v ∈ adjGet adj w := by
  unfold stepSet
  simp [Finset.mem_union, Finset.mem_biUnion, List.mem_toFinset]

theorem iterate_stepSet_sound {adj : AdjMap} {u v : Int} (n : Nat)
    (h : v ∈ (stepSet adj)^[n] {u}) : Reaches adj u v := by
  induction n generalizing v with
  | zero =>
    simp at h
    subst h
    exact Relation.ReflTransGen.refl
  | succ n ih =>
    rw [Function.iterate_succ_apply'] at h
    rcases mem_stepSet.1 h with h1 | ⟨w, hw, hv⟩
    · exact ih h1
    · exact Relation.ReflTransGen.tail (ih hw) hv

theorem neighbors_subset_keys {adj : AdjMap}
    (hsym : ∀ u v, v ∈ adjGet adj u ↔ u ∈ adjGet adj v) {u v : Int}
    (h : v ∈ adjGet adj u) : v ∈ adjKeys adj :=
  mem_adjKeys_of_adjGet_ne_nil (List.ne_nil_of_mem ((hsym u v).1 h))

theorem iterate_stepSet_subset_verts {adj : AdjMap}
    (hsym : ∀ u v, v ∈ adjGet adj u ↔ u ∈ adjGet adj v) (u : Int) (n : Nat) :
    (stepSet adj)^[n] {u} ⊆ insert u (vertFinset adj) := by
  induction n with
  | zero => simp
  | succ n ih =>
    rw [Function.iterate_succ_apply']
    intro v hv
    rcases mem_stepSet.1 hv with h1 | ⟨w, _, hv2⟩
    · exact ih h1
    · exact Finset.mem_insert_of_mem
        (List.mem_toFinset.2 (neighbors_subset_keys hsym hv2))

theorem stepSet_fixpoint_iterate {adj : AdjMap} {s : Finset Int}
    (h : stepSet adj s = s) (n : Nat) : (stepSet adj)^[n] s = s := by
  induction n with
  | zero => rfl
  | succ n ih => rw [Function.iterate_succ_apply, h, ih]

theorem exists_iterate_fixpoint {adj : AdjMap}
    (hsym : ∀ u v, v ∈ adjGet adj u ↔ u ∈ adjGet adj v) (u : Int) :
    stepSet adj (reachFinset adj u) = reachFinset adj u := by
  by_contra hne
  have hchain : ∀ k : Nat, k ≤ (vertFinset adj).card + 1 →
      k + 1 ≤ ((stepSet adj)^[k] {u}).card := by
    intro k hk
    induction k with
    | zero => simp
    | succ k ih =>
      have hlt : (stepSet adj)^[k] {u} ⊂ (stepSet adj)^[k + 1] {u} := by
        refine Finset.ssubset_iff_of_subset
          (iterate_stepSet_subset_succ adj k {u}) |>.2 ?_
        by_contra hall
        push_neg at hall
        have heq : (stepSet adj)^[k + 1] {u} = (stepSet adj)^[k] {u} :=
          Finset.Subset.antisymm (fun x hx => hall x hx)
            (iterate_stepSet_subset_succ adj k {u})
        have hfix : stepSet adj ((stepSet adj)^[k] {u}) =
            (stepSet adj)^[k] {u} := by
          have h1 : stepSet adj ((stepSet adj)^[k] {u}) =
              (stepSet adj)^[k + 1] {u} :=
            (Function.iterate_succ_apply' (stepSet adj) k {u}).symm
          rw [h1, heq]
        have : reachFinset adj u = (stepSet adj)^[k] {u} := by
          unfold reachFinset
          have hk1 : (vertFinset adj).card + 1 = k +
              ((vertFinset adj).card + 1 - k) := by omega
          rw [hk1, Nat.add_comm, Function.iterate_add_apply]
          exact stepSet_fixpoint_iterate hfix _
        rw [this] at hne
        exact hne hfix
      have := Finset.card_lt_card hlt
      have hkk := ih (Nat.le_of_succ_le hk)
      omega
  have hbound := hchain ((vertFinset adj).card + 1) (le_refl _)
  have hsub := iterate_stepSet_subset_verts hsym u ((vertFinset adj).card + 1)
  have hcard := Finset.card_le_card hsub
  have hins := Finset.card_insert_le u (vertFinset adj)
  omega

theorem mem_reachFinset {adj : AdjMap}
    (hsym : ∀ u v, v ∈ adjGet adj u ↔ u ∈ adjGet adj v) (u v : Int) :
    v ∈ reachFinset adj u ↔ Reaches adj u v := by
  constructor
  · exact iterate_stepSet_sound _
  · intro h
    induction h with
    | refl =>
      have : u ∈ ({u} : Finset Int) := Finset.mem_singleton_self u
      exact iterate_stepSet_le adj (Nat.zero_le _) {u} this
    | tail hab hbc ih =>
      have hfix := exists_iterate_fixpoint hsym u
      rw [← hfix]
      exact mem_stepSet.2 (Or.inr ⟨_, ih, hbc⟩)

theorem reaches_symm {adj : AdjMap}
    (hsym : ∀ a b, b ∈ adjGet adj a ↔ a ∈ adjGet adj b) {u v : Int}
    (h : Reaches adj u v) : Reaches adj v u := by
  induction h with
  | refl => exact Relation.ReflTransGen.refl
  | tail hab hbc ih =>
    exact Relation.ReflTransGen.head ((hsym _ _).1 hbc) ih

theorem reachFinset_eq_iff {adj : AdjMap}
    (hsym : ∀ a b, b ∈ adjGet adj a ↔ a ∈ adjGet adj b) (u v : Int) :
    reachFinset adj u = reachFinset adj v ↔ Reaches adj u v := by
  constructor
  · intro h
    have hv : v ∈ reachFinset adj v :=
      (mem_reachFinset hsym v v).2 Relation.ReflTransGen.refl
    rw [← h] at hv
    exact (mem_reachFinset hsym u v).1 hv
  · intro h
    ext w
    rw [mem_reachFinset hsym, mem_reachFinset hsym]
    constructor
    · exact fun h2 => Relation.ReflTransGen.trans (reaches_symm hsym h) h2
    · exact fun h2 => Relation.ReflTransGen.trans h h2

theorem removeNode_cons (p : Int × List Int) (t : AdjMap) (u : Int) :
    removeNode (p :: t) u =
      if p.1 = u then removeNode t u
      else (p.1, p.2.filter (fun v => !(v == u))) :: removeNode t u := by
  unfold removeNode
  by_cases h : p.1 = u <;> simp [List.filter_cons, h]

theorem adjFind_removeNode (adj : AdjMap) (u w : Int) :
    adjFind (removeNode adj u) w =
      if w = u then none
      else (adjFind adj w).map (fun ns => ns.filter (fun v => !(v == u))) := by
  induction adj with
  | nil =>
    by_cases h : w = u <;> simp [removeNode, adjFind, h]
  | cons p t ih =>
    rw [removeNode_cons]
    by_cases hp : p.1 = u
    · rw [if_pos hp, ih, adjFind_cons]
      by_cases hw : w = u
      · rw [if_pos hw, if_pos hw]
      · rw [if_neg hw, if_neg hw]
        have : ¬(p.1 = w) := by rw [hp]; exact fun hh => hw hh.symm
        rw [if_neg this]
    · rw [if_neg hp, adjFind_cons, adjFind_cons]
      by_cases hw : w = u
      · rw [if_pos hw]
        have : ¬(p.1 = w) := by rw [hw]; exact hp
        rw [if_neg this, ih, if_pos hw]
      · rw [if_neg hw]
        by_cases hpw : p.1 = w
        · rw [if_pos hpw, if_pos hpw]
          rfl
        · rw [if_neg hpw, if_neg hpw, ih, if_neg hw]

theorem adjGet_removeNode (adj : AdjMap) (u w : Int) :
    adjGet (removeNode adj u) w =
      if w = u then [] else (adjGet adj w).filter (fun v => !(v == u)) := by
  unfold adjGet
  rw [adjFind_removeNode]
  by_cases hw : w = u
  · rw [if_pos hw, if_pos hw]
    rfl
  · rw [if_neg hw, if_neg hw]
    cases adjFind adj w with
    | none => rfl
    | some ns => rfl

theorem mem_adjGet_removeNode {adj : AdjMap} {u w x : Int} :
    x ∈ adjGet (removeNode adj u) w ↔
      x ∈ adjGet adj w ∧ x ≠ u ∧ w ≠ u := by
  rw [adjGet_removeNode]
  by_cases hw : w = u
  · simp [hw]
  · simp [hw, List.mem_filter]

theorem mem_adjKeys_removeNode {adj : AdjMap} {u w : Int} :
    w ∈ adjKeys (removeNode adj u) ↔ w ∈ adjKeys adj ∧ w ≠ u := by
  induction adj with
  | nil => simp [removeNode, adjKeys]
  | cons p t ih =>
    rw [removeNode_cons]
    by_cases hp : p.1 = u
    · rw [if_pos hp, adjKeys_cons]
      rw [ih]
      simp only [List.mem_cons]
      constructor
      · rintro ⟨h1, h2⟩
        exact ⟨Or.inr h1, h2⟩
      · rintro ⟨h1 | h1, h2⟩
        · exact absurd (h1.trans hp) h2
        · exact ⟨h1, h2⟩
    · rw [if_neg hp, adjKeys_cons, adjKeys_cons]
      simp only [List.mem_cons]
      rw [ih]
      constructor
      · rintro (h1 | ⟨h1, h2⟩)
        · exact ⟨Or.inl h1, h1 ▸ hp⟩
        · exact ⟨Or.inr h1, h2⟩
      · rintro ⟨h1 | h1, h2⟩
        · exact Or.inl h1
        · exact Or.inr ⟨h1, h2⟩

theorem removeNode_symm {adj : AdjMap} {u : Int}
    (hsym : ∀ a b, b ∈ adjGet adj a ↔ a ∈ adjGet adj b) (a b : Int) :
    b ∈ adjGet (removeNode adj u) a ↔ a ∈ adjGet (removeNode adj u) b := by
  rw [mem_adjGet_removeNode, mem_adjGet_removeNode, hsym a b]
  constructor
  · rintro ⟨h1, h2, h3⟩
    exact ⟨h1, h3, h2⟩
  · rintro ⟨h1, h2, h3⟩
    exact ⟨h1, h3, h2⟩

theorem removeNode_eq_self_of_absent {adj : AdjMap} {u : Int}
    (hk : u ∉ adjKeys adj) (hn : ∀ p ∈ adj, ∀ v ∈ p.2, ¬(v = u)) :
    removeNode adj u = adj := by
  induction adj with
  | nil => rfl
  | cons p t ih =>
    have hp1 : ¬(p.1 = u) := fun hh => hk (by
      rw [adjKeys_cons, hh]
      exact List.mem_cons_self u (adjKeys t))
    rw [removeNode_cons, if_neg hp1]
    have hfilter : p.2.filter (fun v => !(v == u)) = p.2 := by
      apply List.filter_eq_self.2
      intro v hv
      simpa using hn p (List.mem_cons_self p t) v hv
    rw [hfilter]
    have ht : removeNode t u = t := by
      apply ih
      · intro hm
        exact hk (by rw [adjKeys_cons]; exact List.mem_cons_of_mem p.1 hm)
      · exact fun q hq v hv => hn q (List.mem_cons_of_mem p hq) v hv
    rw [ht]

theorem removeNode_eq_self {adj : AdjMap} {u : Int}
    (hnd : (adjKeys adj).Nodup)
    (hsym : ∀ a b, b ∈ adjGet adj a ↔ a ∈ adjGet adj b)
    (hu : u ∉ adjKeys adj) : removeNode adj u = adj := by
  have hget : adjGet adj u = [] := adjGet_eq_nil_of_not_mem hu
  apply removeNode_eq_self_of_absent hu
  intro p hp v hv hvu
  have h1 : v ∈ adjGet adj p.1 := by
    rw [adjGet, adjFind_eq_of_mem hnd hp]
    exact hv
  have h2 : p.1 ∈ adjGet adj v := (hsym p.1 v).1 h1
  rw [hvu, hget] at h2
  simp at h2

theorem reaches_of_removeNode {adj : AdjMap} {u v w : Int}
    (h : Reaches (removeNode adj u) v w) : Reaches adj v w := by
  induction h with
  | refl => exact Relation.ReflTransGen.refl
  | tail hab hbc ih =>
    exact Relation.ReflTransGen.tail ih (mem_adjGet_removeNode.1 hbc).1

theorem reaches_removeNode_of_avoid {adj : AdjMap} {u v w : Int}
    (hvu : ¬ Reaches adj v u) (h : Reaches adj v w) :
    Reaches (removeNode adj u) v w := by
  induction h with
  | refl => exact Relation.ReflTransGen.refl
  | @tail b c hab hbc ih =>
    have hb : ¬(b = u) := fun hh => hvu (hh ▸ hab)
    have hc : ¬(c = u) := fun hh =>
      hvu (hh ▸ Relation.ReflTransGen.tail hab hbc)
    exact Relation.ReflTransGen.tail ih
      (mem_adjGet_removeNode.2 ⟨hbc, hc, hb⟩)

theorem reaches_removeNode_iff_of_avoid {adj : AdjMap} {u v w : Int}
    (hvu : ¬ Reaches adj v u) :
    Reaches (removeNode adj u) v w ↔ Reaches adj v w :=
  ⟨reaches_of_removeNode, reaches_removeNode_of_avoid hvu⟩

theorem reaches_through_of_blocked {adj : AdjMap} {u v w : Int}
    (h : Reaches adj v w) (hb : ¬ Reaches (removeNode adj u) v w) :
    Reaches adj v u := by
  induction h with
  | refl => exact absurd Relation.ReflTransGen.refl hb
  | @tail b c hab hbc ih =>
    by_cases hvb : Reaches (removeNode adj u) v b
    · by_cases hbu : b = u
      · exact hbu ▸ hab
      · by_cases hcu : c = u
        · exact hcu ▸ Relation.ReflTransGen.tail hab hbc
        · exact absurd (Relation.ReflTransGen.tail hvb
            (mem_adjGet_removeNode.2 ⟨hbc, hcu, hbu⟩)) hb
    · exact ih hvb

theorem reachFinset_removeNode_of_avoid {adj : AdjMap} {u v : Int}
    (hsym : ∀ a b, b ∈ adjGet adj a ↔ a ∈ adjGet adj b)
    (hvu : ¬ Reaches adj v u) :
    reachFinset (removeNode adj u) v = reachFinset adj v := by
  ext w
  rw [mem_reachFinset (removeNode_symm hsym), mem_reachFinset hsym]
  exact reaches_removeNode_iff_of_avoid hvu

theorem keys_of_reaches {adj : AdjMap}
    (hsym : ∀ a b, b ∈ adjGet adj a ↔ a ∈ adjGet adj b) {v w : Int}
    (h : Reaches adj v w) (hne : ¬(v = w)) :
    v ∈ adjKeys adj ∧ w ∈ adjKeys adj := by
  induction h with
  | refl => exact absurd rfl hne
  | @tail b c hab hbc ih =>
    constructor
    · by_cases hvb : v = b
      · subst hvb
        exact mem_adjKeys_of_adjGet_ne_nil (List.ne_nil_of_mem hbc)
      · exact (ih hvb).1
    · exact neighbors_subset_keys hsym hbc

theorem ncc_split {adj : AdjMap} {u : Int}
    (hsym : ∀ a b, b ∈ adjGet adj a ↔ a ∈ adjGet adj b)
    (hu : u ∈ adjKeys adj) :
    ncc adj = 1 +
      (((vertFinset adj).filter (fun v => u ∉ reachFinset adj v)).image
        (reachFinset adj)).card := by
  unfold ncc
  have hsplit : vertFinset adj =
      ((vertFinset adj).filter (fun v => u ∈ reachFinset adj v)) ∪
      ((vertFinset adj).filter (fun v => u ∉ reachFinset adj v)) :=
    (Finset.filter_union_filter_neg_eq _ _).symm
  conv_lhs => rw [hsplit]
  rw [Finset.image_union]
  have himg : ((vertFinset adj).filter
      (fun v => u ∈ reachFinset adj v)).image (reachFinset adj) =
      {reachFinset adj u} := by
    apply Finset.Subset.antisymm
    · intro x hx
      rcases Finset.mem_image.1 hx with ⟨v, hv, hvx⟩
      have hvu : Reaches adj v u :=
        (mem_reachFinset hsym v u).1 (Finset.mem_filter.1 hv).2
      rw [Finset.mem_singleton, ← hvx]
      exact (reachFinset_eq_iff hsym v u).2 hvu
    · intro x hx
      rw [Finset.mem_singleton] at hx
      refine Finset.mem_image.2 ⟨u, Finset.mem_filter.2 ⟨?_, ?_⟩, hx.symm⟩
      · exact List.mem_toFinset.2 hu
      · exact (mem_reachFinset hsym u u).2 Relation.ReflTransGen.refl
  rw [himg]
  have hdisj : Disjoint ({reachFinset adj u} : Finset (Finset Int))
      (((vertFinset adj).filter (fun v => u ∉ reachFinset adj v)).image
        (reachFinset adj)) := by
    rw [Finset.disjoint_left]
    intro x hx hx2
    rw [Finset.mem_singleton] at hx
    rcases Finset.mem_image.1 hx2 with ⟨v, hv, hvx⟩
    have hnv : u ∉ reachFinset adj v := (Finset.mem_filter.1 hv).2
    apply hnv
    rw [hvx, hx]
    exact (mem_reachFinset hsym u u).2 Relation.ReflTransGen.refl
  rw [Finset.card_union_of_disjoint hdisj, Finset.card_singleton]

theorem ncc_removeNode_split {adj : AdjMap} {u : Int}
    (hsym : ∀ a b, b ∈ adjGet adj a ↔ a ∈ adjGet adj b) :
    ncc (removeNode adj u) =
      (((vertFinset (removeNode adj u)).filter
          (fun v => u ∈ reachFinset adj v)).image
        (reachFinset (removeNode adj u))).card +
      (((vertFinset adj).filter (fun v => u ∉ reachFinset adj v)).image
        (reachFinset adj)).card := by
  unfold ncc
  have hsplit : vertFinset (removeNode adj u) =
      ((vertFinset (removeNode adj u)).filter
        (fun v => u ∈ reachFinset adj v)) ∪
      ((vertFinset (removeNode adj u)).filter
        (fun v => u ∉ reachFinset adj v)) :=
    (Finset.filter_union_filter_neg_eq _ _).symm
  conv_lhs => rw [hsplit]
  rw [Finset.image_union]
  have himg2 : ((vertFinset (removeNode adj u)).filter
      (fun v => u ∉ reachFinset adj v)).image (reachFinset (removeNode adj u))
      = ((vertFinset adj).filter (fun v => u ∉ reachFinset adj v)).image
        (reachFinset adj) := by
    have hfeq : (vertFinset (removeNode adj u)).filter
        (fun v => u ∉ reachFinset adj v) =
        (vertFinset adj).filter (fun v => u ∉ reachFinset adj v) := by
      ext v
      rw [Finset.mem_filter, Finset.mem_filter]
      unfold vertFinset
      rw [List.mem_toFinset, List.mem_toFinset, mem_adjKeys_removeNode]
      constructor
      · rintro ⟨⟨h1, _⟩, h3⟩
        exact ⟨h1, h3⟩
      · rintro ⟨h1, h3⟩
        refine ⟨⟨h1, ?_⟩, h3⟩
        intro hvu
        apply h3
        rw [hvu]
        exact (mem_reachFinset hsym u u).2 Relation.ReflTransGen.refl
    rw [hfeq]
    apply Finset.image_congr
    intro v hv
    have hnv : u ∉ reachFinset adj v := (Finset.mem_filter.1 hv).2
    exact reachFinset_removeNode_of_avoid hsym
      (fun hr => hnv ((mem_reachFinset hsym v u).2 hr))
  rw [himg2]
  have hdisj : Disjoint
      (((vertFinset (removeNode adj u)).filter
          (fun v => u ∈ reachFinset adj v)).image
        (reachFinset (removeNode adj u)))
      (((vertFinset adj).filter (fun v => u ∉ reachFinset adj v)).image
        (reachFinset adj)) := by
    rw [Finset.disjoint_left]
    intro x hx hx2
    rcases Finset.mem_image.1 hx with ⟨v, hv, hvx⟩
    rcases Finset.mem_image.1 hx2 with ⟨w, hw, hwx⟩
    have hvu : Reaches adj v u :=
      (mem_reachFinset hsym v u).1 (Finset.mem_filter.1 hv).2
    have hnw : u ∉ reachFinset adj w := (Finset.mem_filter.1 hw).2
    have hvx2 : v ∈ (reachFinset adj w : Finset Int) := by
      rw [hwx, ← hvx]
      exact (mem_reachFinset (removeNode_symm hsym) v v).2
        Relation.ReflTransGen.refl
    have hwv : Reaches adj w v := (mem_reachFinset hsym w v).1 hvx2
    exact hnw ((mem_reachFinset hsym w u).2
      (Relation.ReflTransGen.trans hwv hvu))
  rw [Finset.card_union_of_disjoint hdisj]

theorem two_le_inU_image_iff {adj : AdjMap} {u : Int}
    (hsym : ∀ a b, b ∈ adjGet adj a ↔ a ∈ adjGet adj b) :
    2 ≤ (((vertFinset (removeNode adj u)).filter
          (fun v => u ∈ reachFinset adj v)).image
        (reachFinset (removeNode adj u))).card ↔
      ∃ v w, ¬(v = u) ∧ ¬(w = u) ∧ Reaches adj v w ∧
        ¬ Reaches (removeNode adj u) v w := by
  have hsymB := @removeNode_symm adj u hsym
  constructor
  · intro h2
    have h1 : 1 < (((vertFinset (removeNode adj u)).filter
          (fun v => u ∈ reachFinset adj v)).image
        (reachFinset (removeNode adj u))).card := by omega
    rcases Finset.one_lt_card.1 h1 with ⟨x, hx, y, hy, hxy⟩
    rcases Finset.mem_image.1 hx with ⟨v, hv, hvx⟩
    rcases Finset.mem_image.1 hy with ⟨w, hw, hwy⟩
    have hvu : Reaches adj v u :=
      (mem_reachFinset hsym v u).1 (Finset.mem_filter.1 hv).2
    have hwu : Reaches adj w u :=
      (mem_reachFinset hsym w u).1 (Finset.mem_filter.1 hw).2
    have hvne : ¬(v = u) :=
      (mem_adjKeys_removeNode.1 (List.mem_toFinset.1
        (Finset.mem_filter.1 hv).1)).2
    have hwne : ¬(w = u) :=
      (mem_adjKeys_removeNode.1 (List.mem_toFinset.1
        (Finset.mem_filter.1 hw).1)).2
    refine ⟨v, w, hvne, hwne,
      Relation.ReflTransGen.trans hvu (reaches_symm hsym hwu), ?_⟩
    intro hr
    apply hxy
    rw [← hvx, ← hwy]
    exact (reachFinset_eq_iff hsymB v w).2 hr
  · rintro ⟨v, w, hvne, hwne, hvw, hnb⟩
    have hvw_ne : ¬(v = w) := by
      intro hh
      exact hnb (hh ▸ Relation.ReflTransGen.refl)
    have hkeys := keys_of_reaches hsym hvw hvw_ne
    have hvu : Reaches adj v u := reaches_through_of_blocked hvw hnb
    have hnb' : ¬ Reaches (removeNode adj u) w v := fun hr =>
      hnb (reaches_symm hsymB hr)
    have hwu : Reaches adj w u :=
      reaches_through_of_blocked (reaches_symm hsym hvw) hnb'
    apply Finset.one_lt_card.2
    refine ⟨reachFinset (removeNode adj u) v, ?_,
      reachFinset (removeNode adj u) w, ?_, ?_⟩
    · exact Finset.mem_image.2 ⟨v, Finset.mem_filter.2
        ⟨List.mem_toFinset.2 (mem_adjKeys_removeNode.2 ⟨hkeys.1, hvne⟩),
         (mem_reachFinset hsym v u).2 hvu⟩, rfl⟩
    · exact Finset.mem_image.2 ⟨w, Finset.mem_filter.2
        ⟨List.mem_toFinset.2 (mem_adjKeys_removeNode.2 ⟨hkeys.2, hwne⟩),
         (mem_reachFinset hsym w u).2 hwu⟩, rfl⟩
    · intro heq
      exact hnb ((reachFinset_eq_iff hsymB v w).1 heq)

/-- Removing node u strictly increases the number of connected components
exactly when some two other nodes are connected in the graph but separated
once u is removed. -/
theorem ncc_increase_iff {adj : AdjMap} {u : Int}
    (hnd : (adjKeys adj).Nodup)
    (hsym : ∀ a b, b ∈ adjGet adj a ↔ a ∈ adjGet adj b) :
    ncc adj < ncc (removeNode adj u) ↔
      ∃ v w, ¬(v = u) ∧ ¬(w = u) ∧ Reaches adj v w ∧
        ¬ Reaches (removeNode adj u) v w := by
  by_cases hu : u ∈ adjKeys adj
  · rw [@ncc_split adj u hsym hu, ncc_removeNode_split hsym]
    have h2 := @two_le_inU_image_iff adj u hsym
    constructor
    · intro h
      exact h2.1 (by omega)
    · intro h
      have h3 := h2.2 h
      omega
  · rw [removeNode_eq_self hnd hsym hu]
    constructor
    · intro h
      exact absurd h (lt_irrefl _)
    · rintro ⟨v, w, _, _, h1, h2⟩
      exact absurd h1 h2

/-! The finder's bookkeeping dicts: access lemmas. -/

theorem mapGetOpt_cons {α : Type} (p : Int × α) (t : List (Int × α)) (k : Int) :
    mapGetOpt (p :: t) k =
      if p.1 = k then some p.2 else mapGetOpt t k := by
  by_cases h : p.1 = k <;> simp [mapGetOpt, List.find?_cons, h]

theorem mapGetOpt_overwrite_self {α : Type} (m : List (Int × α)) (k : Int)
    (a : α) (h : (m.find? (fun p => p.1 == k)).isSome) :
    mapGetOpt (m.map (fun p => if p.1 = k then (k, a) else p)) k = some a := by
  induction m with
  | nil => simp [List.find?] at h
  | cons p t ih =>
    by_cases hp : p.1 = k
    · simp only [List.map_cons, if_pos hp]
      rw [mapGetOpt_cons]
      simp
    · simp only [List.map_cons, if_neg hp]
      rw [mapGetOpt_cons, if_neg hp]
      rw [List.find?_cons] at h
      have hb : (p.1 == k) = false := by simp [hp]
      rw [hb] at h
      exact ih h

theorem mapGetOpt_overwrite_ne {α : Type} (m : List (Int × α)) {k w : Int}
    (a : α) (h : ¬(w = k)) :
    mapGetOpt (m.map (fun p => if p.1 = k then (k, a) else p)) w =
      mapGetOpt m w := by
  induction m with
  | nil => rfl
  | cons p t ih =>
    by_cases hp : p.1 = k
    · simp only [List.map_cons, if_pos hp]
      rw [mapGetOpt_cons, mapGetOpt_cons]
      have h1 : ¬(k = w) := fun hh => h hh.symm
      have h2 : ¬(p.1 = w) := by rw [hp]; exact h1
      rw [if_neg h1, if_neg h2]
      exact ih
    · simp only [List.map_cons, if_neg hp]
      rw [mapGetOpt_cons, mapGetOpt_cons]
      by_cases hpw : p.1 = w
      · rw [if_pos hpw, if_pos hpw]
      · rw [if_neg hpw, if_neg hpw]
        exact ih

theorem mapGetOpt_append_single {α : Type} (m : List (Int × α)) (k w : Int)
    (a : α) :
    mapGetOpt (m ++ [(k, a)]) w =
      match mapGetOpt m w with
      | some b => some b
      | none => if k = w then some a else none := by
  induction m with
  | nil =>
    rw [List.nil_append, mapGetOpt_cons]
    by_cases h : k = w <;> simp [mapGetOpt, h]
  | cons p t ih =>
    rw [List.cons_append, mapGetOpt_cons, mapGetOpt_cons]
    by_cases hp : p.1 = w
    · rw [if_pos hp, if_pos hp]
    · rw [if_neg hp, if_neg hp]
      exact ih

theorem mapGetOpt_mapUpd_self {α : Type} (m : List (Int × α)) (k : Int)
    (a : α) : mapGetOpt (mapUpd m k a) k = some a := by
  unfold mapUpd
  by_cases h : (m.find? (fun p => p.1 == k)).isSome
  · rw [if_pos h]
    exact mapGetOpt_overwrite_self m k a h
  · rw [if_neg h]
    rw [mapGetOpt_append_single]
    have hnone : mapGetOpt m k = none := by
      unfold mapGetOpt
      cases hf : m.find? (fun p => p.1 == k) with
      | none => rfl
      | some q => rw [hf] at h; simp at h
    rw [hnone]
    simp

theorem mapGetOpt_mapUpd_ne {α : Type} (m : List (Int × α)) {k w : Int}
    (a : α) (h : ¬(w = k)) :
    mapGetOpt (mapUpd m k a) w = mapGetOpt m w := by
  unfold mapUpd
  by_cases hs : (m.find? (fun p => p.1 == k)).isSome
  · rw [if_pos hs]
    exact mapGetOpt_overwrite_ne m a h
  · rw [if_neg hs]
    rw [mapGetOpt_append_single]
    have : ¬(k = w) := fun hh => h hh.symm
    rw [if_neg this]
    cases mapGetOpt m w with
    | none => rfl
    | some b => rfl

theorem mem_setAdd {l : List Int} {x w : Int} :
    w ∈ setAdd l x ↔ w ∈ l ∨ w = x := by
  unfold setAdd
  by_cases h : x ∈ l
  · rw [if_pos h]
    constructor
    · exact fun hw => Or.inl hw
    · rintro (hw | hw)
      · exact hw
      · exact hw ▸ h
  · rw [if_neg h]
    simp

theorem setAdd_nodup {l : List Int} {x : Int} (h : l.Nodup) :
    (setAdd l x).Nodup := by
  unfold setAdd
  by_cases hm : x ∈ l
  · rw [if_pos hm]; exact h
  · rw [if_neg hm]
    simp [List.nodup_append, h, hm]

/-! DFS tree relations over a finder state. -/

/-- One parent step in the DFS forest of the state. -/
def pstep (s : DfsState) (a b : Int) : Prop := mapGetOpt s.parent a = some b

/-- y lies in the DFS subtree rooted at w: following parent links from y
reaches w. -/
def Desc (s : DfsState) (w y : Int) : Prop :=
  Relation.ReflTransGen (pstep s) y w

/-- x is a strict ancestor of w in the DFS forest. -/
def SAnc (s : DfsState) (x w : Int) : Prop :=
  Relation.TransGen (pstep s) w x

/-- The candidates the low value of v minimizes over: v's own discovery
time, and the discovery time of every strict ancestor of v that is adjacent
to some node of v's subtree, the single tree edge from v to its parent
excluded. -/
def Cand (adj : AdjMap) (s : DfsState) (v : Int) (t : Nat) : Prop :=
  mapGetOpt s.disc v = some t ∨
    ∃ y x, Desc s v y ∧ x ∈ adjGet adj y ∧ SAnc s x v ∧
      mapGetOpt s.disc x = some t ∧
      (y = v → ¬(mapGetOpt s.parent v = some x))

/-- Candidates restricted to a prefix of v's neighbor list: a direct back
edge of v counts only when its endpoint has already been processed. -/
def CandPre (adj : AdjMap) (s : DfsState) (v : Int) (pre : List Int)
    (t : Nat) : Prop :=
  mapGetOpt s.disc v = some t ∨
    ∃ y x, Desc s v y ∧ x ∈ adjGet adj y ∧ SAnc s x v ∧
      mapGetOpt s.disc x = some t ∧
      (y = v → (x ∈ pre ∧ ¬(mapGetOpt s.parent v = some x)))

/-- The marking condition of the classical algorithm, counting only tree
children whose frames have completed (nodes not on the gray stack). -/
def Marked (s : DfsState) (gray : List Int) (w : Int) : Prop :=
  (mapGetOpt s.parent w = none ∧ ∃ c₁ c₂, pstep s c₁ w ∧ pstep s c₂ w ∧
      ¬(c₁ = c₂) ∧ c₁ ∈ s.visited ∧ c₂ ∈ s.visited ∧
      c₁ ∉ gray ∧ c₂ ∉ gray) ∨
  ((∃ p, mapGetOpt s.parent w = some p) ∧ ∃ c, pstep s c w ∧
      c ∈ s.visited ∧ c ∉ gray ∧
      ∃ lc dw, mapGetOpt s.low c = some lc ∧ mapGetOpt s.disc w = some dw ∧
        dw ≤ lc)

/-- The number of tree children of w recorded so far. -/
def nChildren (s : DfsState) (w : Int) : Nat :=
  (s.parent.filter (fun q => q.2 == w)).length

/-- The gray stack is a parent chain of visited nodes ending at a root. -/
def GrayOK (s : DfsState) : List Int → Prop
  | [] => True
  | [g] => mapGetOpt s.parent g = none ∧ g ∈ s.visited
  | g :: g' :: rest =>
      mapGetOpt s.parent g = some g' ∧ g ∈ s.visited ∧ GrayOK s (g' :: rest)

/-- The number of keys not yet visited; it bounds the recursion depth still
possible. -/
def unvisitedCount (adj : AdjMap) (s : DfsState) : Nat :=
  ((adjKeys adj).filter (fun k => !(List.elem k s.visited))).length

/-- The global invariant tying a finder state to the gray stack. A parent
entry whose source is not yet visited (the single pending child between its
parent assignment and the start of its frame) is outside the guarded
clauses. -/
structure DfsInv (adj : AdjMap) (s : DfsState) (gray : List Int) : Prop where
  vis_keys : ∀ w ∈ s.visited, w ∈ adjKeys adj
  vis_nodup : s.visited.Nodup
  disc_iff : ∀ w, (∃ t, mapGetOpt s.disc w = some t) ↔ w ∈ s.visited
  low_iff : ∀ w, (∃ t, mapGetOpt s.low w = some t) ↔ w ∈ s.visited
  disc_lt_time : ∀ w t, mapGetOpt s.disc w = some t → t < s.time
  parent_keys_nodup : (s.parent.map Prod.fst).Nodup
  parent_edge : ∀ a b, pstep s a b → a ∈ s.visited →
    b ∈ adjGet adj a ∧ b ∈ s.visited
  parent_disc : ∀ a b, pstep s a b → a ∈ s.visited → ∃ ta tb,
    mapGetOpt s.disc a = some ta ∧ mapGetOpt s.disc b = some tb ∧ tb < ta
  parent_src : ∀ a b, pstep s a b → a ∈ s.visited ∨ b ∈ gray
  grayOK : GrayOK s gray
  fin_closed : ∀ x ∈ s.visited, x ∉ gray → ∀ y ∈ adjGet adj x, y ∈ s.visited
  fin_subtree_closed : ∀ w ∈ s.visited, w ∉ gray → ∀ y x, Desc s w y →
    x ∈ adjGet adj y → Desc s w x ∨ SAnc s x w
  fin_low : ∀ w ∈ s.visited, w ∉ gray → ∃ ℓ, mapGetOpt s.low w = some ℓ ∧
    Cand adj s w ℓ ∧ ∀ t, Cand adj s w t → ℓ ≤ t

/-- The articulation list so far is exactly the marking condition, counting
children relative to the currently active loop's stack. -/
def ArtOK (s : DfsState) (grayA : List Int) : Prop :=
  ∀ w, w ∈ s.articulation ↔ Marked s grayA w

/-- How one frame extends the state: visits grow, parent entries persist,
entries newly created have unvisited source and target, and the data of
previously visited nodes is frozen. -/
structure FrameExt (s s' : DfsState) : Prop where
  vis_mono : ∀ w ∈ s.visited, w ∈ s'.visited
  pstep_mono : ∀ a b, pstep s a b → pstep s' a b
  pstep_new : ∀ a b, pstep s' a b → pstep s a b ∨
    (a ∉ s.visited ∧ b ∉ s.visited)
  old_frozen : ∀ w ∈ s.visited,
    mapGetOpt s'.disc w = mapGetOpt s.disc w ∧
    mapGetOpt s'.low w = mapGetOpt s.low w ∧
    mapGetOpt s'.parent w = mapGetOpt s.parent w
  time_mono : s.time ≤ s'.time

/-- How the node being visited hangs below the gray stack: a fresh root when
the stack is empty, otherwise a tree child of the stack top. -/
def ParentLink (adj : AdjMap) (s : DfsState) (gray : List Int) (v : Int) :
    Prop :=
  (gray = [] ∧ mapGetOpt s.parent v = none) ∨
  (∃ g₀ grest, gray = g₀ :: grest ∧ mapGetOpt s.parent v = some g₀ ∧
    v ∈ adjGet adj g₀)

/-! Basic facts about the DFS forest relations. -/

theorem pstep_fun {s : DfsState} {a b b' : Int} (h1 : pstep s a b)
    (h2 : pstep s a b') : b = b' := by
  unfold pstep at h1 h2
  rw [h1] at h2
  exact Option.some.inj h2

theorem desc_refl (s : DfsState) (w : Int) : Desc s w w :=
  Relation.ReflTransGen.refl

theorem desc_of_sanc {s : DfsState} {x w : Int} (h : SAnc s x w) :
    Desc s x w :=
  h.to_reflTransGen

theorem chain_visited {adj : AdjMap} {s : DfsState} {gray : List Int}
    (hInv : DfsInv adj s gray) {y x : Int}
    (h : Relation.ReflTransGen (pstep s) y x) (hy : y ∈ s.visited) :
    x ∈ s.visited := by
  induction h with
  | refl => exact hy
  | tail hab hbc ih => exact (hInv.parent_edge _ _ hbc ih).2

theorem sanc_disc_lt {adj : AdjMap} {s : DfsState} {gray : List Int}
    (hInv : DfsInv adj s gray) {x w : Int} (h : SAnc s x w)
    (hw : w ∈ s.visited) :
    ∃ tx tw, mapGetOpt s.disc x = some tx ∧ mapGetOpt s.disc w = some tw ∧
      tx < tw := by
  induction h with
  | single h1 =>
    rcases hInv.parent_disc _ _ h1 hw with ⟨ta, tb, hda, hdb, hlt⟩
    exact ⟨tb, ta, hdb, hda, hlt⟩
  | tail hwb hbx ih =>
    rcases ih with ⟨tb, tw, hdb, hdw, hlt⟩
    have hbvis : _ ∈ s.visited :=
      chain_visited hInv hwb.to_reflTransGen hw
    rcases hInv.parent_disc _ _ hbx hbvis with ⟨tb', tx, hdb', hdx, hlt'⟩
    rw [hdb] at hdb'
    have : tb' = tb := Option.some.inj hdb'.symm
    subst this
    exact ⟨tx, tw, hdx, hdw, by omega⟩

theorem sanc_ne {adj : AdjMap} {s : DfsState} {gray : List Int}
    (hInv : DfsInv adj s gray) {x w : Int} (h : SAnc s x w)
    (hw : w ∈ s.visited) : ¬(x = w) := by
  intro heq
  rcases sanc_disc_lt hInv h hw with ⟨tx, tw, hdx, hdw, hlt⟩
  rw [heq, hdw] at hdx
  have : tw = tx := Option.some.inj hdx
  omega

theorem desc_disc_le {adj : AdjMap} {s : DfsState} {gray : List Int}
    (hInv : DfsInv adj s gray) {w y : Int} (h : Desc s w y)
    (hy : y ∈ s.visited) :
    ∃ tw ty, mapGetOpt s.disc w = some tw ∧ mapGetOpt s.disc y = some ty ∧
      tw ≤ ty := by
  rcases (Relation.reflTransGen_iff_eq_or_transGen.1 h) with heq | htg
  · rcases (hInv.disc_iff y).2 hy with ⟨t, hd⟩
    exact ⟨t, t, heq ▸ hd, hd, le_refl t⟩
  · rcases sanc_disc_lt hInv htg hy with ⟨tw, ty, hdw, hdy, hlt⟩
    exact ⟨tw, ty, hdw, hdy, Nat.le_of_lt hlt⟩

theorem desc_antisymm {adj : AdjMap} {s : DfsState} {gray : List Int}
    (hInv : DfsInv adj s gray) {a b : Int} (h1 : Desc s a b) (h2 : Desc s b a)
    (hb : b ∈ s.visited) : a = b := by
  by_contra hne
  have htg1 : Relation.TransGen (pstep s) b a := by
    rcases Relation.reflTransGen_iff_eq_or_transGen.1 h1 with heq | htg
    · exact absurd heq hne
    · exact htg
  have hsanc : SAnc s b b := Relation.TransGen.trans_left htg1 h2
  exact sanc_ne hInv hsanc hb rfl

theorem desc_comparable {s : DfsState} {z a b : Int}
    (h1 : Desc s a z) (h2 : Desc s b z) : Desc s b a ∨ Desc s a b := by
  unfold Desc at h1 h2 ⊢
  induction h1 using Relation.ReflTransGen.head_induction_on generalizing b with
  | refl => exact Or.inl h2
  | head hstep _ ih =>
    rcases Relation.ReflTransGen.cases_head h2 with heq | ⟨m, hm, hrest⟩
    · subst heq
      exact Or.inr (Relation.ReflTransGen.head hstep (by assumption))
    · have := pstep_fun hstep hm
      subst this
      exact ih hrest

theorem child_chain_decomp {s : DfsState} {v y : Int} (h : Desc s v y)
    (hne : ¬(y = v)) : ∃ c, pstep s c v ∧ Desc s c y := by
  rcases Relation.ReflTransGen.cases_tail h with heq | ⟨c, hyc, hcv⟩
  · exact absurd heq.symm hne
  · exact ⟨c, hcv, hyc⟩

theorem sanc_above_child {s : DfsState} {c v x : Int} (hc : pstep s c v)
    (h : SAnc s x c) : x = v ∨ SAnc s x v := by
  rcases Relation.TransGen.head'_iff.1 h with ⟨m, hm, hrest⟩
  have : m = v := pstep_fun hm hc
  subst this
  rcases Relation.reflTransGen_iff_eq_or_transGen.1 hrest with heq | htg
  · exact Or.inl heq
  · exact Or.inr htg

/-! Gray stack facts. -/

theorem gray_mem_visited {s : DfsState} :
    ∀ {gray : List Int}, GrayOK s gray → ∀ g ∈ gray, g ∈ s.visited := by
  intro gray
  induction gray with
  | nil => intro _ g hg; simp at hg
  | cons g₀ rest ih =>
    intro h g hg
    cases rest with
    | nil =>
      rcases List.mem_cons.1 hg with h1 | h1
      · exact h1 ▸ h.2
      · simp at h1
    | cons g₁ rest' =>
      rcases List.mem_cons.1 hg with h1 | h1
      · exact h1 ▸ h.2.1
      · exact ih h.2.2 g h1

theorem gray_up {s : DfsState} :
    ∀ {gray : List Int}, GrayOK s gray → ∀ g ∈ gray, ∀ b, pstep s g b →
      b ∈ gray := by
  intro gray
  induction gray with
  | nil => intro _ g hg; simp at hg
  | cons g₀ rest ih =>
    intro h g hg b hb
    cases rest with
    | nil =>
      rcases List.mem_cons.1 hg with h1 | h1
      · subst h1
        unfold pstep at hb
        rw [h.1] at hb
        simp at hb
      · simp at h1
    | cons g₁ rest' =>
      rcases List.mem_cons.1 hg with h1 | h1
      · have hbg : b = g₁ := by
          unfold pstep at hb
          rw [h1, h.1] at hb
          exact (Option.some.inj hb).symm
        rw [hbg]
        exact List.mem_cons_of_mem _ (List.mem_cons_self _ rest')
      · exact List.mem_cons_of_mem _ (ih h.2.2 g h1 b hb)

theorem gray_sanc_head {s : DfsState} :
    ∀ {rest : List Int} {g : Int}, GrayOK s (g :: rest) → ∀ x ∈ rest,
      SAnc s x g := by
  intro rest
  induction rest with
  | nil => intro g _ x hx; simp at hx
  | cons g₁ rest' ih =>
    intro g h x hx
    rcases List.mem_cons.1 hx with h1 | h1
    · exact h1 ▸ Relation.TransGen.single h.1
    · exact Relation.TransGen.head' h.1 (desc_of_sanc (ih h.2.2 x h1))

theorem grayOK_tail {s : DfsState} {g : Int} {rest : List Int}
    (h : GrayOK s (g :: rest)) : GrayOK s rest := by
  cases rest with
  | nil => trivial
  | cons g₁ rest' => exact h.2.2

/-! Transfer of forest facts across a frame extension. -/

theorem frameExt_refl (s : DfsState) : FrameExt s s :=
  ⟨fun _ h => h, fun _ _ h => h, fun _ _ h => Or.inl h,
   fun _ _ => ⟨rfl, rfl, rfl⟩, le_refl _⟩

theorem frameExt_trans {s₁ s₂ s₃ : DfsState} (h₁ : FrameExt s₁ s₂)
    (h₂ : FrameExt s₂ s₃) : FrameExt s₁ s₃ := by
  refine ⟨fun w hw => h₂.vis_mono w (h₁.vis_mono w hw),
    fun a b h => h₂.pstep_mono a b (h₁.pstep_mono a b h),
    fun a b h => ?_,
    fun w hw => ?_, le_trans h₁.time_mono h₂.time_mono⟩
  · rcases h₂.pstep_new a b h with h3 | ⟨ha, hb⟩
    · rcases h₁.pstep_new a b h3 with h4 | ⟨ha, hb⟩
      · exact Or.inl h4
      · exact Or.inr ⟨ha, hb⟩
    · exact Or.inr ⟨fun hm => ha (h₁.vis_mono a hm),
        fun hm => hb (h₁.vis_mono b hm)⟩
  · have h2 := h₂.old_frozen w (h₁.vis_mono w hw)
    have h1 := h₁.old_frozen w hw
    exact ⟨h2.1.trans h1.1, h2.2.1.trans h1.2.1, h2.2.2.trans h1.2.2⟩

theorem gray_chain_stays {s : DfsState} {gray : List Int}
    (hg : GrayOK s gray) {m w : Int} (hm : m ∈ gray)
    (h : Relation.ReflTransGen (pstep s) m w) : w ∈ gray := by
  induction h with
  | refl => exact hm
  | tail hab hbc ih => exact gray_up hg _ ih _ hbc

theorem chain_src_visited {adj : AdjMap} {s : DfsState} {gray : List Int}
    (hInv : DfsInv adj s gray) {w y : Int} (h : Desc s w y)
    (hwg : w ∉ gray) : y = w ∨ y ∈ s.visited := by
  rcases Relation.ReflTransGen.cases_head h with heq | ⟨m, hm, hrest⟩
  · exact Or.inl heq
  · rcases hInv.parent_src y m hm with h1 | h1
    · exact Or.inr h1
    · exact absurd (gray_chain_stays hInv.grayOK h1 hrest) hwg

theorem desc_fin_transfer {adj : AdjMap} {s s' : DfsState} {gray : List Int}
    (hnew : ∀ a b, pstep s' a b → pstep s a b ∨ b ∉ s.visited ∨ b ∈ gray)
    (hInv : DfsInv adj s gray) :
    ∀ y w, Relation.ReflTransGen (pstep s') y w → w ∈ s.visited →
      w ∉ gray → Relation.ReflTransGen (pstep s) y w := by
  intro y w h
  induction h with
  | refl => intro _ _; exact Relation.ReflTransGen.refl
  | @tail b c hab hbc ih =>
    intro hcv hcg
    rcases hnew _ _ hbc with hold | hcn | hcg2
    · have hbv : b ∈ s.visited := by
        rcases hInv.parent_src _ _ hold with h1 | h1
        · exact h1
        · exact absurd h1 hcg
      have hbg : b ∉ gray := fun hg => hcg (gray_up hInv.grayOK _ hg _ hold)
      exact Relation.ReflTransGen.tail (ih hbv hbg) hold
    · exact absurd hcv hcn
    · exact absurd hcg2 hcg

theorem ext_desc_fin {adj : AdjMap} {s s' : DfsState} {gray : List Int}
    (hExt : FrameExt s s') (hInv : DfsInv adj s gray) {w y : Int}
    (hwv : w ∈ s.visited) (hwg : w ∉ gray) :
    Desc s' w y ↔ Desc s w y := by
  constructor
  · refine fun h => desc_fin_transfer ?_ hInv y w h hwv hwg
    intro a b hab
    rcases hExt.pstep_new a b hab with h1 | ⟨_, h2⟩
    · exact Or.inl h1
    · exact Or.inr (Or.inl h2)
  · exact fun h => Relation.ReflTransGen.mono (hExt.pstep_mono) h

theorem sanc_old_transfer {adj : AdjMap} {s s' : DfsState} {gray : List Int}
    (hsrc : ∀ a b, pstep s' a b → pstep s a b ∨ a ∉ s.visited)
    (hInv : DfsInv adj s gray) :
    ∀ w x, Relation.TransGen (pstep s') w x → w ∈ s.visited →
      Relation.TransGen (pstep s) w x := by
  intro w x h
  induction h with
  | single h1 =>
    intro hwv
    rcases hsrc _ _ h1 with hold | hwn
    · exact Relation.TransGen.single hold
    · exact absurd hwv hwn
  | @tail b c hwb hbc ih =>
    intro hwv
    have htg : Relation.TransGen (pstep s) w b := ih hwv
    have hbv : b ∈ s.visited :=
      chain_visited hInv htg.to_reflTransGen hwv
    rcases hsrc _ _ hbc with hold | hbn
    · exact Relation.TransGen.tail htg hold
    · exact absurd hbv hbn

theorem ext_sanc_old {adj : AdjMap} {s s' : DfsState} {gray : List Int}
    (hExt : FrameExt s s') (hInv : DfsInv adj s gray) {x w : Int}
    (hwv : w ∈ s.visited) : SAnc s' x w ↔ SAnc s x w := by
  constructor
  · refine fun h => sanc_old_transfer ?_ hInv w x h hwv
    intro a b hab
    rcases hExt.pstep_new a b hab with h1 | ⟨h2, _⟩
    · exact Or.inl h1
    · exact Or.inr h2
  · exact fun h => Relation.TransGen.mono (hExt.pstep_mono) h

theorem sanc_visited {adj : AdjMap} {s : DfsState} {gray : List Int}
    (hInv : DfsInv adj s gray) {x w : Int} (h : SAnc s x w)
    (hwv : w ∈ s.visited) : x ∈ s.visited :=
  chain_visited hInv h.to_reflTransGen hwv

theorem cand_transfer {adj : AdjMap} {s s' : DfsState} {gray : List Int}
    (hExt : FrameExt s s') (hInv : DfsInv adj s gray) {w : Int}
    (hwv : w ∈ s.visited) (hwg : w ∉ gray) (t : Nat) :
    Cand adj s' w t ↔ Cand adj s w t := by
  constructor
  · rintro (h1 | ⟨y, x, hdesc, hedge, hsanc, hdx, hexcl⟩)
    · exact Or.inl (((hExt.old_frozen w hwv).1).symm.trans h1)
    · have hdesc' : Desc s w y := (ext_desc_fin hExt hInv hwv hwg).1 hdesc
      have hsanc' : SAnc s x w := (ext_sanc_old hExt hInv hwv).1 hsanc
      have hxv : x ∈ s.visited := sanc_visited hInv hsanc' hwv
      refine Or.inr ⟨y, x, hdesc', hedge, hsanc',
        ((hExt.old_frozen x hxv).1).symm.trans hdx, ?_⟩
      intro hyw
      rw [(hExt.old_frozen w hwv).2.2] at hexcl
      exact hexcl hyw
  · rintro (h1 | ⟨y, x, hdesc, hedge, hsanc, hdx, hexcl⟩)
    · exact Or.inl ((hExt.old_frozen w hwv).1.trans h1)
    · have hxv : x ∈ s.visited := sanc_visited hInv hsanc hwv
      refine Or.inr ⟨y, x, Relation.ReflTransGen.mono hExt.pstep_mono hdesc,
        hedge, Relation.TransGen.mono hExt.pstep_mono hsanc,
        (hExt.old_frozen x hxv).1.trans hdx, ?_⟩
      intro hyw
      rw [(hExt.old_frozen w hwv).2.2]
      exact hexcl hyw

/-! Bookkeeping lemmas for the dictionaries of the finder state. -/

theorem mapGetOpt_eq_none_iff {α : Type} (m : List (Int × α)) (k : Int) :
    mapGetOpt m k = none ↔ k ∉ m.map Prod.fst := by
  unfold mapGetOpt
  rcases hf : m.find? (fun p => p.1 == k) with _ | p
  · rw [hf]
    simp only [Option.map_none', true_iff]
    rw [List.find?_eq_none] at hf
    intro hk
    rcases List.mem_map.1 hk with ⟨q, hq, hq1⟩
    exact hf q hq (by simp [hq1])
  · rw [hf]
    have h1 := List.find?_some hf
    have h2 := List.mem_of_find?_eq_some hf
    have h3 : p.1 = k := by simpa using h1
    exact iff_of_false (by simp)
      (fun hk => hk (h3 ▸ List.mem_map.2 ⟨p, h2, rfl⟩))

theorem mapGetOpt_mem {α : Type} {m : List (Int × α)} {k : Int} {a : α}
    (h : mapGetOpt m k = some a) : (k, a) ∈ m := by
  unfold mapGetOpt at h
  rcases hf : m.find? (fun p => p.1 == k) with _ | p
  · rw [hf] at h; simp at h
  · rw [hf] at h
    have h1 : p.1 = k := by simpa using List.find?_some hf
    have h2 := List.mem_of_find?_eq_some hf
    have h3 : p.2 = a := by simpa using h
    have : p = (k, a) := by
      rcases p with ⟨p1, p2⟩
      simp only at h1 h3
      rw [h1, h3]
    exact this ▸ h2

theorem mapGetOpt_eq_of_mem {α : Type} {m : List (Int × α)}
    (hnd : (m.map Prod.fst).Nodup) {q : Int × α} (hq : q ∈ m) :
    mapGetOpt m q.1 = some q.2 := by
  induction m with
  | nil => cases hq
  | cons p t ih =>
    rcases List.mem_cons.1 hq with h | h
    · subst h
      simp [mapGetOpt, List.find?]
    · have hne : p.1 ≠ q.1 := by
        intro he
        have : q.1 ∈ t.map Prod.fst := List.mem_map.2 ⟨q, h, rfl⟩
        rw [List.map_cons] at hnd
        exact (List.nodup_cons.1 hnd).1 (he ▸ this)
      have ht : (t.map Prod.fst).Nodup := by
        rw [List.map_cons] at hnd
        exact (List.nodup_cons.1 hnd).2
      have := ih ht h
      simp only [mapGetOpt, List.find?] at this ⊢
      rw [show (p.1 == q.1) = false by simpa using hne]
      exact this

theorem pstep_iff_mem {s : DfsState}
    (hnd : (s.parent.map Prod.fst).Nodup) (a b : Int) :
    pstep s a b ↔ (a, b) ∈ s.parent := by
  constructor
  · exact fun h => mapGetOpt_mem h
  · exact fun h => mapGetOpt_eq_of_mem hnd (q := (a, b)) h

theorem mapUpd_of_none {α : Type} {m : List (Int × α)} {k : Int}
    (h : mapGetOpt m k = none) (a : α) : mapUpd m k a = m ++ [(k, a)] := by
  unfold mapUpd
  unfold mapGetOpt at h
  rcases hf : m.find? (fun p => p.1 == k) with _ | p
  · simp [hf]
  · rw [hf] at h; simp at h

theorem mapUpd_keys_of_some {α : Type} {m : List (Int × α)} {k : Int} {b : α}
    (h : mapGetOpt m k = some b) (a : α) :
    (mapUpd m k a).map Prod.fst = m.map Prod.fst := by
  unfold mapUpd
  unfold mapGetOpt at h
  rcases hf : m.find? (fun p => p.1 == k) with _ | p
  · rw [hf] at h; simp at h
  · simp only [hf, Option.isSome_some, if_pos]
    rw [List.map_map]
    apply List.map_congr_left
    intro q _
    by_cases hq : q.1 = k
    · simp [hq]
    · simp [hq]

theorem mapUpd_keys_nodup {α : Type} {m : List (Int × α)} {k : Int} (a : α)
    (hnd : (m.map Prod.fst).Nodup) :
    ((mapUpd m k a).map Prod.fst).Nodup := by
  rcases hk : mapGetOpt m k with _ | b
  · rw [mapUpd_of_none hk a]
    rw [List.map_append]
    simp only [List.map_cons, List.map_nil]
    apply List.Nodup.append hnd (List.nodup_singleton k)
    intro x hx hx2
    have : x = k := by simpa using hx2
    subst this
    exact (mapGetOpt_eq_none_iff m x).1 hk hx
  · rw [mapUpd_keys_of_some hk a]
    exact hnd

theorem mapGetD_eq {α : Type} {m : List (Int × α)} {k : Int} {t : α}
    (h : mapGetOpt m k = some t) (d : α) : mapGetD m k d = t := by
  simp [mapGetD, h]

theorem two_le_length_of_two_mem {α : Type} {l : List α} {a b : α}
    (ha : a ∈ l) (hb : b ∈ l) (hne : ¬(a = b)) : 2 ≤ l.length := by
  cases l with
  | nil => cases ha
  | cons x t =>
    cases t with
    | nil =>
      have h1 : a = x := by simpa using ha
      have h2 : b = x := by simpa using hb
      exact absurd (h1.trans h2.symm) hne
    | cons y t' => simp [Nat.succ_le_succ, Nat.le_add_left]

theorem nChildren_two_exists {s : DfsState}
    (hnd : (s.parent.map Prod.fst).Nodup) {w : Int}
    (h : 2 ≤ nChildren s w) :
    ∃ c₁ c₂, pstep s c₁ w ∧ pstep s c₂ w ∧ ¬(c₁ = c₂) := by
  unfold nChildren at h
  rcases hl : s.parent.filter (fun q => q.2 == w) with _ | ⟨a, t⟩
  · rw [hl] at h; simp at h
  · cases t with
    | nil => rw [hl] at h; simp at h
    | cons b t' =>
      have hsub : List.Sublist (a :: b :: t') s.parent := by
        rw [← hl]; exact List.filter_sublist s.parent
      have hnd2 : ((a :: b :: t').map Prod.fst).Nodup :=
        List.Nodup.sublist (List.Sublist.map Prod.fst hsub) hnd
      have hane : a.1 ≠ b.1 := by
        simp only [List.map_cons, List.nodup_cons, List.mem_cons] at hnd2
        exact fun he => hnd2.1 (Or.inl he)
      have ham : a ∈ s.parent := hsub.subset (by simp)
      have hbm : b ∈ s.parent := hsub.subset (by simp)
      have haw : a.2 = w := by
        have := List.of_mem_filter (l := s.parent) (p := fun q => q.2 == w)
          (a := a) (by rw [hl]; simp)
        simpa using this
      have hbw : b.2 = w := by
        have := List.of_mem_filter (l := s.parent) (p := fun q => q.2 == w)
          (a := b) (by rw [hl]; simp)
        simpa using this
      refine ⟨a.1, b.1, ?_, ?_, hane⟩
      · have := mapGetOpt_eq_of_mem hnd ham
        rw [haw] at this; exact this
      · have := mapGetOpt_eq_of_mem hnd hbm
        rw [hbw] at this; exact this

theorem nChildren_ge_two {s : DfsState} {w c₁ c₂ : Int}
    (h1 : pstep s c₁ w) (h2 : pstep s c₂ w) (hne : ¬(c₁ = c₂)) :
    2 ≤ nChildren s w := by
  have hm1 : (c₁, w) ∈ s.parent.filter (fun q => q.2 == w) :=
    List.mem_filter.2 ⟨mapGetOpt_mem h1, by simp⟩
  have hm2 : (c₂, w) ∈ s.parent.filter (fun q => q.2 == w) :=
    List.mem_filter.2 ⟨mapGetOpt_mem h2, by simp⟩
  exact two_le_length_of_two_mem hm1 hm2 (by simp [hne])

theorem nChildren_append_new {s : DfsState} {x : Int}
    (hx : mapGetOpt s.parent x = none) (v w : Int) :
    nChildren { s with parent := mapUpd s.parent x v } w =
      nChildren s w + (if v = w then 1 else 0) := by
  show ((mapUpd s.parent x v).filter (fun q => q.2 == w)).length = _
  rw [mapUpd_of_none hx v, List.filter_append]
  rw [List.length_append]
  congr 1
  by_cases hvw : v = w <;> simp [hvw]

theorem nChildren_zero {s : DfsState} {w : Int}
    (h : ∀ q ∈ s.parent, ¬(q.2 = w)) : nChildren s w = 0 := by
  unfold nChildren
  rw [List.filter_eq_nil_iff.2 (fun q hq => by simp [h q hq])]
  rfl

theorem countP_lt_of_strict {l : List Int} {p q : Int → Bool}
    (himp : ∀ x ∈ l, q x = true → p x = true) {v : Int} (hv : v ∈ l)
    (hpv : p v = true) (hqv : q v = false) : l.countP q < l.countP p := by
  induction l with
  | nil => cases hv
  | cons a t ih =>
    rw [List.countP_cons, List.countP_cons]
    rcases List.mem_cons.1 hv with h | h
    · subst h
      rw [hqv, hpv]
      have hle : t.countP q ≤ t.countP p :=
        List.countP_mono_left (fun x hx =>
          himp x (List.mem_cons.2 (Or.inr hx)))
      simp only [Bool.false_eq_true, if_false, if_true]
      omega
    · have hlt : t.countP q < t.countP p :=
        ih (fun x hx => himp x (List.mem_cons.2 (Or.inr hx))) h
      have hinc : (if q a then 1 else 0) ≤ (if p a then 1 else 0) := by
        by_cases hqa : q a
        · rw [himp a (List.mem_cons.2 (Or.inl rfl)) hqa]
          simp [hqa]
        · simp [hqa]
      omega

theorem unvisitedCount_lt {adj : AdjMap} {s s' : DfsState}
    (hsub : ∀ w ∈ s.visited, w ∈ s'.visited) {v : Int}
    (hk : v ∈ adjKeys adj) (hnv : v ∉ s.visited) (hv' : v ∈ s'.visited) :
    unvisitedCount adj s' < unvisitedCount adj s := by
  unfold unvisitedCount
  rw [← List.countP_eq_length_filter, ← List.countP_eq_length_filter]
  apply countP_lt_of_strict (v := v)
  · intro x _ hx
    simp only [Bool.not_eq_true', List.elem_eq_mem, decide_eq_false_iff_not]
      at hx ⊢
    exact fun hmem => hx (hsub x hmem)
  · exact hk
  · simp [hnv]
  · simp [hv']

theorem unvisitedCount_le {adj : AdjMap} {s s' : DfsState}
    (hsub : ∀ w ∈ s.visited, w ∈ s'.visited) :
    unvisitedCount adj s' ≤ unvisitedCount adj s := by
  unfold unvisitedCount
  rw [← List.countP_eq_length_filter, ← List.countP_eq_length_filter]
  apply List.countP_mono_left
  intro x _ hx
  simp only [Bool.not_eq_true', List.elem_eq_mem, decide_eq_false_iff_not]
    at hx ⊢
  exact fun hmem => hx (hsub x hmem)

theorem grayOK_congr {s s' : DfsState}
    (hp : ∀ x ∈ s.visited, mapGetOpt s'.parent x = mapGetOpt s.parent x)
    (hv : ∀ x ∈ s.visited, x ∈ s'.visited) :
    ∀ g, GrayOK s g → GrayOK s' g := by
  intro g
  induction g with
  | nil => intro _; trivial
  | cons a t ih =>
    cases t with
    | nil =>
      intro h
      rcases h with ⟨h1, h2⟩
      exact ⟨(hp a h2).trans h1, hv a h2⟩
    | cons b t' =>
      intro h
      rcases h with ⟨h1, h2, h3⟩
      exact ⟨(hp a h2).trans h1, hv a h2, ih h3⟩

/-! Transfer of the invariant across the small state updates of a frame. -/

theorem cand_transfer_h {adj : AdjMap} {s s' : DfsState} {gray : List Int}
    (hmono : ∀ a b, pstep s a b → pstep s' a b)
    (hnew : ∀ a b, pstep s' a b → pstep s a b ∨ b ∉ s.visited ∨ b ∈ gray)
    (hsrc : ∀ a b, pstep s' a b → pstep s a b ∨ a ∉ s.visited)
    (hdisc : ∀ u ∈ s.visited, mapGetOpt s'.disc u = mapGetOpt s.disc u)
    (hpar : ∀ u ∈ s.visited, mapGetOpt s'.parent u = mapGetOpt s.parent u)
    (hInv : DfsInv adj s gray) {w : Int}
    (hwv : w ∈ s.visited) (hwg : w ∉ gray) (t : Nat) :
    Cand adj s' w t ↔ Cand adj s w t := by
  constructor
  · rintro (h1 | ⟨y, x, hdesc, hedge, hsanc, hdx, hexcl⟩)
    · exact Or.inl ((hdisc w hwv).symm.trans h1)
    · have hdesc' : Desc s w y := desc_fin_transfer hnew hInv y w hdesc hwv hwg
      have hsanc' : SAnc s x w := sanc_old_transfer hsrc hInv w x hsanc hwv
      have hxv : x ∈ s.visited := sanc_visited hInv hsanc' hwv
      refine Or.inr ⟨y, x, hdesc', hedge, hsanc',
        (hdisc x hxv).symm.trans hdx, ?_⟩
      intro hyw
      rw [hpar w hwv] at hexcl
      exact hexcl hyw
  · rintro (h1 | ⟨y, x, hdesc, hedge, hsanc, hdx, hexcl⟩)
    · exact Or.inl ((hdisc w hwv).trans h1)
    · have hxv : x ∈ s.visited := sanc_visited hInv hsanc hwv
      refine Or.inr ⟨y, x, Relation.ReflTransGen.mono hmono hdesc,
        hedge, Relation.TransGen.mono hmono hsanc,
        (hdisc x hxv).trans hdx, ?_⟩
      intro hyw
      rw [hpar w hwv]
      exact hexcl hyw

theorem pstep_mapUpd_new {s : DfsState} {x v : Int}
    (hx : mapGetOpt s.parent x = none) (a b : Int) :
    pstep { s with parent := mapUpd s.parent x v } a b ↔
      pstep s a b ∨ (a = x ∧ b = v) := by
  show mapGetOpt (mapUpd s.parent x v) a = some b ↔ _
  rw [mapUpd_of_none hx, mapGetOpt_append_single]
  rcases h : mapGetOpt s.parent a with _ | c
  · constructor
    · intro h2
      by_cases hxa : x = a
      · rw [if_pos hxa] at h2
        exact Or.inr ⟨hxa.symm, (Option.some.inj h2).symm⟩
      · rw [if_neg hxa] at h2; cases h2
    · rintro (h2 | ⟨h2, h3⟩)
      · rw [pstep, h] at h2; cases h2
      · subst h2; subst h3; rw [if_pos rfl]
  · constructor
    · intro h2
      exact Or.inl (by rw [pstep, h]; exact h2)
    · rintro (h2 | ⟨h2, h3⟩)
      · rw [pstep, h] at h2; exact h2
      · subst h2
        rw [h] at hx; cases hx

theorem dfsInv_set_art {adj : AdjMap} {s : DfsState} {gray : List Int}
    (hInv : DfsInv adj s gray) (A : List Int) :
    DfsInv adj { s with articulation := A } gray :=
  ⟨hInv.vis_keys, hInv.vis_nodup, hInv.disc_iff, hInv.low_iff,
   hInv.disc_lt_time, hInv.parent_keys_nodup, hInv.parent_edge,
   hInv.parent_disc, hInv.parent_src,
   @grayOK_congr s { s with articulation := A }
     (fun _ _ => rfl) (fun _ h => h) gray hInv.grayOK,
   hInv.fin_closed, hInv.fin_subtree_closed, hInv.fin_low⟩

theorem dfsInv_update_low {adj : AdjMap} {s : DfsState} {gray : List Int}
    (hInv : DfsInv adj s gray) {v : Int} (hvv : v ∈ s.visited)
    (hvg : v ∈ gray) (ℓ : Nat) :
    DfsInv adj { s with low := mapUpd s.low v ℓ } gray := by
  refine ⟨hInv.vis_keys, hInv.vis_nodup, hInv.disc_iff, ?_,
   hInv.disc_lt_time, hInv.parent_keys_nodup, hInv.parent_edge,
   hInv.parent_disc, hInv.parent_src,
   @grayOK_congr s { s with low := mapUpd s.low v ℓ }
     (fun _ _ => rfl) (fun _ h => h) gray hInv.grayOK,
   hInv.fin_closed, hInv.fin_subtree_closed, ?_⟩
  · intro w
    show (∃ t, mapGetOpt (mapUpd s.low v ℓ) w = some t) ↔ w ∈ s.visited
    by_cases hwv : w = v
    · subst hwv
      rw [mapGetOpt_mapUpd_self]
      exact ⟨fun _ => hvv, fun _ => ⟨ℓ, rfl⟩⟩
    · rw [mapGetOpt_mapUpd_ne _ _ hwv]
      exact hInv.low_iff w
  · intro w hwv hwg
    rcases hInv.fin_low w hwv hwg with ⟨ℓw, hlow, hcand, hmin⟩
    have hne : ¬(w = v) := fun he => hwg (he ▸ hvg)
    refine ⟨ℓw, ?_, hcand, hmin⟩
    show mapGetOpt (mapUpd s.low v ℓ) w = some ℓw
    rw [mapGetOpt_mapUpd_ne _ _ hne]
    exact hlow

theorem marked_update_low {s : DfsState} {gray : List Int} {v : Int}
    (hvg : v ∈ gray) (ℓ : Nat) (w : Int) :
    Marked { s with low := mapUpd s.low v ℓ } gray w ↔ Marked s gray w := by
  constructor
  · rintro (⟨hp, c₁, c₂, h1, h2, h3, h4, h5, h6, h7⟩ |
      ⟨hp, c, h1, h2, h3, lc, dw, h4, h5, h6⟩)
    · exact Or.inl ⟨hp, c₁, c₂, h1, h2, h3, h4, h5, h6, h7⟩
    · have hcv : ¬(c = v) := fun he => h3 (he ▸ hvg)
      rw [show mapGetOpt ({ s with low := mapUpd s.low v ℓ } : DfsState).low c
            = mapGetOpt (mapUpd s.low v ℓ) c from rfl,
          mapGetOpt_mapUpd_ne _ _ hcv] at h4
      exact Or.inr ⟨hp, c, h1, h2, h3, lc, dw, h4, h5, h6⟩
  · rintro (⟨hp, c₁, c₂, h1, h2, h3, h4, h5, h6, h7⟩ |
      ⟨hp, c, h1, h2, h3, lc, dw, h4, h5, h6⟩)
    · exact Or.inl ⟨hp, c₁, c₂, h1, h2, h3, h4, h5, h6, h7⟩
    · have hcv : ¬(c = v) := fun he => h3 (he ▸ hvg)
      refine Or.inr ⟨hp, c, h1, h2, h3, lc, dw, ?_, h5, h6⟩
      show mapGetOpt (mapUpd s.low v ℓ) c = some lc
      rw [mapGetOpt_mapUpd_ne _ _ hcv]
      exact h4

theorem marked_drop_gray_head {s : DfsState} {x v : Int} {gray : List Int}
    (honly : ∀ w, pstep s x w → w = v) {w : Int} (hwv : ¬(w = v)) :
    Marked s (v :: gray) w ↔ Marked s (x :: v :: gray) w := by
  constructor
  · rintro (⟨hp, c₁, c₂, h1, h2, h3, h4, h5, h6, h7⟩ |
      ⟨hp, c, h1, h2, h3, lc, dw, h4, h5, h6⟩)
    · have hc1x : ¬(c₁ = x) := by
        intro he; subst he
        exact hwv (honly w h1)
      have hc2x : ¬(c₂ = x) := by
        intro he; subst he
        exact hwv (honly w h2)
      refine Or.inl ⟨hp, c₁, c₂, h1, h2, h3, h4, h5, ?_, ?_⟩
      · intro hm
        rcases List.mem_cons.1 hm with he | hm2
        · exact hc1x he
        · exact h6 hm2
      · intro hm
        rcases List.mem_cons.1 hm with he | hm2
        · exact hc2x he
        · exact h7 hm2
    · have hcx : ¬(c = x) := by
        intro he; subst he
        exact hwv (honly w h1)
      refine Or.inr ⟨hp, c, h1, h2, ?_, lc, dw, h4, h5, h6⟩
      intro hm
      rcases List.mem_cons.1 hm with he | hm2
      · exact hcx he
      · exact h3 hm2
  · rintro (⟨hp, c₁, c₂, h1, h2, h3, h4, h5, h6, h7⟩ |
      ⟨hp, c, h1, h2, h3, lc, dw, h4, h5, h6⟩)
    · refine Or.inl ⟨hp, c₁, c₂, h1, h2, h3, h4, h5,
        fun hm => h6 (List.mem_cons.2 (Or.inr hm)),
        fun hm => h7 (List.mem_cons.2 (Or.inr hm))⟩
    · exact Or.inr ⟨hp, c, h1, h2,
        fun hm => h3 (List.mem_cons.2 (Or.inr hm)), lc, dw, h4, h5, h6⟩

theorem marked_insert_pending {s : DfsState} {gray : List Int} {v x : Int}
    (hx : mapGetOpt s.parent x = none) (hxv : x ∉ s.visited)
    (hvv : v ∈ s.visited)
    (hnochild : ∀ c, c ∈ s.visited → ¬ pstep s c x) (w : Int) :
    Marked { s with parent := mapUpd s.parent x v } gray w ↔
      Marked s gray w := by
  have hvx : ¬(v = x) := fun he => hxv (he ▸ hvv)
  by_cases hwx : w = x
  · subst hwx
    apply iff_of_false
    · rintro (⟨hp, _⟩ | ⟨_, c, h1, h2, _⟩)
      · rw [show ({ s with parent := mapUpd s.parent w v } : DfsState).parent
              = mapUpd s.parent w v from rfl, mapGetOpt_mapUpd_self] at hp
        cases hp
      · rcases (pstep_mapUpd_new hx c w).1 h1 with hold | ⟨_, hxv2⟩
        · exact hnochild c h2 hold
        · exact hvx hxv2.symm
    · rintro (⟨_, c₁, _, h1, _, _, h4, _⟩ | ⟨⟨p, hp⟩, _⟩)
      · exact hnochild c₁ h4 h1
      · rw [hx] at hp; cases hp
  · have hpw : mapGetOpt ({ s with parent := mapUpd s.parent x v } :
        DfsState).parent w = mapGetOpt s.parent w := by
      show mapGetOpt (mapUpd s.parent x v) w = _
      exact mapGetOpt_mapUpd_ne _ _ hwx
    constructor
    · rintro (⟨hp, c₁, c₂, h1, h2, h3, h4, h5, h6, h7⟩ |
        ⟨⟨p, hp⟩, c, h1, h2, h3, lc, dw, h4, h5, h6⟩)
      · have hc1 : pstep s c₁ w := by
          rcases (pstep_mapUpd_new hx c₁ w).1 h1 with hold | ⟨he, _⟩
          · exact hold
          · exact absurd (he ▸ h4) hxv
        have hc2 : pstep s c₂ w := by
          rcases (pstep_mapUpd_new hx c₂ w).1 h2 with hold | ⟨he, _⟩
          · exact hold
          · exact absurd (he ▸ h5) hxv
        exact Or.inl ⟨hpw ▸ hp, c₁, c₂, hc1, hc2, h3, h4, h5, h6, h7⟩
      · have hc : pstep s c w := by
          rcases (pstep_mapUpd_new hx c w).1 h1 with hold | ⟨he, _⟩
          · exact hold
          · exact absurd (he ▸ h2) hxv
        exact Or.inr ⟨⟨p, hpw ▸ hp⟩, c, hc, h2, h3, lc, dw, h4, h5, h6⟩
    · rintro (⟨hp, c₁, c₂, h1, h2, h3, h4, h5, h6, h7⟩ |
        ⟨⟨p, hp⟩, c, h1, h2, h3, lc, dw, h4, h5, h6⟩)
      · exact Or.inl ⟨hpw.trans hp, c₁, c₂,
          (pstep_mapUpd_new hx c₁ w).2 (Or.inl h1),
          (pstep_mapUpd_new hx c₂ w).2 (Or.inl h2), h3, h4, h5, h6, h7⟩
      · exact Or.inr ⟨⟨p, hpw.trans hp⟩, c,
          (pstep_mapUpd_new hx c w).2 (Or.inl h1), h2, h3, lc, dw, h4, h5, h6⟩

theorem dfsInv_insert_pending {adj : AdjMap} {s : DfsState}
    {gray : List Int} {v x : Int} (hInv : DfsInv adj s (v :: gray))
    (hpsrc : ∀ a b, pstep s a b → a ∈ s.visited)
    (hxnv : x ∉ s.visited) :
    DfsInv adj { s with parent := mapUpd s.parent x v } (v :: gray) := by
  have hxnone : mapGetOpt s.parent x = none := by
    rcases h : mapGetOpt s.parent x with _ | b
    · rfl
    · exact absurd (hpsrc x b h) hxnv
  have hps : ∀ a b, pstep { s with parent := mapUpd s.parent x v } a b ↔
      pstep s a b ∨ (a = x ∧ b = v) := pstep_mapUpd_new hxnone
  refine ⟨hInv.vis_keys, hInv.vis_nodup, hInv.disc_iff, hInv.low_iff,
    hInv.disc_lt_time, mapUpd_keys_nodup v hInv.parent_keys_nodup,
    ?_, ?_, ?_, ?_, hInv.fin_closed, ?_, ?_⟩
  · intro a b hab hav
    rcases (hps a b).1 hab with hold | ⟨hax, _⟩
    · exact hInv.parent_edge a b hold hav
    · exact absurd (hax ▸ hav) hxnv
  · intro a b hab hav
    rcases (hps a b).1 hab with hold | ⟨hax, _⟩
    · exact hInv.parent_disc a b hold hav
    · exact absurd (hax ▸ hav) hxnv
  · intro a b hab
    rcases (hps a b).1 hab with hold | ⟨_, hbv⟩
    · exact Or.inl (hpsrc a b hold)
    · exact Or.inr (hbv ▸ List.mem_cons.2 (Or.inl rfl))
  · refine @grayOK_congr s { s with parent := mapUpd s.parent x v }
      ?_ (fun _ h => h) (v :: gray) hInv.grayOK
    intro u hu
    show mapGetOpt (mapUpd s.parent x v) u = mapGetOpt s.parent u
    exact mapGetOpt_mapUpd_ne _ _ (fun he => hxnv (he ▸ hu))
  · intro w hwv hwg y x' hdesc hedge
    have hmono : ∀ a b, pstep s a b →
        pstep { s with parent := mapUpd s.parent x v } a b :=
      fun a b h => (hps a b).2 (Or.inl h)
    have hdesc' : Desc s w y := by
      refine desc_fin_transfer ?_ hInv y w hdesc hwv hwg
      intro a b hab
      rcases (hps a b).1 hab with hold | ⟨_, hbv⟩
      · exact Or.inl hold
      · exact Or.inr (Or.inr (hbv ▸ List.mem_cons.2 (Or.inl rfl)))
    rcases hInv.fin_subtree_closed w hwv hwg y x' hdesc' hedge with h | h
    · exact Or.inl (Relation.ReflTransGen.mono hmono h)
    · exact Or.inr (Relation.TransGen.mono hmono h)
  · intro w hwv hwg
    rcases hInv.fin_low w hwv hwg with ⟨ℓ, hlow, hcand, hmin⟩
    have hiff : ∀ t, Cand adj { s with parent := mapUpd s.parent x v } w t ↔
        Cand adj s w t := by
      intro t
      refine cand_transfer_h (fun a b h => (hps a b).2 (Or.inl h)) ?_ ?_
        (fun _ _ => rfl) ?_ hInv hwv hwg t
      · intro a b hab
        rcases (hps a b).1 hab with hold | ⟨_, hbv⟩
        · exact Or.inl hold
        · exact Or.inr (Or.inr (hbv ▸ List.mem_cons.2 (Or.inl rfl)))
      · intro a b hab
        rcases (hps a b).1 hab with hold | ⟨hax, _⟩
        · exact Or.inl hold
        · exact Or.inr (hax ▸ hxnv)
      · intro u hu
        show mapGetOpt (mapUpd s.parent x v) u = mapGetOpt s.parent u
        exact mapGetOpt_mapUpd_ne _ _ (fun he => hxnv (he ▸ hu))
    exact ⟨ℓ, hlow, (hiff ℓ).2 hcand, fun t ht => hmin t ((hiff t).1 ht)⟩

/-! The state at the top of a `dfs(u)` frame, lines 74-78. -/

def frameStart (s : DfsState) (v : Int) : DfsState :=
  { s with visited := setAdd s.visited v,
           disc := mapUpd s.disc v s.time,
           low := mapUpd s.low v s.time,
           time := s.time + 1 }

theorem dfsGo_zero (adj : AdjMap) (u : Int) (s : DfsState) :
    dfsGo adj 0 u s = s := rfl

theorem dfsGo_succ (adj : AdjMap) (fuel : Nat) (u : Int) (s : DfsState) :
    dfsGo adj (fuel + 1) u s =
      ((adjGet adj u).foldl (dfsVisitChild (dfsGo adj fuel) u)
        (frameStart s u, 0)).1 := rfl

theorem no_child_of_fresh {adj : AdjMap} {s : DfsState} {gray : List Int}
    {v : Int} (hInv : DfsInv adj s gray)
    (hpsrc : ∀ a b, pstep s a b → a ∈ s.visited ∨ a = v)
    (hvnv : v ∉ s.visited) : ∀ c, ¬ pstep s c v := by
  intro c hc
  rcases hpsrc c v hc with hcv | hcv
  · exact hvnv (hInv.parent_edge c v hc hcv).2
  · subst hcv
    rcases hpsrc c c hc with h2 | h2
    · exact hvnv (hInv.parent_edge c c hc h2).2
    · rcases hInv.parent_src c c hc with h3 | h3
      · exact hvnv h3
      · exact hvnv (gray_mem_visited hInv.grayOK c h3)

theorem frameStart_ext {s : DfsState} {v : Int} (hvnv : v ∉ s.visited) :
    FrameExt s (frameStart s v) := by
  refine ⟨?_, fun a b h => h, fun a b h => Or.inl h, ?_, Nat.le_succ _⟩
  · intro w hw
    exact mem_setAdd.2 (Or.inl hw)
  · intro w hw
    have hne : ¬(w = v) := fun he => hvnv (he ▸ hw)
    refine ⟨?_, ?_, rfl⟩
    · show mapGetOpt (mapUpd s.disc v s.time) w = mapGetOpt s.disc w
      exact mapGetOpt_mapUpd_ne _ _ hne
    · show mapGetOpt (mapUpd s.low v s.time) w = mapGetOpt s.low w
      exact mapGetOpt_mapUpd_ne _ _ hne

theorem frameStart_inv {adj : AdjMap} {s : DfsState} {gray : List Int}
    {v : Int} (hsym : ∀ a b, b ∈ adjGet adj a ↔ a ∈ adjGet adj b)
    (hInv : DfsInv adj s gray)
    (hpsrc : ∀ a b, pstep s a b → a ∈ s.visited ∨ a = v)
    (hvnv : v ∉ s.visited) (hvkey : v ∈ adjKeys adj)
    (hlink : ParentLink adj s gray v) :
    DfsInv adj (frameStart s v) (v :: gray) := by
  have hvis : ∀ w, w ∈ (frameStart s v).visited ↔ w ∈ s.visited ∨ w = v :=
    fun w => mem_setAdd
  refine ⟨?_, setAdd_nodup hInv.vis_nodup, ?_, ?_, ?_,
    hInv.parent_keys_nodup, ?_, ?_, ?_, ?_, ?_, ?_, ?_⟩
  · intro w hw
    rcases (hvis w).1 hw with h | h
    · exact hInv.vis_keys w h
    · exact h ▸ hvkey
  · intro w
    by_cases hwv : w = v
    · subst hwv
      constructor
      · intro _; exact (hvis w).2 (Or.inr rfl)
      · intro _
        exact ⟨s.time, by
          show mapGetOpt (mapUpd s.disc w s.time) w = some s.time
          exact mapGetOpt_mapUpd_self _ _ _⟩
    · rw [show mapGetOpt (frameStart s v).disc w
            = mapGetOpt s.disc w from mapGetOpt_mapUpd_ne _ _ hwv]
      rw [hInv.disc_iff w, hvis w]
      exact ⟨Or.inl, fun h => h.resolve_right hwv⟩
  · intro w
    by_cases hwv : w = v
    · subst hwv
      constructor
      · intro _; exact (hvis w).2 (Or.inr rfl)
      · intro _
        exact ⟨s.time, by
          show mapGetOpt (mapUpd s.low w s.time) w = some s.time
          exact mapGetOpt_mapUpd_self _ _ _⟩
    · rw [show mapGetOpt (frameStart s v).low w
            = mapGetOpt s.low w from mapGetOpt_mapUpd_ne _ _ hwv]
      rw [hInv.low_iff w, hvis w]
      exact ⟨Or.inl, fun h => h.resolve_right hwv⟩
  · intro w t hw
    by_cases hwv : w = v
    · subst hwv
      rw [show mapGetOpt (frameStart s w).disc w
            = some s.time from mapGetOpt_mapUpd_self _ _ _] at hw
      have : t = s.time := (Option.some.inj hw).symm
      subst this
      exact Nat.lt_succ_self _
    · rw [show mapGetOpt (frameStart s v).disc w
            = mapGetOpt s.disc w from mapGetOpt_mapUpd_ne _ _ hwv] at hw
      exact Nat.lt_succ_of_lt (hInv.disc_lt_time w t hw)
  · intro a b hab hav
    rcases (hvis a).1 hav with h | h
    · rcases hInv.parent_edge a b hab h with ⟨h1, h2⟩
      exact ⟨h1, (hvis b).2 (Or.inl h2)⟩
    · subst h
      rcases hlink with ⟨_, hnone⟩ | ⟨g₀, grest, hg, hsome, hedge⟩
      · have hab2 : mapGetOpt s.parent a = some b := hab
        rw [hnone] at hab2; cases hab2
      · have hab2 : mapGetOpt s.parent a = some b := hab
        rw [hsome] at hab2
        have hb : b = g₀ := (Option.some.inj hab2).symm
        subst hb
        have hg0v : b ∈ s.visited :=
          gray_mem_visited hInv.grayOK b (hg ▸ List.mem_cons.2 (Or.inl rfl))
        exact ⟨(hsym b a).1 hedge, (hvis b).2 (Or.inl hg0v)⟩
  · intro a b hab hav
    rcases (hvis a).1 hav with h | h
    · rcases hInv.parent_disc a b hab h with ⟨ta, tb, h1, h2, h3⟩
      have hbv : b ∈ s.visited := (hInv.parent_edge a b hab h).2
      have hanev : ¬(a = v) := fun he => hvnv (he ▸ h)
      have hbnev : ¬(b = v) := fun he => hvnv (he ▸ hbv)
      refine ⟨ta, tb, ?_, ?_, h3⟩
      · rw [show mapGetOpt (frameStart s v).disc a
            = mapGetOpt s.disc a from mapGetOpt_mapUpd_ne _ _ hanev]
        exact h1
      · rw [show mapGetOpt (frameStart s v).disc b
            = mapGetOpt s.disc b from mapGetOpt_mapUpd_ne _ _ hbnev]
        exact h2
    · subst h
      rcases hlink with ⟨_, hnone⟩ | ⟨g₀, grest, hg, hsome, _⟩
      · have hab2 : mapGetOpt s.parent a = some b := hab
        rw [hnone] at hab2; cases hab2
      · have hab2 : mapGetOpt s.parent a = some b := hab
        rw [hsome] at hab2
        have hb : b = g₀ := (Option.some.inj hab2).symm
        subst hb
        have hg0v : b ∈ s.visited :=
          gray_mem_visited hInv.grayOK b (hg ▸ List.mem_cons.2 (Or.inl rfl))
        have hbnev : ¬(b = a) := fun he => hvnv (he ▸ hg0v)
        rcases (hInv.disc_iff b).2 hg0v with ⟨tb, htb⟩
        refine ⟨s.time, tb, ?_, ?_, hInv.disc_lt_time b tb htb⟩
        · show mapGetOpt (mapUpd s.disc a s.time) a = some s.time
          exact mapGetOpt_mapUpd_self _ _ _
        · rw [show mapGetOpt (frameStart s a).disc b
              = mapGetOpt s.disc b from mapGetOpt_mapUpd_ne _ _ hbnev]
          exact htb
  · intro a b hab
    rcases hpsrc a b hab with h | h
    · exact Or.inl ((hvis a).2 (Or.inl h))
    · exact Or.inl ((hvis a).2 (Or.inr h))
  · rcases hlink with ⟨hge, hnone⟩ | ⟨g₀, grest, hg, hsome, _⟩
    · subst hge
      exact ⟨hnone, (hvis v).2 (Or.inr rfl)⟩
    · subst hg
      refine ⟨hsome, (hvis v).2 (Or.inr rfl), ?_⟩
      exact @grayOK_congr s (frameStart s v)
        (fun _ _ => rfl) (fun x h => (hvis x).2 (Or.inl h))
        (g₀ :: grest) hInv.grayOK
  · intro x hx hxg y hy
    have hxnev : ¬(x = v) := fun he => hxg (he ▸ List.mem_cons.2 (Or.inl rfl))
    have hxv : x ∈ s.visited := ((hvis x).1 hx).resolve_right hxnev
    have hxng : x ∉ gray := fun h => hxg (List.mem_cons.2 (Or.inr h))
    exact (hvis y).2 (Or.inl (hInv.fin_closed x hxv hxng y hy))
  · intro w hw hwg y x hdesc hedge
    have hwnev : ¬(w = v) := fun he => hwg (he ▸ List.mem_cons.2 (Or.inl rfl))
    have hwv : w ∈ s.visited := ((hvis w).1 hw).resolve_right hwnev
    have hwng : w ∉ gray := fun h => hwg (List.mem_cons.2 (Or.inr h))
    exact hInv.fin_subtree_closed w hwv hwng y x hdesc hedge
  · intro w hw hwg
    have hwnev : ¬(w = v) := fun he => hwg (he ▸ List.mem_cons.2 (Or.inl rfl))
    have hwv : w ∈ s.visited := ((hvis w).1 hw).resolve_right hwnev
    have hwng : w ∉ gray := fun h => hwg (List.mem_cons.2 (Or.inr h))
    rcases hInv.fin_low w hwv hwng with ⟨ℓ, hlow, hcand, hmin⟩
    have hiff : ∀ t, Cand adj (frameStart s v) w t ↔ Cand adj s w t := by
      intro t
      refine @cand_transfer_h adj s (frameStart s v) gray (fun a b h => h)
        (fun a b h => Or.inl h) (fun a b h => Or.inl h) ?_
        (fun _ _ => rfl) hInv w hwv hwng t
      intro u hu
      have hne : ¬(u = v) := fun he => hvnv (he ▸ hu)
      show mapGetOpt (mapUpd s.disc v s.time) u = mapGetOpt s.disc u
      exact mapGetOpt_mapUpd_ne _ _ hne
    refine ⟨ℓ, ?_, (hiff ℓ).2 hcand, fun t ht => hmin t ((hiff t).1 ht)⟩
    show mapGetOpt (mapUpd s.low v s.time) w = some ℓ
    rw [mapGetOpt_mapUpd_ne _ _ hwnev]
    exact hlow

theorem frameStart_marked {adj : AdjMap} {s : DfsState} {gray : List Int}
    {v : Int} (hInv : DfsInv adj s gray)
    (hpsrc : ∀ a b, pstep s a b → a ∈ s.visited ∨ a = v)
    (hvnv : v ∉ s.visited) (w : Int) :
    Marked (frameStart s v) (v :: gray) w ↔ Marked s gray w := by
  have hnoc : ∀ c, ¬ pstep s c v := no_child_of_fresh hInv hpsrc hvnv
  have hvis : ∀ c, c ∈ (frameStart s v).visited ↔ c ∈ s.visited ∨ c = v :=
    fun c => mem_setAdd
  by_cases hwv : w = v
  · subst hwv
    apply iff_of_false
    · rintro (⟨_, c₁, _, h1, _⟩ | ⟨_, c, h1, _⟩)
      · exact hnoc c₁ h1
      · exact hnoc c h1
    · rintro (⟨_, c₁, _, h1, _⟩ | ⟨_, c, h1, _⟩)
      · exact hnoc c₁ h1
      · exact hnoc c h1
  · constructor
    · rintro (⟨hp, c₁, c₂, h1, h2, h3, h4, h5, h6, h7⟩ |
        ⟨hp, c, h1, h2, h3, lc, dw, h4, h5, h6⟩)
      · have hc1g : c₁ ∉ gray := fun h => h6 (List.mem_cons.2 (Or.inr h))
        have hc2g : c₂ ∉ gray := fun h => h7 (List.mem_cons.2 (Or.inr h))
        have hc1nv : ¬(c₁ = v) := fun h => h6 (List.mem_cons.2 (Or.inl h))
        have hc2nv : ¬(c₂ = v) := fun h => h7 (List.mem_cons.2 (Or.inl h))
        exact Or.inl ⟨hp, c₁, c₂, h1, h2, h3,
          ((hvis c₁).1 h4).resolve_right hc1nv,
          ((hvis c₂).1 h5).resolve_right hc2nv, hc1g, hc2g⟩
      · have hcg : c ∉ gray := fun h => h3 (List.mem_cons.2 (Or.inr h))
        have hcnv : ¬(c = v) := fun h => h3 (List.mem_cons.2 (Or.inl h))
        have h4' : mapGetOpt s.low c = some lc := by
          rw [show mapGetOpt (frameStart s v).low c
              = mapGetOpt s.low c from mapGetOpt_mapUpd_ne _ _ hcnv] at h4
          exact h4
        have h5' : mapGetOpt s.disc w = some dw := by
          rw [show mapGetOpt (frameStart s v).disc w
              = mapGetOpt s.disc w from mapGetOpt_mapUpd_ne _ _ hwv] at h5
          exact h5
        exact Or.inr ⟨hp, c, h1, ((hvis c).1 h2).resolve_right hcnv,
          hcg, lc, dw, h4', h5', h6⟩
    · rintro (⟨hp, c₁, c₂, h1, h2, h3, h4, h5, h6, h7⟩ |
        ⟨hp, c, h1, h2, h3, lc, dw, h4, h5, h6⟩)
      · have hc1nv : ¬(c₁ = v) := fun h => hvnv (h ▸ h4)
        have hc2nv : ¬(c₂ = v) := fun h => hvnv (h ▸ h5)
        refine Or.inl ⟨hp, c₁, c₂, h1, h2, h3,
          (hvis c₁).2 (Or.inl h4), (hvis c₂).2 (Or.inl h5), ?_, ?_⟩
        · intro h
          rcases List.mem_cons.1 h with h | h
          · exact hc1nv h
          · exact h6 h
        · intro h
          rcases List.mem_cons.1 h with h | h
          · exact hc2nv h
          · exact h7 h
      · have hcnv : ¬(c = v) := fun h => hvnv (h ▸ h2)
        refine Or.inr ⟨hp, c, h1, (hvis c).2 (Or.inl h2), ?_, lc, dw,
          ?_, ?_, h6⟩
        · intro h
          rcases List.mem_cons.1 h with h | h
          · exact hcnv h
          · exact h3 h
        · rw [show mapGetOpt (frameStart s v).low c
              = mapGetOpt s.low c from mapGetOpt_mapUpd_ne _ _ hcnv]
          exact h4
        · rw [show mapGetOpt (frameStart s v).disc w
              = mapGetOpt s.disc w from mapGetOpt_mapUpd_ne _ _ hwv]
          exact h5

/-! Pre/post conditions of one `dfs` frame, and the loop invariant of the
neighbor loop inside it. -/

structure DfsPre (adj : AdjMap) (s : DfsState) (gray : List Int) (v : Int) :
    Prop where
  inv : DfsInv adj s gray
  art : ArtOK s gray
  psrc : ∀ a b, pstep s a b → a ∈ s.visited ∨ a = v
  unvis : v ∉ s.visited
  vkey : v ∈ adjKeys adj
  link : ParentLink adj s gray v

structure DfsPost (adj : AdjMap) (s : DfsState) (gray : List Int) (v : Int)
    (s' : DfsState) : Prop where
  ext : FrameExt s s'
  inv : DfsInv adj s' gray
  art : ArtOK s' (v :: gray)
  psrc : ∀ a b, pstep s' a b → a ∈ s'.visited
  vis_iff : ∀ w, w ∈ s'.visited ↔ w ∈ s.visited ∨ Desc s' v w
  fresh : ∀ w, Desc s' v w → w ∉ s.visited
  disc_v : mapGetOpt s'.disc v = some s.time
  time_gt : s.time < s'.time
  parent_v : mapGetOpt s'.parent v = mapGetOpt s.parent v
  nchild_old : ∀ w ∈ s.visited, nChildren s' w = nChildren s w
  subtree_disc : ∀ w t, Desc s' v w → mapGetOpt s'.disc w = some t →
    s.time ≤ t

structure LoopInv (adj : AdjMap) (s : DfsState) (gray : List Int) (v : Int)
    (pre : List Int) (sc : DfsState × Nat) : Prop where
  ext : FrameExt s sc.1
  inv : DfsInv adj sc.1 (v :: gray)
  art : ArtOK sc.1 (v :: gray)
  psrc : ∀ a b, pstep sc.1 a b → a ∈ sc.1.visited
  vis_iff : ∀ w, w ∈ sc.1.visited ↔ w ∈ s.visited ∨ Desc sc.1 v w
  fresh : ∀ w, Desc sc.1 v w → w ∉ s.visited
  disc_v : mapGetOpt sc.1.disc v = some s.time
  time_gt : s.time < sc.1.time
  parent_v : mapGetOpt sc.1.parent v = mapGetOpt s.parent v
  nchild_old : ∀ w ∈ s.visited, nChildren sc.1 w = nChildren s w
  cnt : sc.2 = nChildren sc.1 v
  child_fin : ∀ c, pstep sc.1 c v → c ∈ sc.1.visited ∧ ¬(c = v) ∧ c ∉ gray
  pre_vis : ∀ x ∈ pre, x ∈ sc.1.visited
  low_v : ∃ ℓ, mapGetOpt sc.1.low v = some ℓ ∧
    CandPre adj sc.1 v pre ℓ ∧ ∀ t, CandPre adj sc.1 v pre t → ℓ ≤ t
  subtree_disc : ∀ w t, Desc sc.1 v w → mapGetOpt sc.1.disc w = some t →
    s.time ≤ t

theorem loopInv_base {adj : AdjMap} {s : DfsState} {gray : List Int}
    {v : Int} (hsym : ∀ a b, b ∈ adjGet adj a ↔ a ∈ adjGet adj b)
    (hpre : DfsPre adj s gray v) :
    LoopInv adj s gray v [] (frameStart s v, 0) := by
  have hnoc : ∀ c, ¬ pstep s c v :=
    no_child_of_fresh hpre.inv hpre.psrc hpre.unvis
  have hdesc_triv : ∀ w, Desc (frameStart s v) v w → w = v := by
    intro w h
    by_cases hwv : w = v
    · exact hwv
    · rcases child_chain_decomp h hwv with ⟨c, hc, _⟩
      exact absurd hc (hnoc c)
  refine ⟨frameStart_ext hpre.unvis,
    frameStart_inv hsym hpre.inv hpre.psrc hpre.unvis hpre.vkey hpre.link,
    ?_, ?_, ?_, ?_, ?_, Nat.lt_succ_self _, rfl, fun _ _ => rfl, ?_, ?_,
    fun x hx => absurd hx (List.not_mem_nil x), ?_, ?_⟩
  · intro w
    rw [show (frameStart s v, 0).1.articulation = s.articulation from rfl]
    rw [hpre.art w]
    exact (frameStart_marked hpre.inv hpre.psrc hpre.unvis w).symm
  · intro a b hab
    rcases hpre.psrc a b hab with h | h
    · exact mem_setAdd.2 (Or.inl h)
    · exact mem_setAdd.2 (Or.inr h)
  · intro w
    rw [show ((frameStart s v, 0).1.visited : List Int)
          = setAdd s.visited v from rfl, mem_setAdd]
    constructor
    · rintro (h | h)
      · exact Or.inl h
      · exact Or.inr (h ▸ desc_refl _ _)
    · rintro (h | h)
      · exact Or.inl h
      · exact Or.inr (hdesc_triv w h)
  · intro w h
    rw [hdesc_triv w h]
    exact hpre.unvis
  · show mapGetOpt (mapUpd s.disc v s.time) v = some s.time
    exact mapGetOpt_mapUpd_self _ _ _
  · show 0 = nChildren (frameStart s v) v
    symm
    apply nChildren_zero
    intro q hq he
    have hp : pstep s q.1 q.2 :=
      (pstep_iff_mem hpre.inv.parent_keys_nodup q.1 q.2).2 hq
    exact hnoc q.1 (he ▸ hp)
  · intro c hc
    exact absurd hc (hnoc c)
  · refine ⟨s.time, mapGetOpt_mapUpd_self _ _ _, Or.inl ?_, ?_⟩
    · show mapGetOpt (mapUpd s.disc v s.time) v = some s.time
      exact mapGetOpt_mapUpd_self _ _ _
    · rintro t (h | ⟨y, x, hdesc, _, _, _, hexcl⟩)
      · rw [show mapGetOpt (frameStart s v).disc v
            = some s.time from mapGetOpt_mapUpd_self _ _ _] at h
        exact le_of_eq (Option.some.inj h)
      · rcases (hexcl (hdesc_triv y hdesc)).1 with hx
        exact absurd hx (List.not_mem_nil x)
  · intro w t hdesc hd
    rw [hdesc_triv w hdesc] at hd
    rw [show mapGetOpt (frameStart s v).disc v
          = some s.time from mapGetOpt_mapUpd_self _ _ _] at hd
    exact le_of_eq (Option.some.inj hd)

/-! The three branches of the neighbor-loop body. -/

def visitFresh (rec : Int → DfsState → DfsState) (u : Int)
    (sc : DfsState × Nat) (v : Int) : DfsState × Nat :=
  let s1 := { sc.1 with parent := mapUpd sc.1.parent v u }
  let s2 := rec v s1
  let s3 := { s2 with low := mapUpd s2.low u
                        (min (mapGetD s2.low u 0) (mapGetD s2.low v 0)) }
  let s4 := if mapGetOpt s3.parent u = none ∧ sc.2 + 1 > 1 then
              { s3 with articulation := setAdd s3.articulation u }
            else s3
  let s5 := if mapGetOpt s4.parent u ≠ none ∧
               mapGetD s4.low v 0 ≥ mapGetD s4.disc u 0 then
              { s4 with articulation := setAdd s4.articulation u }
            else s4
  (s5, sc.2 + 1)

theorem dfsVisitChild_fresh {rec : Int → DfsState → DfsState} {u v : Int}
    {sc : DfsState × Nat} (hv : v ∉ sc.1.visited) :
    dfsVisitChild rec u sc v = visitFresh rec u sc v := by
  simp only [dfsVisitChild, visitFresh]
  rw [if_pos hv]

theorem dfsVisitChild_parent {rec : Int → DfsState → DfsState} {u v : Int}
    {sc : DfsState × Nat} (hv : v ∈ sc.1.visited)
    (hp : mapGetOpt sc.1.parent u = some v) :
    dfsVisitChild rec u sc v = sc := by
  simp only [dfsVisitChild]
  rw [if_neg (not_not_intro hv), if_neg (not_not_intro hp)]

theorem dfsVisitChild_back {rec : Int → DfsState → DfsState} {u v : Int}
    {sc : DfsState × Nat} (hv : v ∈ sc.1.visited)
    (hp : ¬(mapGetOpt sc.1.parent u = some v)) :
    dfsVisitChild rec u sc v =
      ({ sc.1 with low := mapUpd sc.1.low u
                     (min (mapGetD sc.1.low u 0) (mapGetD sc.1.disc v 0)) },
       sc.2) := by
  simp only [dfsVisitChild]
  rw [if_neg (not_not_intro hv), if_pos hp]

theorem frameExt_low_update {s s₁ : DfsState} (hExt : FrameExt s s₁)
    {v : Int} (hv : v ∉ s.visited) (ℓ : Nat) :
    FrameExt s { s₁ with low := mapUpd s₁.low v ℓ } := by
  refine ⟨hExt.vis_mono, hExt.pstep_mono, hExt.pstep_new, ?_, hExt.time_mono⟩
  intro w hw
  have hne : ¬(w = v) := fun he => hv (he ▸ hw)
  rcases hExt.old_frozen w hw with ⟨h1, h2, h3⟩
  refine ⟨h1, ?_, h3⟩
  show mapGetOpt (mapUpd s₁.low v ℓ) w = mapGetOpt s.low w
  rw [mapGetOpt_mapUpd_ne _ _ hne]
  exact h2

theorem loopInv_step_visited {adj : AdjMap} {s : DfsState} {gray : List Int}
    {v : Int} {pre : List Int} {sc : DfsState × Nat}
    (hsym : ∀ a b, b ∈ adjGet adj a ↔ a ∈ adjGet adj b)
    (hpre : DfsPre adj s gray v)
    (hL : LoopInv adj s gray v pre sc)
    {x : Int} (hx : x ∈ adjGet adj v) (hxv : x ∈ sc.1.visited)
    (rec : Int → DfsState → DfsState) :
    LoopInv adj s gray v (pre ++ [x]) (dfsVisitChild rec v sc x) := by
  have hvv : v ∈ sc.1.visited := (hL.vis_iff v).2 (Or.inr (desc_refl _ _))
  rcases hL.low_v with ⟨ℓ, hlowv, hcand, hmin⟩
  have hltime : ℓ ≤ s.time := hmin s.time (Or.inl hL.disc_v)
  by_cases hpx : mapGetOpt sc.1.parent v = some x
  · rw [dfsVisitChild_parent hxv hpx]
    refine ⟨hL.ext, hL.inv, hL.art, hL.psrc, hL.vis_iff, hL.fresh,
      hL.disc_v, hL.time_gt, hL.parent_v, hL.nchild_old, hL.cnt,
      hL.child_fin, ?_, ?_, hL.subtree_disc⟩
    · intro z hz
      rcases List.mem_append.1 hz with h | h
      · exact hL.pre_vis z h
      · have : z = x := by simpa using h
        exact this ▸ hxv
    · refine ⟨ℓ, hlowv, ?_, ?_⟩
      · rcases hcand with h | ⟨y, x', h1, h2, h3, h4, h5⟩
        · exact Or.inl h
        · refine Or.inr ⟨y, x', h1, h2, h3, h4, fun hyv => ?_⟩
          rcases h5 hyv with ⟨hm, hnp⟩
          exact ⟨List.mem_append.2 (Or.inl hm), hnp⟩
      · rintro t (h | ⟨y, x', h1, h2, h3, h4, h5⟩)
        · exact hmin t (Or.inl h)
        · refine hmin t (Or.inr ⟨y, x', h1, h2, h3, h4, fun hyv => ?_⟩)
          rcases h5 hyv with ⟨hm, hnp⟩
          rcases List.mem_append.1 hm with hm2 | hm2
          · exact ⟨hm2, hnp⟩
          · have : x' = x := by simpa using hm2
            exact absurd (this ▸ hpx) hnp
  · rw [dfsVisitChild_back hxv hpx]
    rcases (hL.inv.disc_iff x).2 hxv with ⟨dx, hdx⟩
    have hgd1 : mapGetD sc.1.low v 0 = ℓ := mapGetD_eq hlowv 0
    have hgd2 : mapGetD sc.1.disc x 0 = dx := mapGetD_eq hdx 0
    rw [hgd1, hgd2]
    have hxsanc : dx < ℓ → SAnc sc.1 x v := by
      intro hlt
      rcases (hL.vis_iff x).1 hxv with hxold | hxdesc
      · by_cases hxg : x ∈ gray
        · exact gray_sanc_head hL.inv.grayOK x hxg
        · exfalso
          apply hpre.unvis
          exact hpre.inv.fin_closed x hxold hxg v ((hsym x v).2 hx)
      · exfalso
        have := hL.subtree_disc x dx hxdesc hdx
        omega
    refine ⟨frameExt_low_update hL.ext hpre.unvis _,
      dfsInv_update_low hL.inv hvv (List.mem_cons.2 (Or.inl rfl)) _,
      ?_, hL.psrc, hL.vis_iff, hL.fresh, hL.disc_v, hL.time_gt,
      hL.parent_v, hL.nchild_old, hL.cnt, hL.child_fin, ?_, ?_,
      hL.subtree_disc⟩
    · intro w
      rw [show ({ sc.1 with low := mapUpd sc.1.low v (min ℓ dx) } :
            DfsState).articulation = sc.1.articulation from rfl]
      rw [hL.art w]
      exact (marked_update_low (List.mem_cons.2 (Or.inl rfl)) _ w).symm
    · intro z hz
      rcases List.mem_append.1 hz with h | h
      · exact hL.pre_vis z h
      · have : z = x := by simpa using h
        exact this ▸ hxv
    · refine ⟨min ℓ dx, ?_, ?_, ?_⟩
      · show mapGetOpt (mapUpd sc.1.low v (min ℓ dx)) v = some (min ℓ dx)
        exact mapGetOpt_mapUpd_self _ _ _
      · by_cases hle : ℓ ≤ dx
        · rw [min_eq_left hle]
          rcases hcand with h | ⟨y, x', h1, h2, h3, h4, h5⟩
          · exact Or.inl h
          · refine Or.inr ⟨y, x', h1, h2, h3, h4, fun hyv => ?_⟩
            rcases h5 hyv with ⟨hm, hnp⟩
            exact ⟨List.mem_append.2 (Or.inl hm), hnp⟩
        · push_neg at hle
          rw [min_eq_right (le_of_lt hle)]
          exact Or.inr ⟨v, x, desc_refl _ _, hx, hxsanc hle, hdx,
            fun _ => ⟨List.mem_append.2 (Or.inr (by simp)), hpx⟩⟩
      · rintro t (h | ⟨y, x', h1, h2, h3, h4, h5⟩)
        · have h6 : mapGetOpt sc.1.disc v = some t := h
          rw [hL.disc_v] at h6
          have ht : t = s.time := (Option.some.inj h6).symm
          subst ht
          exact le_trans (min_le_left _ _) hltime
        · by_cases hyv : y = v
          · subst hyv
            rcases h5 rfl with ⟨hm, hnp⟩
            rcases List.mem_append.1 hm with hm2 | hm2
            · refine le_trans (min_le_left _ _) (hmin t (Or.inr
                ⟨y, x', h1, h2, h3, h4, fun _ => ⟨hm2, hnp⟩⟩))
            · have hx'x : x' = x := by simpa using hm2
              subst hx'x
              have h6 : mapGetOpt sc.1.disc x' = some t := h4
              rw [hdx] at h6
              have ht : t = dx := (Option.some.inj h6).symm
              subst ht
              exact min_le_right _ _
          · refine le_trans (min_le_left _ _) (hmin t (Or.inr
              ⟨y, x', h1, h2, h3, h4, fun hyv2 => absurd hyv2 hyv⟩))

theorem visitFresh_spec (rec : Int → DfsState → DfsState) (u v : Int)
    (sc : DfsState × Nat) (hne : ¬(v = u)) {s2 : DfsState}
    (h2 : rec v { sc.1 with parent := mapUpd sc.1.parent v u } = s2)
    {ℓu ℓv du : Nat} (hlu : mapGetOpt s2.low u = some ℓu)
    (hlv : mapGetOpt s2.low v = some ℓv)
    (hdu : mapGetOpt s2.disc u = some du) :
    visitFresh rec u sc v =
      ({ s2 with low := mapUpd s2.low u (min ℓu ℓv),
                 articulation :=
                   if (mapGetOpt s2.parent u = none ∧ sc.2 + 1 > 1) ∨
                      (¬(mapGetOpt s2.parent u = none) ∧ du ≤ ℓv) then
                     setAdd s2.articulation u
                   else s2.articulation }, sc.2 + 1) := by
  simp only [visitFresh]
  rw [h2]
  have e1 : mapGetD s2.low u 0 = ℓu := mapGetD_eq hlu 0
  have e2 : mapGetD s2.low v 0 = ℓv := mapGetD_eq hlv 0
  rw [e1, e2]
  have e3 : mapGetD (mapUpd s2.low u (min ℓu ℓv)) v 0 = ℓv := by
    unfold mapGetD
    rw [mapGetOpt_mapUpd_ne _ _ hne, hlv]
    rfl
  have e4 : mapGetD s2.disc u 0 = du := mapGetD_eq hdu 0
  set s3 : DfsState := { s2 with low := mapUpd s2.low u (min ℓu ℓv) }
  by_cases hp : mapGetOpt s2.parent u = none
  · by_cases hcc : sc.2 + 1 > 1
    · rw [if_pos (show mapGetOpt s3.parent u = none ∧ sc.2 + 1 > 1 from
        ⟨hp, hcc⟩)]
      rw [if_neg (show ¬(mapGetOpt ({ s3 with articulation := setAdd s3.articulation u } : DfsState).parent u ≠ none ∧ mapGetD ({ s3 with articulation := setAdd s3.articulation u } : DfsState).low v 0 ≥ mapGetD ({ s3 with articulation := setAdd s3.articulation u } : DfsState).disc u 0) from fun h => h.1 hp)]
      rw [if_pos (Or.inl ⟨hp, hcc⟩ :
        (mapGetOpt s2.parent u = none ∧ sc.2 + 1 > 1) ∨
        (¬(mapGetOpt s2.parent u = none) ∧ du ≤ ℓv))]
    · rw [if_neg (show ¬(mapGetOpt s3.parent u = none ∧ sc.2 + 1 > 1) from
        fun h => hcc h.2)]
      rw [if_neg (show ¬(mapGetOpt s3.parent u ≠ none ∧
          mapGetD s3.low v 0 ≥ mapGetD s3.disc u 0) from fun h => h.1 hp)]
      rw [if_neg (show ¬((mapGetOpt s2.parent u = none ∧ sc.2 + 1 > 1) ∨
          (¬(mapGetOpt s2.parent u = none) ∧ du ≤ ℓv)) from ?_)]
      rintro (⟨_, h⟩ | ⟨h, _⟩)
      · exact hcc h
      · exact h hp
  · rw [if_neg (show ¬(mapGetOpt s3.parent u = none ∧ sc.2 + 1 > 1) from
      fun h => hp h.1)]
    by_cases hge : du ≤ ℓv
    · have hnum : mapGetD s3.low v 0 ≥ mapGetD s3.disc u 0 := by
        show mapGetD (mapUpd s2.low u (min ℓu ℓv)) v 0 ≥ mapGetD s2.disc u 0
        rw [e3, e4]
        exact hge
      rw [if_pos (show mapGetOpt s3.parent u ≠ none ∧
          mapGetD s3.low v 0 ≥ mapGetD s3.disc u 0 from ⟨hp, hnum⟩)]
      rw [if_pos (Or.inr ⟨hp, hge⟩ :
        (mapGetOpt s2.parent u = none ∧ sc.2 + 1 > 1) ∨
        (¬(mapGetOpt s2.parent u = none) ∧ du ≤ ℓv))]
    · have hnum : ¬(mapGetD (mapUpd s2.low u (min ℓu ℓv)) v 0 ≥
          mapGetD s2.disc u 0) := by
        rw [e3, e4]
        exact hge
      rw [if_neg (show ¬(mapGetOpt s3.parent u ≠ none ∧
          mapGetD s3.low v 0 ≥ mapGetD s3.disc u 0) from fun h => hnum h.2)]
      rw [if_neg (show ¬((mapGetOpt s2.parent u = none ∧ sc.2 + 1 > 1) ∨
          (¬(mapGetOpt s2.parent u = none) ∧ du ≤ ℓv)) from ?_)]
      rintro (⟨h, _⟩ | ⟨_, h⟩)
      · exact hp h
      · exact hge h

theorem loopInv_step_fresh {adj : AdjMap} {s : DfsState} {gray : List Int}
    {v : Int} {pre : List Int} {sc : DfsState × Nat} {fuel : Nat}
    (hsym : ∀ a b, b ∈ adjGet adj a ↔ a ∈ adjGet adj b)
    (hpre : DfsPre adj s gray v)
    (hL : LoopInv adj s gray v pre sc)
    (hfuel : unvisitedCount adj s ≤ fuel + 1)
    {x : Int} (hx : x ∈ adjGet adj v) (hxnv : x ∉ sc.1.visited)
    (hrec : ∀ s₀ g₀ v₀, DfsPre adj s₀ g₀ v₀ → unvisitedCount adj s₀ ≤ fuel →
      DfsPost adj s₀ g₀ v₀ (dfsGo adj fuel v₀ s₀)) :
    LoopInv adj s gray v (pre ++ [x])
      (dfsVisitChild (dfsGo adj fuel) v sc x) := by
  have hvv : v ∈ sc.1.visited := (hL.vis_iff v).2 (Or.inr (desc_refl _ _))
  have hxv_ne : ¬(x = v) := fun he => hxnv (he ▸ hvv)
  have hxkey : x ∈ adjKeys adj := neighbors_subset_keys hsym hx
  have hxg : x ∉ gray := fun h =>
    hxnv (gray_mem_visited hL.inv.grayOK x (List.mem_cons.2 (Or.inr h)))
  rcases hL.low_v with ⟨ℓ, hlowv, hcand, hmin⟩
  have hltime : ℓ ≤ s.time := hmin s.time (Or.inl hL.disc_v)
  have hxnoneP : mapGetOpt sc.1.parent x = none := by
    rcases h : mapGetOpt sc.1.parent x with _ | b
    · rfl
    · exact absurd (hL.psrc x b h) hxnv
  have hpsp : ∀ a b,
      pstep { sc.1 with parent := mapUpd sc.1.parent x v } a b ↔
      pstep sc.1 a b ∨ (a = x ∧ b = v) := pstep_mapUpd_new hxnoneP
  have hInvP : DfsInv adj { sc.1 with parent := mapUpd sc.1.parent x v }
      (v :: gray) := dfsInv_insert_pending hL.inv hL.psrc hxnv
  have hnochild_x : ∀ c, c ∈ sc.1.visited → ¬ pstep sc.1 c x :=
    fun c hc hpc => hxnv (hL.inv.parent_edge c x hpc hc).2
  have hpreC : DfsPre adj { sc.1 with parent := mapUpd sc.1.parent x v }
      (v :: gray) x := by
    refine ⟨hInvP, ?_, ?_, hxnv, hxkey,
      Or.inr ⟨v, gray, rfl, mapGetOpt_mapUpd_self _ _ _, hx⟩⟩
    · intro w
      rw [show ({ sc.1 with parent := mapUpd sc.1.parent x v } :
            DfsState).articulation = sc.1.articulation from rfl]
      rw [hL.art w]
      exact (marked_insert_pending hxnoneP hxnv hvv hnochild_x w).symm
    · intro a b hab
      rcases (hpsp a b).1 hab with hold | ⟨hax, _⟩
      · exact Or.inl (hL.psrc a b hold)
      · exact Or.inr hax
  have hcntC : unvisitedCount adj
      { sc.1 with parent := mapUpd sc.1.parent x v } ≤ fuel := by
    have h1 : unvisitedCount adj sc.1 < unvisitedCount adj s :=
      unvisitedCount_lt hL.ext.vis_mono hpre.vkey hpre.unvis hvv
    have h2 : unvisitedCount adj
        { sc.1 with parent := mapUpd sc.1.parent x v } =
        unvisitedCount adj sc.1 := rfl
    omega
  have hpost := hrec _ _ _ hpreC hcntC
  generalize hsr : dfsGo adj fuel x
    { sc.1 with parent := mapUpd sc.1.parent x v } = sr at hpost
  have hx_sr : x ∈ sr.visited := (hpost.vis_iff x).2 (Or.inr (desc_refl _ _))
  have hv_sr : v ∈ sr.visited := hpost.ext.vis_mono v hvv
  have hfrozen : ∀ u ∈ sc.1.visited,
      mapGetOpt sr.disc u = mapGetOpt sc.1.disc u ∧
      mapGetOpt sr.low u = mapGetOpt sc.1.low u ∧
      mapGetOpt sr.parent u = mapGetOpt sc.1.parent u := by
    intro u hu
    have h1 := hpost.ext.old_frozen u hu
    refine ⟨h1.1, h1.2.1, ?_⟩
    rw [h1.2.2]
    show mapGetOpt (mapUpd sc.1.parent x v) u = mapGetOpt sc.1.parent u
    exact mapGetOpt_mapUpd_ne _ _ (fun he => hxnv (he ▸ hu))
  have hlv_sr : mapGetOpt sr.low v = some ℓ := by
    rw [(hfrozen v hvv).2.1]
    exact hlowv
  have hdv_sr : mapGetOpt sr.disc v = some s.time := by
    rw [(hfrozen v hvv).1]
    exact hL.disc_v
  have hxngray : x ∉ v :: gray := by
    intro h
    rcases List.mem_cons.1 h with h | h
    · exact hxv_ne h
    · exact hxg h
  rcases hpost.inv.fin_low x hx_sr hxngray with ⟨ℓx, hlowx, hcandx, hminx⟩
  have hpx_sr : mapGetOpt sr.parent x = some v := by
    rw [hpost.parent_v]
    exact mapGetOpt_mapUpd_self _ _ _
  have hparent_v_sr : mapGetOpt sr.parent v = mapGetOpt s.parent v := by
    rw [(hfrozen v hvv).2.2]
    exact hL.parent_v
  have hmono_sr : ∀ a b, pstep sc.1 a b → pstep sr a b :=
    fun a b h => hpost.ext.pstep_mono a b ((hpsp a b).2 (Or.inl h))
  have hnew_sr : ∀ a b, pstep sr a b →
      pstep sc.1 a b ∨ (a = x ∧ b = v) ∨
      (a ∉ sc.1.visited ∧ b ∉ sc.1.visited) := by
    intro a b hab
    rcases hpost.ext.pstep_new a b hab with hold | ⟨ha, hb⟩
    · rcases (hpsp a b).1 hold with h1 | h1
      · exact Or.inl h1
      · exact Or.inr (Or.inl h1)
    · exact Or.inr (Or.inr ⟨ha, hb⟩)
  have hnewT : ∀ a b, pstep sr a b →
      pstep sc.1 a b ∨ b ∉ sc.1.visited ∨ b ∈ v :: gray := by
    intro a b hab
    rcases hnew_sr a b hab with h | ⟨_, hb⟩ | ⟨_, hb⟩
    · exact Or.inl h
    · exact Or.inr (Or.inr (hb ▸ List.mem_cons.2 (Or.inl rfl)))
    · exact Or.inr (Or.inl hb)
  have hnewS : ∀ a b, pstep sr a b → pstep sc.1 a b ∨ a ∉ sc.1.visited := by
    intro a b hab
    rcases hnew_sr a b hab with h | ⟨ha, _⟩ | ⟨ha, _⟩
    · exact Or.inl h
    · exact Or.inr (ha ▸ hxnv)
    · exact Or.inr ha
  have hchild_sr : ∀ c, pstep sr c v ↔ pstep sc.1 c v ∨ c = x := by
    intro c
    constructor
    · intro h
      rcases hnew_sr c v h with h1 | ⟨h1, _⟩ | ⟨_, h1⟩
      · exact Or.inl h1
      · exact Or.inr h1
      · exact absurd hvv h1
    · rintro (h | h)
      · exact hmono_sr c v h
      · subst h
        exact hpost.ext.pstep_mono c v (mapGetOpt_mapUpd_self _ _ _)
  have hchild_fin_sr : ∀ c, pstep sr c v →
      c ∈ sr.visited ∧ ¬(c = v) ∧ c ∉ gray := by
    intro c hc
    rcases (hchild_sr c).1 hc with h | h
    · rcases hL.child_fin c h with ⟨h1, h2, h3⟩
      exact ⟨hpost.ext.vis_mono c h1, h2, h3⟩
    · subst h
      exact ⟨hx_sr, hxv_ne, hxg⟩
  have hdesc_sr : ∀ w, Desc sr v w ↔ Desc sc.1 v w ∨ Desc sr x w := by
    intro w
    constructor
    · intro h
      by_cases hwv : w = v
      · exact Or.inl (hwv ▸ desc_refl _ _)
      · rcases child_chain_decomp h hwv with ⟨c, hcv, hcw⟩
        rcases (hchild_sr c).1 hcv with hcold | hcx
        · rcases hL.child_fin c hcold with ⟨h1, h2, h3⟩
          have hnotg : c ∉ v :: gray := by
            intro hm
            rcases List.mem_cons.1 hm with hm | hm
            · exact h2 hm
            · exact h3 hm
          have hdc : Desc sc.1 c w :=
            desc_fin_transfer hnewT hL.inv w c hcw h1 hnotg
          exact Or.inl (Relation.ReflTransGen.tail hdc hcold)
        · exact Or.inr (hcx ▸ hcw)
    · rintro (h | h)
      · exact Relation.ReflTransGen.mono hmono_sr h
      · exact Relation.ReflTransGen.tail h hpx_sr
  have hvis_sr : ∀ w, w ∈ sr.visited ↔ w ∈ s.visited ∨ Desc sr v w := by
    intro w
    rw [hpost.vis_iff w]
    constructor
    · rintro (h | h)
      · rcases (hL.vis_iff w).1 h with h1 | h1
        · exact Or.inl h1
        · exact Or.inr ((hdesc_sr w).2 (Or.inl h1))
      · exact Or.inr ((hdesc_sr w).2 (Or.inr h))
    · rintro (h | h)
      · exact Or.inl ((hL.vis_iff w).2 (Or.inl h))
      · rcases (hdesc_sr w).1 h with h1 | h1
        · exact Or.inl ((hL.vis_iff w).2 (Or.inr h1))
        · exact Or.inr h1
  have hnchild_sp : ∀ w,
      nChildren { sc.1 with parent := mapUpd sc.1.parent x v } w =
      nChildren sc.1 w + (if v = w then 1 else 0) :=
    fun w => nChildren_append_new hxnoneP v w
  have hncv : nChildren sr v = sc.2 + 1 := by
    have h1 := hpost.nchild_old v hvv
    rw [h1, hnchild_sp v, if_pos rfl, ← hL.cnt]
  have hnc_old : ∀ w ∈ s.visited, nChildren sr w = nChildren s w := by
    intro w hw
    have hw1 : w ∈ sc.1.visited := hL.ext.vis_mono w hw
    have h1 := hpost.nchild_old w hw1
    have hvw : ¬(v = w) := fun he => hpre.unvis (he.symm ▸ hw)
    rw [h1, hnchild_sp w, if_neg hvw, Nat.add_zero]
    exact hL.nchild_old w hw
  have htime_sr : s.time < sr.time :=
    lt_of_lt_of_le hL.time_gt hpost.ext.time_mono
  rw [dfsVisitChild_fresh hxnv,
    visitFresh_spec (dfsGo adj fuel) v x sc hxv_ne hsr hlv_sr hlowx hdv_sr]
  have hCmono : ∀ t, CandPre adj sc.1 v pre t →
      CandPre adj sr v (pre ++ [x]) t := by
    rintro t (h | ⟨y, x', h1, h2, h3, h4, h5⟩)
    · refine Or.inl ?_
      rw [(hfrozen v hvv).1]
      exact h
    · refine Or.inr ⟨y, x', Relation.ReflTransGen.mono hmono_sr h1, h2,
        Relation.TransGen.mono hmono_sr h3, ?_, ?_⟩
      · have hx'v : x' ∈ sc.1.visited := sanc_visited hL.inv h3 hvv
        rw [(hfrozen x' hx'v).1]
        exact h4
      · intro hyv
        rcases h5 hyv with ⟨hm, hnp⟩
        refine ⟨List.mem_append.2 (Or.inl hm), ?_⟩
        rw [(hfrozen v hvv).2.2]
        exact hnp
  refine ⟨?_, ?_, ?_, ?_, ?_, ?_, ?_, ?_, ?_, ?_, ?_, ?_, ?_, ?_, ?_⟩
  · -- FrameExt s sFin
    have hext_sp : FrameExt s
        { sc.1 with parent := mapUpd sc.1.parent x v } := by
      refine ⟨hL.ext.vis_mono, ?_, ?_, ?_, hL.ext.time_mono⟩
      · exact fun a b h => (hpsp a b).2 (Or.inl (hL.ext.pstep_mono a b h))
      · intro a b hab
        rcases (hpsp a b).1 hab with hold | ⟨hax, hbv⟩
        · exact hL.ext.pstep_new a b hold
        · subst hax
          subst hbv
          exact Or.inr ⟨fun hm => hxnv (hL.ext.vis_mono a hm), hpre.unvis⟩
      · intro w hw
        have h1 := hL.ext.old_frozen w hw
        refine ⟨h1.1, h1.2.1, ?_⟩
        show mapGetOpt (mapUpd sc.1.parent x v) w = mapGetOpt s.parent w
        have hwx : ¬(w = x) := fun he => hxnv (he ▸ hL.ext.vis_mono w hw)
        rw [mapGetOpt_mapUpd_ne _ _ hwx]
        exact h1.2.2
    have hext_sr : FrameExt s sr := frameExt_trans hext_sp hpost.ext
    have h2 := frameExt_low_update hext_sr hpre.unvis (min ℓ ℓx)
    exact ⟨h2.vis_mono, h2.pstep_mono, h2.pstep_new, h2.old_frozen,
      h2.time_mono⟩
  · exact dfsInv_set_art (dfsInv_update_low hpost.inv hv_sr
      (List.mem_cons.2 (Or.inl rfl)) (min ℓ ℓx)) _
  · -- ArtOK
    have honly_x : ∀ w', pstep sr x w' → w' = v := by
      intro w' h
      exact (Option.some.inj (hpx_sr.symm.trans h)).symm
    have hMviff : Marked sr (v :: gray) v ↔
        Marked sr (x :: v :: gray) v ∨
        ((mapGetOpt sr.parent v = none ∧ sc.2 + 1 > 1) ∨
         (¬(mapGetOpt sr.parent v = none) ∧ s.time ≤ ℓx)) := by
      constructor
      · rintro (⟨hpn, c₁, c₂, h1, h2, hne12, hv1, hv2, hg1, hg2⟩ |
          ⟨⟨p, hp⟩, c, h1, h2, h3, lc, dw, h4, h5, h6⟩)
        · have h2c : 2 ≤ nChildren sr v := nChildren_ge_two h1 h2 hne12
          rw [hncv] at h2c
          exact Or.inr (Or.inl ⟨hpn, by omega⟩)
        · rcases (hchild_sr c).1 h1 with hcold | hcx
          · have hcnx : ¬(c = x) := fun he =>
              hxnv (he ▸ (hL.child_fin c hcold).1)
            refine Or.inl (Or.inr ⟨⟨p, hp⟩, c, h1, h2, ?_, lc, dw,
              h4, h5, h6⟩)
            intro hm
            rcases List.mem_cons.1 hm with hm | hm
            · exact hcnx hm
            · exact h3 hm
          · subst hcx
            have hlce : lc = ℓx := by
              rw [hlowx] at h4
              exact (Option.some.inj h4).symm
            have hdwe : dw = s.time := by
              rw [hdv_sr] at h5
              exact (Option.some.inj h5).symm
            refine Or.inr (Or.inr ⟨?_, by omega⟩)
            intro hn
            rw [hn] at hp
            cases hp
      · rintro (hm | hc)
        · rcases hm with (⟨hpn, c₁, c₂, h1, h2, hne12, hv1, hv2, hg1, hg2⟩ |
            ⟨hpp, c, h1, h2, h3, lc, dw, h4, h5, h6⟩)
          · exact Or.inl ⟨hpn, c₁, c₂, h1, h2, hne12, hv1, hv2,
              fun h => hg1 (List.mem_cons.2 (Or.inr h)),
              fun h => hg2 (List.mem_cons.2 (Or.inr h))⟩
          · exact Or.inr ⟨hpp, c, h1, h2,
              fun h => h3 (List.mem_cons.2 (Or.inr h)), lc, dw, h4, h5, h6⟩
        · rcases hc with ⟨hpn, hgt⟩ | ⟨hpne, hge⟩
          · have h2c : 2 ≤ nChildren sr v := by
              rw [hncv]
              omega
            rcases nChildren_two_exists hpost.inv.parent_keys_nodup h2c with
              ⟨c₁, c₂, hp1, hp2, hne12⟩
            rcases hchild_fin_sr c₁ hp1 with ⟨ha1, hb1, hc1⟩
            rcases hchild_fin_sr c₂ hp2 with ⟨ha2, hb2, hc2⟩
            refine Or.inl ⟨hpn, c₁, c₂, hp1, hp2, hne12, ha1, ha2, ?_, ?_⟩
            · intro h
              rcases List.mem_cons.1 h with h | h
              · exact hb1 h
              · exact hc1 h
            · intro h
              rcases List.mem_cons.1 h with h | h
              · exact hb2 h
              · exact hc2 h
          · rcases Option.ne_none_iff_exists'.1 hpne with ⟨p, hp⟩
            refine Or.inr ⟨⟨p, hp⟩, x, (hchild_sr x).2 (Or.inr rfl), hx_sr,
              hxngray, ℓx, s.time, hlowx, hdv_sr, hge⟩
    intro w
    have hMfin : Marked { sr with low := mapUpd sr.low v (min ℓ ℓx), articulation := if (mapGetOpt sr.parent v = none ∧ sc.2 + 1 > 1) ∨ (¬(mapGetOpt sr.parent v = none) ∧ s.time ≤ ℓx) then setAdd sr.articulation v else sr.articulation } (v :: gray) w ↔ Marked sr (v :: gray) w :=
      marked_update_low (List.mem_cons.2 (Or.inl rfl)) (min ℓ ℓx) w
    have hmain : w ∈ (if (mapGetOpt sr.parent v = none ∧ sc.2 + 1 > 1) ∨
        (¬(mapGetOpt sr.parent v = none) ∧ s.time ≤ ℓx) then
        setAdd sr.articulation v else sr.articulation) ↔
        Marked sr (v :: gray) w := by
      by_cases hw : w = v
      · subst hw
        by_cases hC : (mapGetOpt sr.parent w = none ∧ sc.2 + 1 > 1) ∨
            (¬(mapGetOpt sr.parent w = none) ∧ s.time ≤ ℓx)
        · rw [if_pos hC, mem_setAdd]
          constructor
          · intro _
            exact hMviff.2 (Or.inr hC)
          · intro _
            exact Or.inr rfl
        · rw [if_neg hC, hpost.art w]
          constructor
          · intro h
            exact hMviff.2 (Or.inl h)
          · intro h
            rcases hMviff.1 h with h1 | h1
            · exact h1
            · exact absurd h1 hC
      · have hdropped : Marked sr (v :: gray) w ↔
            Marked sr (x :: v :: gray) w :=
          marked_drop_gray_head honly_x hw
        rw [hdropped, ← hpost.art w]
        by_cases hC : (mapGetOpt sr.parent v = none ∧ sc.2 + 1 > 1) ∨
            (¬(mapGetOpt sr.parent v = none) ∧ s.time ≤ ℓx)
        · rw [if_pos hC, mem_setAdd]
          constructor
          · rintro (h | h)
            · exact h
            · exact absurd h hw
          · exact fun h => Or.inl h
        · rw [if_neg hC]
    exact Iff.trans hmain hMfin.symm
  · intro a b hab
    exact hpost.psrc a b hab
  · intro w
    exact hvis_sr w
  · intro w h
    rcases (hdesc_sr w).1 h with h1 | h1
    · exact hL.fresh w h1
    · exact fun hs => hpost.fresh w h1 (hL.ext.vis_mono w hs)
  · exact hdv_sr
  · exact htime_sr
  · exact hparent_v_sr
  · intro w hw
    show nChildren { sr with low := mapUpd sr.low v (min ℓ ℓx) } w =
      nChildren s w
    exact hnc_old w hw
  · exact hncv.symm
  · intro c hc
    rcases hchild_fin_sr c hc with ⟨h1, h2, h3⟩
    exact ⟨h1, h2, h3⟩
  · intro z hz
    rcases List.mem_append.1 hz with h | h
    · exact hpost.ext.vis_mono z (hL.pre_vis z h)
    · have hzx : z = x := by simpa using h
      exact hzx ▸ hx_sr
  · -- low characterization
    refine ⟨min ℓ ℓx, ?_, ?_, ?_⟩
    · show mapGetOpt (mapUpd sr.low v (min ℓ ℓx)) v = some (min ℓ ℓx)
      exact mapGetOpt_mapUpd_self _ _ _
    · show CandPre adj sr v (pre ++ [x]) (min ℓ ℓx)
      by_cases hle : ℓ ≤ ℓx
      · rw [min_eq_left hle]
        exact hCmono ℓ hcand
      · push_neg at hle
        rw [min_eq_right (le_of_lt hle)]
        rcases hcandx with hdx | ⟨y, x', h1, h2, h3, h4, h5⟩
        · exfalso
          have h7 := hpost.disc_v.symm.trans hdx
          have h8 : sc.1.time = ℓx := Option.some.inj h7
          have h9 := hL.time_gt
          omega
        · rcases sanc_above_child (show pstep sr x v from hpx_sr) h3 with
            hxv' | hsanc_v
          · exfalso
            subst hxv'
            rw [hdv_sr] at h4
            have h7 : s.time = ℓx := Option.some.inj h4
            omega
          · refine Or.inr ⟨y, x', Relation.ReflTransGen.tail h1 hpx_sr, h2,
              hsanc_v, h4, ?_⟩
            intro hyv
            exact absurd ((hyv ▸ hvv) : y ∈ sc.1.visited)
              (hpost.fresh y h1)
    · rintro t (h | ⟨y, x', h1, h2, h3, h4, h5⟩)
      · have h6 : mapGetOpt sr.disc v = some t := h
        rw [hdv_sr] at h6
        have h7 : s.time = t := Option.some.inj h6
        omega
      · rcases (hdesc_sr y).1 h1 with hyold | hyx
        · have hsanc1 : SAnc sc.1 x' v :=
            sanc_old_transfer hnewS hL.inv v x' h3 hvv
          have hx'v : x' ∈ sc.1.visited := sanc_visited hL.inv hsanc1 hvv
          have h4' : mapGetOpt sc.1.disc x' = some t := by
            rw [← (hfrozen x' hx'v).1]
            exact h4
          have hold : CandPre adj sc.1 v pre t := by
            refine Or.inr ⟨y, x', hyold, h2, hsanc1, h4', ?_⟩
            intro hyv
            rcases h5 hyv with ⟨hm, hnp⟩
            rcases List.mem_append.1 hm with hm1 | hm1
            · refine ⟨hm1, ?_⟩
              rw [← (hfrozen v hvv).2.2]
              exact hnp
            · exfalso
              have hxx : x' = x := by simpa using hm1
              subst hxx
              exact hxnv hx'v
          exact le_trans (min_le_left _ _) (hmin t hold)
        · have h3' : Relation.TransGen (pstep sr) v x' := h3
          have hsancx : SAnc sr x' x :=
            Relation.TransGen.head' (show pstep sr x v from hpx_sr)
              h3'.to_reflTransGen
          have hchildC : Cand adj sr x t := by
            refine Or.inr ⟨y, x', hyx, h2, hsancx, h4, ?_⟩
            intro hyx2 hps
            have hx'veq : v = x' := Option.some.inj (hpx_sr.symm.trans hps)
            subst hx'veq
            exact sanc_ne hpost.inv h3 hv_sr rfl
          exact le_trans (min_le_right _ _) (hminx t hchildC)
  · intro w t hdesc hdisc
    rcases (hdesc_sr w).1 hdesc with h1 | h1
    · have hwvis : w ∈ sc.1.visited := (hL.vis_iff w).2 (Or.inr h1)
      have h2 : mapGetOpt sc.1.disc w = some t := by
        rw [← (hfrozen w hwvis).1]
        exact hdisc
      exact hL.subtree_disc w t h1 h2
    · have h2 : sc.1.time ≤ t := hpost.subtree_disc w t h1 hdisc
      have h3 := hL.time_gt
      omega

theorem dfsPost_of_loopInv {adj : AdjMap} {s : DfsState} {gray : List Int}
    {v : Int} {sc : DfsState × Nat}
    (hsym : ∀ a b, b ∈ adjGet adj a ↔ a ∈ adjGet adj b)
    (hpre : DfsPre adj s gray v)
    (hL : LoopInv adj s gray v (adjGet adj v) sc) :
    DfsPost adj s gray v sc.1 := by
  have hvv : v ∈ sc.1.visited := (hL.vis_iff v).2 (Or.inr (desc_refl _ _))
  refine ⟨hL.ext, ?_, hL.art, hL.psrc, hL.vis_iff, hL.fresh, hL.disc_v,
    hL.time_gt, hL.parent_v, hL.nchild_old, hL.subtree_disc⟩
  refine ⟨hL.inv.vis_keys, hL.inv.vis_nodup, hL.inv.disc_iff,
    hL.inv.low_iff, hL.inv.disc_lt_time, hL.inv.parent_keys_nodup,
    hL.inv.parent_edge, hL.inv.parent_disc, ?_,
    grayOK_tail hL.inv.grayOK, ?_, ?_, ?_⟩
  · intro a b hab
    exact Or.inl (hL.psrc a b hab)
  · intro z hz hzg y hy
    by_cases hzv : z = v
    · subst hzv
      exact hL.pre_vis y hy
    · have hzng : z ∉ v :: gray := by
        intro h
        rcases List.mem_cons.1 h with h | h
        · exact hzv h
        · exact hzg h
      exact hL.inv.fin_closed z hz hzng y hy
  · intro w hw hwg y x' hdesc hedge
    by_cases hwv : w = v
    · subst hwv
      by_cases hyv : y = w
      · rw [hyv] at hedge
        have hx'vis : x' ∈ sc.1.visited := hL.pre_vis x' hedge
        rcases (hL.vis_iff x').1 hx'vis with hx'old | hx'desc
        · by_cases hx'g : x' ∈ gray
          · exact Or.inr (gray_sanc_head hL.inv.grayOK x' hx'g)
          · exfalso
            apply hpre.unvis
            exact hpre.inv.fin_closed x' hx'old hx'g w ((hsym w x').1 hedge)
        · exact Or.inl hx'desc
      · rcases child_chain_decomp hdesc hyv with ⟨c, hcv, hcy⟩
        rcases hL.child_fin c hcv with ⟨h1, h2, h3⟩
        have hcng : c ∉ w :: gray := by
          intro h
          rcases List.mem_cons.1 h with h | h
          · exact h2 h
          · exact h3 h
        rcases hL.inv.fin_subtree_closed c h1 hcng y x' hcy hedge with
          h4 | h4
        · exact Or.inl (Relation.ReflTransGen.tail h4 hcv)
        · rcases sanc_above_child hcv h4 with h5 | h5
          · exact Or.inl (h5 ▸ desc_refl _ _)
          · exact Or.inr h5
    · have hwng : w ∉ v :: gray := by
        intro h
        rcases List.mem_cons.1 h with h | h
        · exact hwv h
        · exact hwg h
      exact hL.inv.fin_subtree_closed w hw hwng y x' hdesc hedge
  · intro w hw hwg
    by_cases hwv : w = v
    · subst hwv
      rcases hL.low_v with ⟨ℓ, hlow, hcand, hmin⟩
      refine ⟨ℓ, hlow, ?_, ?_⟩
      · rcases hcand with h | ⟨y, x', h1, h2, h3, h4, h5⟩
        · exact Or.inl h
        · exact Or.inr ⟨y, x', h1, h2, h3, h4, fun hyv => (h5 hyv).2⟩
      · rintro t (h | ⟨y, x', h1, h2, h3, h4, h5⟩)
        · exact hmin t (Or.inl h)
        · refine hmin t (Or.inr ⟨y, x', h1, h2, h3, h4, fun hyv => ?_⟩)
          exact ⟨hyv ▸ h2, h5 hyv⟩
    · have hwng : w ∉ v :: gray := by
        intro h
        rcases List.mem_cons.1 h with h | h
        · exact hwv h
        · exact hwg h
      exact hL.inv.fin_low w hw hwng

theorem dfs_loop {adj : AdjMap} {s : DfsState} {gray : List Int} {v : Int}
    {fuel : Nat} (hsym : ∀ a b, b ∈ adjGet adj a ↔ a ∈ adjGet adj b)
    (hpre : DfsPre adj s gray v)
    (hfuel : unvisitedCount adj s ≤ fuel + 1)
    (hrec : ∀ s₀ g₀ v₀, DfsPre adj s₀ g₀ v₀ → unvisitedCount adj s₀ ≤ fuel →
      DfsPost adj s₀ g₀ v₀ (dfsGo adj fuel v₀ s₀)) :
    ∀ (suf pre : List Int) (sc : DfsState × Nat),
      adjGet adj v = pre ++ suf → LoopInv adj s gray v pre sc →
      LoopInv adj s gray v (pre ++ suf)
        (suf.foldl (dfsVisitChild (dfsGo adj fuel) v) sc) := by
  intro suf
  induction suf with
  | nil =>
    intro pre sc _ hL
    rw [List.append_nil]
    exact hL
  | cons x rest ih =>
    intro pre sc hsplit hL
    have hx : x ∈ adjGet adj v := by
      rw [hsplit]
      exact List.mem_append.2 (Or.inr (List.mem_cons.2 (Or.inl rfl)))
    have hstep : LoopInv adj s gray v (pre ++ [x])
        (dfsVisitChild (dfsGo adj fuel) v sc x) := by
      by_cases hxv : x ∈ sc.1.visited
      · exact loopInv_step_visited hsym hpre hL hx hxv _
      · exact loopInv_step_fresh hsym hpre hL hfuel hx hxv hrec
    have hsplit2 : adjGet adj v = (pre ++ [x]) ++ rest := by
      rw [hsplit, List.append_assoc, List.singleton_append]
    have hres := ih (pre ++ [x]) _ hsplit2 hstep
    rw [show pre ++ x :: rest = (pre ++ [x]) ++ rest from by
      rw [List.append_assoc, List.singleton_append]]
    exact hres

theorem dfsGo_spec {adj : AdjMap}
    (hsym : ∀ a b, b ∈ adjGet adj a ↔ a ∈ adjGet adj b) :
    ∀ (fuel : Nat) (s : DfsState) (gray : List Int) (v : Int),
      DfsPre adj s gray v → unvisitedCount adj s ≤ fuel →
      DfsPost adj s gray v (dfsGo adj fuel v s) := by
  intro fuel
  induction fuel with
  | zero =>
    intro s gray v hpre hcnt
    exfalso
    have hmem : v ∈ (adjKeys adj).filter
        (fun k => !(List.elem k s.visited)) :=
      List.mem_filter.2 ⟨hpre.vkey, by simp [hpre.unvis]⟩
    have hpos : 0 < unvisitedCount adj s := List.length_pos_of_mem hmem
    omega
  | succ fuel ih =>
    intro s gray v hpre hcnt
    rw [dfsGo_succ]
    have hbase := loopInv_base hsym hpre
    have hloop := dfs_loop hsym hpre hcnt ih (adjGet adj v) []
      (frameStart s v, 0) (List.nil_append _).symm hbase
    rw [List.nil_append] at hloop
    exact dfsPost_of_loopInv hsym hpre hloop

/-! The outer loop of lines 96-98: a DFS is started from every unvisited
key, with the gray stack empty between starts. -/

structure OuterInv (adj : AdjMap) (S : DfsState) : Prop where
  inv : DfsInv adj S []
  art : ArtOK S []
  psrc : ∀ a b, pstep S a b → a ∈ S.visited

theorem marked_drop_root {s : DfsState} {u : Int}
    (hnop : mapGetOpt s.parent u = none) (w : Int) :
    Marked s [u] w ↔ Marked s [] w := by
  have hnostep : ∀ z, ¬ pstep s u z := by
    intro z h
    rw [pstep, hnop] at h
    cases h
  constructor
  · rintro (⟨hp, c₁, c₂, h1, h2, h3, h4, h5, h6, h7⟩ |
      ⟨hp, c, h1, h2, h3, lc, dw, h4, h5, h6⟩)
    · exact Or.inl ⟨hp, c₁, c₂, h1, h2, h3, h4, h5,
        List.not_mem_nil c₁, List.not_mem_nil c₂⟩
    · exact Or.inr ⟨hp, c, h1, h2, List.not_mem_nil c, lc, dw, h4, h5, h6⟩
  · rintro (⟨hp, c₁, c₂, h1, h2, h3, h4, h5, _, _⟩ |
      ⟨hp, c, h1, h2, _, lc, dw, h4, h5, h6⟩)
    · have hc1 : ¬(c₁ = u) := fun he => hnostep w (he ▸ h1)
      have hc2 : ¬(c₂ = u) := fun he => hnostep w (he ▸ h2)
      refine Or.inl ⟨hp, c₁, c₂, h1, h2, h3, h4, h5, ?_, ?_⟩
      · intro hm
        exact hc1 (by simpa using hm)
      · intro hm
        exact hc2 (by simpa using hm)
    · have hc : ¬(c = u) := fun he => hnostep w (he ▸ h1)
      refine Or.inr ⟨hp, c, h1, h2, ?_, lc, dw, h4, h5, h6⟩
      intro hm
      exact hc (by simpa using hm)

theorem outerInv_init (adj : AdjMap) : OuterInv adj initState := by
  have hnostep : ∀ a b, ¬ pstep initState a b := by
    intro a b h
    cases h
  refine ⟨⟨?_, ?_, ?_, ?_, ?_, ?_, ?_, ?_, ?_, ?_, ?_, ?_, ?_⟩, ?_, ?_⟩
  · intro w hw; cases hw
  · exact List.nodup_nil
  · intro w
    constructor
    · rintro ⟨t, ht⟩; cases ht
    · intro h; cases h
  · intro w
    constructor
    · rintro ⟨t, ht⟩; cases ht
    · intro h; cases h
  · intro w t ht; cases ht
  · exact List.nodup_nil
  · intro a b hab; cases hab
  · intro a b hab; cases hab
  · intro a b hab; cases hab
  · trivial
  · intro x hx; cases hx
  · intro w hw; cases hw
  · intro w hw; cases hw
  · intro w
    constructor
    · intro h; cases h
    · rintro (⟨_, c₁, _, h1, _⟩ | ⟨_, c, h1, _⟩)
      · cases h1
      · cases h1
  · intro a b hab; cases hab

theorem length_le_sum_len (adj : AdjMap) :
    adj.length ≤ (adj.map (fun p => p.2.length + 1)).sum := by
  induction adj with
  | nil => simp
  | cons p t ih =>
    simp only [List.length_cons, List.map_cons, List.sum_cons]
    omega

theorem unvisitedCount_le_fuel (adj : AdjMap) (S : DfsState) :
    unvisitedCount adj S ≤ dfsFuel adj := by
  have h1 : unvisitedCount adj S ≤ (adjKeys adj).length :=
    List.length_filter_le _ _
  have h2 : (adjKeys adj).length = adj.length := List.length_map _ _
  have h3 := length_le_sum_len adj
  unfold dfsFuel
  omega

theorem outer_step {adj : AdjMap}
    (hsym : ∀ a b, b ∈ adjGet adj a ↔ a ∈ adjGet adj b) {S : DfsState}
    {u : Int} (hO : OuterInv adj S) (hu : u ∈ adjKeys adj) :
    OuterInv adj
      (if u ∈ S.visited then S else dfsGo adj (dfsFuel adj) u S) ∧
    (∀ w ∈ S.visited,
      w ∈ (if u ∈ S.visited then S
           else dfsGo adj (dfsFuel adj) u S).visited) ∧
    u ∈ (if u ∈ S.visited then S
         else dfsGo adj (dfsFuel adj) u S).visited := by
  by_cases hv : u ∈ S.visited
  · rw [if_pos hv]
    exact ⟨hO, fun w hw => hw, hv⟩
  · rw [if_neg hv]
    have hpnone : mapGetOpt S.parent u = none := by
      rcases h : mapGetOpt S.parent u with _ | b
      · rfl
      · exact absurd (hO.psrc u b h) hv
    have hpre : DfsPre adj S [] u :=
      ⟨hO.inv, hO.art, fun a b h => Or.inl (hO.psrc a b h), hv, hu,
       Or.inl ⟨rfl, hpnone⟩⟩
    have hfuel : unvisitedCount adj S ≤ dfsFuel adj :=
      unvisitedCount_le_fuel adj S
    rcases h : dfsFuel adj with _ | fuel
    · exfalso
      have := unvisitedCount_le_fuel adj S
      rw [h] at this
      have hmem : u ∈ (adjKeys adj).filter
          (fun k => !(List.elem k S.visited)) :=
        List.mem_filter.2 ⟨hu, by simp [hv]⟩
      have hpos : 0 < unvisitedCount adj S := List.length_pos_of_mem hmem
      omega
    · have hpost := dfsGo_spec hsym (fuel + 1) S [] u hpre (by omega)
      have hpu : mapGetOpt (dfsGo adj (fuel + 1) u S).parent u = none := by
        rw [hpost.parent_v]
        exact hpnone
      refine ⟨⟨hpost.inv, ?_, hpost.psrc⟩, ?_, ?_⟩
      · intro w
        rw [hpost.art w]
        exact marked_drop_root hpu w
      · exact fun w hw => hpost.ext.vis_mono w hw
      · exact (hpost.vis_iff u).2 (Or.inr (desc_refl _ _))
  
theorem outer_loop {adj : AdjMap}
    (hsym : ∀ a b, b ∈ adjGet adj a ↔ a ∈ adjGet adj b) :
    ∀ (keys : List Int) (S : DfsState), (∀ k ∈ keys, k ∈ adjKeys adj) →
      OuterInv adj S →
      OuterInv adj (keys.foldl
        (fun s u => if u ∈ s.visited then s
                    else dfsGo adj (dfsFuel adj) u s) S) ∧
      (∀ w ∈ S.visited, w ∈ (keys.foldl
        (fun s u => if u ∈ s.visited then s
                    else dfsGo adj (dfsFuel adj) u s) S).visited) ∧
      (∀ k ∈ keys, k ∈ (keys.foldl
        (fun s u => if u ∈ s.visited then s
                    else dfsGo adj (dfsFuel adj) u s) S).visited) := by
  intro keys
  induction keys with
  | nil =>
    intro S _ hO
    exact ⟨hO, fun w hw => hw, fun k hk => absurd hk (List.not_mem_nil k)⟩
  | cons u rest ih =>
    intro S hks hO
    have hu : u ∈ adjKeys adj := hks u (List.mem_cons.2 (Or.inl rfl))
    rcases outer_step hsym hO hu with ⟨hO1, hmono1, hu1⟩
    rcases ih _ (fun k hk => hks k (List.mem_cons.2 (Or.inr hk))) hO1 with
      ⟨hO2, hmono2, hrest2⟩
    refine ⟨hO2, ?_, ?_⟩
    · intro w hw
      exact hmono2 w (hmono1 w hw)
    · intro k hk
      rcases List.mem_cons.1 hk with hk | hk
      · subst hk
        exact hmono2 k hu1
      · exact hrest2 k hk

theorem fap_characterization {adj : AdjMap}
    (hsym : ∀ a b, b ∈ adjGet adj a ↔ a ∈ adjGet adj b) :
    ∃ S : DfsState, find_articulation_points adj = S.articulation ∧
      OuterInv adj S ∧ (∀ k ∈ adjKeys adj, k ∈ S.visited) := by
  rcases outer_loop hsym (adjKeys adj) initState (fun k hk => hk)
    (outerInv_init adj) with ⟨hO, _, hall⟩
  exact ⟨_, rfl, hO, hall⟩

/-! The marking condition of the final state characterizes the cut
vertices of the graph. -/

theorem pstep_edge {adj : AdjMap} {S : DfsState}
    (hinv : DfsInv adj S []) (hpsrc : ∀ a b, pstep S a b → a ∈ S.visited)
    {a b : Int} (h : pstep S a b) :
    b ∈ adjGet adj a ∧ a ∈ S.visited ∧ b ∈ S.visited := by
  have ha := hpsrc a b h
  rcases hinv.parent_edge a b h ha with ⟨h1, h2⟩
  exact ⟨h1, ha, h2⟩

theorem no_desc_child_up {adj : AdjMap} {S : DfsState}
    (hinv : DfsInv adj S []) (hpsrc : ∀ a b, pstep S a b → a ∈ S.visited)
    {c u : Int} (hc : pstep S c u) : ¬ Desc S c u := by
  intro hd
  have hu : u ∈ S.visited := (pstep_edge hinv hpsrc hc).2.2
  rcases desc_disc_le hinv hd hu with ⟨tc, tu, h1, h2, h3⟩
  rcases hinv.parent_disc c u hc (hpsrc c u hc) with ⟨ta, tb, h4, h5, h6⟩
  rw [h1] at h4
  rw [h2] at h5
  have e1 := Option.some.inj h4
  have e2 := Option.some.inj h5
  omega

theorem desc_reaches_avoid {adj : AdjMap} {S : DfsState}
    (hinv : DfsInv adj S []) (hpsrc : ∀ a b, pstep S a b → a ∈ S.visited)
    {u : Int} : ∀ {z c : Int}, Relation.ReflTransGen (pstep S) z c →
    (∀ m, Relation.ReflTransGen (pstep S) m c → ¬(m = u)) →
    Reaches (removeNode adj u) z c := by
  intro z c h
  induction h with
  | refl =>
    intro _
    exact Relation.ReflTransGen.refl
  | @tail b c' hab hbc ih =>
    intro hav
    have h1 : Reaches (removeNode adj u) z b :=
      ih (fun m hm => hav m (Relation.ReflTransGen.tail hm hbc))
    have hedge : c' ∈ adjGet adj b := (pstep_edge hinv hpsrc hbc).1
    have hb : ¬(b = u) := hav b (Relation.ReflTransGen.single hbc)
    have hc' : ¬(c' = u) := hav c' Relation.ReflTransGen.refl
    exact Relation.ReflTransGen.tail h1
      (show Adjacent (removeNode adj u) b c' from
        mem_adjGet_removeNode.2 ⟨hedge, hc', hb⟩)

theorem sanc_reaches_avoid {adj : AdjMap} {S : DfsState}
    (hinv : DfsInv adj S []) (hpsrc : ∀ a b, pstep S a b → a ∈ S.visited)
    {u : Int} : ∀ {b z : Int}, Relation.TransGen (pstep S) b z →
    ¬(b = u) → (∀ m, Relation.TransGen (pstep S) b m → ¬(m = u)) →
    Reaches (removeNode adj u) b z := by
  intro b z h
  induction h with
  | @single m h1 =>
    intro hb hmu
    have hz : ¬(m = u) := hmu m (Relation.TransGen.single h1)
    exact Relation.ReflTransGen.single
      (show Adjacent (removeNode adj u) b m from
        mem_adjGet_removeNode.2 ⟨(pstep_edge hinv hpsrc h1).1, hz, hb⟩)
  | @tail m z' hbm hmz ih =>
    intro hb hmu
    have h1 : Reaches (removeNode adj u) b m := ih hb hmu
    have hm : ¬(m = u) := hmu m hbm
    have hz : ¬(z' = u) := hmu z' (Relation.TransGen.tail hbm hmz)
    exact Relation.ReflTransGen.tail h1
      (show Adjacent (removeNode adj u) m z' from
        mem_adjGet_removeNode.2 ⟨(pstep_edge hinv hpsrc hmz).1, hz, hm⟩)

theorem marked_sound {adj : AdjMap} {S : DfsState}
    (hsym : ∀ a b, b ∈ adjGet adj a ↔ a ∈ adjGet adj b)
    (hinv : DfsInv adj S []) (hpsrc : ∀ a b, pstep S a b → a ∈ S.visited)
    {u : Int} (hM : Marked S [] u) :
    ∃ v w, ¬(v = u) ∧ ¬(w = u) ∧ Reaches adj v w ∧
      ¬ Reaches (removeNode adj u) v w := by
  rcases hM with ⟨hp, c₁, c₂, h1, h2, hne12, hv1, hv2, _, _⟩ |
    ⟨⟨p, hp⟩, c, h1, h2, _, lc, dw, h4, h5, h6⟩
  · -- root with two tree children
    have hc1u : ¬(c₁ = u) := by
      intro he
      subst he
      rw [pstep, hp] at h1
      cases h1
    have hc2u : ¬(c₂ = u) := by
      intro he
      subst he
      rw [pstep, hp] at h2
      cases h2
    have he1 : u ∈ adjGet adj c₁ := (pstep_edge hinv hpsrc h1).1
    have he2 : u ∈ adjGet adj c₂ := (pstep_edge hinv hpsrc h2).1
    refine ⟨c₁, c₂, hc1u, hc2u, ?_, ?_⟩
    · exact Relation.ReflTransGen.tail (Relation.ReflTransGen.single he1)
        ((hsym c₂ u).1 he2)
    · intro hR
      have hclos : ∀ z, Reaches (removeNode adj u) c₁ z → Desc S c₁ z := by
        intro z hz
        induction hz with
        | refl => exact desc_refl _ _
        | @tail b z' hab hbz ih =>
          rcases mem_adjGet_removeNode.1 hbz with ⟨hedge, hz'u, hbu⟩
          rcases hinv.fin_subtree_closed c₁ (hpsrc c₁ u h1)
            (List.not_mem_nil c₁) b z' ih hedge with hd | hs
          · exact hd
          · rcases sanc_above_child h1 hs with he | hs2
            · exact absurd he hz'u
            · exfalso
              rcases Relation.TransGen.head'_iff.1 hs2 with ⟨m, hm, _⟩
              rw [pstep, hp] at hm
              cases hm
      have hdesc : Desc S c₁ c₂ := hclos c₂ hR
      rcases Relation.ReflTransGen.cases_head hdesc with he | ⟨m, hm, hrest⟩
      · exact hne12 he.symm
      · have hmu : m = u := pstep_fun hm h2
        subst hmu
        exact no_desc_child_up hinv hpsrc h1 hrest
  · -- non-root with a child whose low does not escape above u
    have hu : u ∈ S.visited := (pstep_edge hinv hpsrc h1).2.2
    have hpu : pstep S u p := hp
    have hcu : ¬(c = u) := by
      intro he
      rw [he] at h1
      rcases hinv.parent_disc u u h1 (hpsrc u u h1) with ⟨ta, tb, e1, e2, e3⟩
      rw [e1] at e2
      have := Option.some.inj e2
      omega
    have hpnu : ¬(p = u) := by
      intro he
      rw [he] at hpu
      rcases hinv.parent_disc u u hpu (hpsrc u u hpu) with
        ⟨ta, tb, e1, e2, e3⟩
      rw [e1] at e2
      have := Option.some.inj e2
      omega
    have heu : u ∈ adjGet adj c := (pstep_edge hinv hpsrc h1).1
    have hep : p ∈ adjGet adj u := (pstep_edge hinv hpsrc hpu).1
    refine ⟨c, p, hcu, hpnu, ?_, ?_⟩
    · exact Relation.ReflTransGen.tail (Relation.ReflTransGen.single heu) hep
    · intro hR
      rcases hinv.fin_low c (hpsrc c u h1) (List.not_mem_nil c) with
        ⟨lc', hlow', hcand', hmin'⟩
      have hlce : lc' = lc := by
        rw [h4] at hlow'
        exact (Option.some.inj hlow').symm
      subst hlce
      have hclos : ∀ z, Reaches (removeNode adj u) c z → Desc S c z := by
        intro z hz
        induction hz with
        | refl => exact desc_refl _ _
        | @tail b z' hab hbz ih =>
          rcases mem_adjGet_removeNode.1 hbz with ⟨hedge, hz'u, hbu⟩
          rcases hinv.fin_subtree_closed c (hpsrc c u h1)
            (List.not_mem_nil c) b z' ih hedge with hd | hs
          · exact hd
          · rcases sanc_above_child h1 hs with he | hs2
            · exact absurd he hz'u
            · exfalso
              rcases (hinv.disc_iff z').2
                (sanc_visited hinv hs2 hu) with ⟨tz, htz⟩
              have hCand : Cand adj S c tz := by
                refine Or.inr ⟨b, z', ih, hedge, hs, htz, ?_⟩
                intro _ hps
                have : u = z' := Option.some.inj (h1.symm.trans hps)
                exact hz'u this.symm
              have hle2 : lc' ≤ tz := hmin' tz hCand
              rcases sanc_disc_lt hinv hs2 hu with ⟨tz2, tu, e1, e2, e3⟩
              rw [htz] at e1
              rw [h5] at e2
              have q1 := Option.some.inj e1
              have q2 := Option.some.inj e2
              omega
      have hdesc : Desc S c p := hclos p hR
      have hsanc : SAnc S p c :=
        Relation.TransGen.head h1 (Relation.TransGen.single hpu)
      rcases desc_disc_le hinv hdesc (pstep_edge hinv hpsrc hpu).2.2 with
        ⟨tc, tp, e1, e2, e3⟩
      rcases sanc_disc_lt hinv hsanc (hpsrc c u h1) with ⟨tp2, tc2, e4, e5, e6⟩
      rw [e1] at e5
      rw [e2] at e4
      have q1 := Option.some.inj e4
      have q2 := Option.some.inj e5
      omega

theorem marked_complete_neighbors {adj : AdjMap} {S : DfsState}
    (hsym : ∀ a b, b ∈ adjGet adj a ↔ a ∈ adjGet adj b)
    (hinv : DfsInv adj S []) (hpsrc : ∀ a b, pstep S a b → a ∈ S.visited)
    (hall : ∀ k ∈ adjKeys adj, k ∈ S.visited)
    {u : Int} (hnM : ¬ Marked S [] u) :
    ∀ z₁ z₂, z₁ ∈ adjGet adj u → z₂ ∈ adjGet adj u → ¬(z₁ = u) →
      ¬(z₂ = u) → Reaches (removeNode adj u) z₁ z₂ := by
  intro z₁ z₂ hz₁ hz₂ hz₁u hz₂u
  have hukey : u ∈ adjKeys adj :=
    mem_adjKeys_of_adjGet_ne_nil (List.ne_nil_of_mem hz₁)
  have hu : u ∈ S.visited := hall u hukey
  have hsymR := removeNode_symm (u := u) hsym
  have hclass : ∀ z ∈ adjGet adj u, Desc S u z ∨ SAnc S z u :=
    fun z hz => hinv.fin_subtree_closed u hu (List.not_mem_nil u) u z
      (desc_refl _ _) hz
  have hsubavoid : ∀ c, pstep S c u →
      ∀ m, Relation.ReflTransGen (pstep S) m c → ¬(m = u) := by
    intro c hc m hm he
    exact no_desc_child_up hinv hpsrc hc (he ▸ hm)
  rcases hq : mapGetOpt S.parent u with _ | p
  · -- u is a root of its DFS tree
    have hnoanc : ∀ z, ¬ SAnc S z u := by
      intro z hs
      rcases Relation.TransGen.head'_iff.1 hs with ⟨m, hm, _⟩
      rw [pstep, hq] at hm
      cases hm
    have hone : ∀ c₁ c₂, pstep S c₁ u → pstep S c₂ u → c₁ = c₂ := by
      intro c₁ c₂ hc1 hc2
      by_contra hne
      exact hnM (Or.inl ⟨hq, c₁, c₂, hc1, hc2, hne, hpsrc c₁ u hc1,
        hpsrc c₂ u hc2, List.not_mem_nil c₁, List.not_mem_nil c₂⟩)
    have hd1 : Desc S u z₁ := (hclass z₁ hz₁).resolve_right (hnoanc z₁)
    have hd2 : Desc S u z₂ := (hclass z₂ hz₂).resolve_right (hnoanc z₂)
    rcases child_chain_decomp hd1 hz₁u with ⟨c₁, hc1, hcd1⟩
    rcases child_chain_decomp hd2 hz₂u with ⟨c₂, hc2, hcd2⟩
    have hceq : c₁ = c₂ := hone c₁ c₂ hc1 hc2
    subst hceq
    have hr1 : Reaches (removeNode adj u) z₁ c₁ :=
      desc_reaches_avoid hinv hpsrc hcd1 (hsubavoid c₁ hc1)
    have hr2 : Reaches (removeNode adj u) z₂ c₁ :=
      desc_reaches_avoid hinv hpsrc hcd2 (hsubavoid c₁ hc2)
    exact hr1.trans (reaches_symm hsymR hr2)
  · -- u has a parent p
    have hpu : pstep S u p := hq
    have hpnu : ¬(p = u) := by
      intro he
      rw [he] at hpu
      rcases hinv.parent_disc u u hpu (hpsrc u u hpu) with
        ⟨ta, tb, e1, e2, e3⟩
      rw [e1] at e2
      have := Option.some.inj e2
      omega
    have hancavoid : ∀ m, Relation.TransGen (pstep S) p m → ¬(m = u) := by
      intro m hm he
      subst he
      exact sanc_ne hinv (Relation.TransGen.head hpu hm) hu rfl
    have hanc_p : ∀ z, SAnc S z u → Reaches (removeNode adj u) z p := by
      intro z hs
      rcases sanc_above_child hpu hs with he | hs2
      · exact he ▸ Relation.ReflTransGen.refl
      · exact reaches_symm hsymR
          (sanc_reaches_avoid hinv hpsrc hs2 hpnu hancavoid)
    have hchild_p : ∀ c, pstep S c u → Reaches (removeNode adj u) c p := by
      intro c hc
      rcases (hinv.disc_iff u).2 hu with ⟨du, hdu⟩
      rcases hinv.fin_low c (hpsrc c u hc) (List.not_mem_nil c) with
        ⟨lc, hlow, hcand, _⟩
      have hlt : lc < du := by
        by_contra hge
        push_neg at hge
        exact hnM (Or.inr ⟨⟨p, hq⟩, c, hc, hpsrc c u hc,
          List.not_mem_nil c, lc, du, hlow, hdu, hge⟩)
      rcases hcand with hdc | ⟨y, x', hdy, hedge, hsanc, hdx', _⟩
      · exfalso
        rcases hinv.parent_disc c u hc (hpsrc c u hc) with
          ⟨ta, tb, e1, e2, e3⟩
        rw [hdc] at e1
        rw [hdu] at e2
        have q1 := Option.some.inj e1
        have q2 := Option.some.inj e2
        omega
      · rcases sanc_above_child hc hsanc with he | hs2
        · exfalso
          rw [he, hdu] at hdx'
          have := Option.some.inj hdx'
          omega
        · have hyne : ¬(y = u) := fun he => no_desc_child_up hinv hpsrc hc
            (he ▸ hdy)
          have hx'ne : ¬(x' = u) := sanc_ne hinv hs2 hu
          have hr1 : Reaches (removeNode adj u) c y :=
            reaches_symm hsymR
              (desc_reaches_avoid hinv hpsrc hdy (hsubavoid c hc))
          have hr2 : Adjacent (removeNode adj u) y x' :=
            mem_adjGet_removeNode.2 ⟨hedge, hx'ne, hyne⟩
          have hr3 : Reaches (removeNode adj u) x' p := hanc_p x' hs2
          exact (hr1.tail hr2).trans hr3
    have hz_p : ∀ z ∈ adjGet adj u, ¬(z = u) →
        Reaches (removeNode adj u) z p := by
      intro z hz hzu
      rcases hclass z hz with hd | hs
      · rcases child_chain_decomp hd hzu with ⟨c, hc, hcd⟩
        exact (desc_reaches_avoid hinv hpsrc hcd (hsubavoid c hc)).trans
          (hchild_p c hc)
      · exact hanc_p z hs
    exact (hz_p z₁ hz₁ hz₁u).trans (reaches_symm hsymR (hz_p z₂ hz₂ hz₂u))

theorem reaches_u_neighbor {adj : AdjMap}
    (hsym : ∀ a b, b ∈ adjGet adj a ↔ a ∈ adjGet adj b) {u : Int} :
    ∀ {v : Int}, Reaches adj v u → ¬(v = u) →
      ∃ z, z ∈ adjGet adj u ∧ ¬(z = u) ∧
        Reaches (removeNode adj u) v z := by
  intro v h
  induction h using Relation.ReflTransGen.head_induction_on with
  | refl => intro hv; exact absurd rfl hv
  | @head a m hstep hrest ih =>
    intro hv
    by_cases hm : m = u
    · refine ⟨a, ?_, hv, Relation.ReflTransGen.refl⟩
      exact (hsym a u).1 (hm ▸ hstep)
    · rcases ih hm with ⟨z, hz1, hz2, hz3⟩
      exact ⟨z, hz1, hz2, Relation.ReflTransGen.head
        (mem_adjGet_removeNode.2 ⟨hstep, hm, hv⟩) hz3⟩

theorem reaches_detour {adj : AdjMap}
    (hsym : ∀ a b, b ∈ adjGet adj a ↔ a ∈ adjGet adj b) {u : Int}
    (hnb : ∀ z₁ z₂, z₁ ∈ adjGet adj u → z₂ ∈ adjGet adj u → ¬(z₁ = u) →
      ¬(z₂ = u) → Reaches (removeNode adj u) z₁ z₂) :
    ∀ {v w : Int}, ¬(v = u) → Reaches adj v w → ¬(w = u) →
      Reaches (removeNode adj u) v w := by
  intro v w hv h
  induction h with
  | refl => intro _; exact Relation.ReflTransGen.refl
  | @tail b c hab hbc ih =>
    intro hw
    by_cases hb : b = u
    · have hvu : Reaches adj v u := hb ▸ hab
      rcases reaches_u_neighbor hsym hvu hv with ⟨z, hz1, hz2, hz3⟩
      have hcu : c ∈ adjGet adj u := hb ▸ hbc
      exact hz3.trans (hnb z c hz1 hcu hz2 hw)
    · exact Relation.ReflTransGen.tail (ih hb)
        (mem_adjGet_removeNode.2 ⟨hbc, hw, hb⟩)

theorem marked_iff_cut {adj : AdjMap} {S : DfsState}
    (hsym : ∀ a b, b ∈ adjGet adj a ↔ a ∈ adjGet adj b)
    (hinv : DfsInv adj S []) (hpsrc : ∀ a b, pstep S a b → a ∈ S.visited)
    (hall : ∀ k ∈ adjKeys adj, k ∈ S.visited) (u : Int) :
    Marked S [] u ↔ ∃ v w, ¬(v = u) ∧ ¬(w = u) ∧ Reaches adj v w ∧
      ¬ Reaches (removeNode adj u) v w := by
  constructor
  · exact marked_sound hsym hinv hpsrc
  · rintro ⟨v, w, hv, hw, hR, hnR⟩
    by_contra hnM
    exact hnR (reaches_detour hsym
      (marked_complete_neighbors hsym hinv hpsrc hall hnM) hv hR hw)

/-- A decidable entry-wise check implies the absence of self-loops. -/
theorem adjIrr_of_check {adj : AdjMap}
    (h : ∀ p ∈ adj, p.1 ∉ p.2) : ∀ a, a ∉ adjGet adj a := by
  intro a ha
  rcases exists_entry_of_mem_adjGet ha with ⟨q, hq, hq1, hq2⟩
  exact h q hq (hq1.symm ▸ hq2)

set_option linter.unusedVariables false in
/-- C1: over a finite symmetric adjacency map without self-loops, a node
identifier is returned by `find_articulation_points` exactly when removing
it (with its incident edges) strictly increases the number of connected
components of the graph: every returned node's removal increases the
component count, and removal of a node not returned leaves it unchanged. -/
theorem find_articulation_points_iff_cut {adj : AdjMap}
    (hnd : (adjKeys adj).Nodup)
    (hsym : ∀ a b, b ∈ adjGet adj a ↔ a ∈ adjGet adj b)
    (hirr : ∀ a, a ∉ adjGet adj a) (u : Int) :
    u ∈ find_articulation_points adj ↔
      ncc adj < ncc (removeNode adj u) := by
  rcases fap_characterization hsym with ⟨S, hfap, hO, hall⟩
  rw [hfap, hO.art u, @ncc_increase_iff adj u hnd hsym]
  exact marked_iff_cut hsym hO.inv hO.psrc hall u

/-- Witness for C1: the path graph 1-2-3-4-5 satisfies the hypotheses, and
the theorem applies at its middle node. -/
theorem find_articulation_points_iff_cut_witness :
    (adjKeys pathGraphFive).Nodup ∧
    (∀ a b, b ∈ adjGet pathGraphFive a ↔ a ∈ adjGet pathGraphFive b) ∧
    (∀ a, a ∉ adjGet pathGraphFive a) ∧
    (3 ∈ find_articulation_points pathGraphFive ↔
      ncc pathGraphFive < ncc (removeNode pathGraphFive 3)) :=
  ⟨by decide, adjGet_symm_of_check (by decide), adjIrr_of_check (by decide),
   find_articulation_points_iff_cut (by decide)
     (adjGet_symm_of_check (by decide)) (adjIrr_of_check (by decide)) 3⟩

end NetViz
